import Mathlib

/-!
fileserver-api: storage and metadata subsystem

A shallow embedding of the Go sources under `internal/utils`, `internal/models`
and `internal/services`, followed by theorems about them.

Conventions of the embedding

* A Go `string` is a `List Char` (`GoString`): text that is valid UTF-8.  `len` is the
  number of UTF-8 bytes (`goLen`).  The texts that reach the metadata document from a
  request unchecked, the filename and the uploader, may hold bytes that are not valid
  UTF-8; they are `RawString`s.
* A Go `error` is an `Option String`: `none` is `nil`, `some msg` carries the message.
* A run-time panic (slice bounds out of range) is the result `none` of a function
  returning `Option`, or the constructor `panic` of a result type.
* `int` and `int64` are `Int` with explicit wrap-around to 64 bits (`wrap64`).
* Paths follow the Unix rules of `path/filepath` (separator `/`).
* The file system is a finite map from path to what stands there, a regular file with
  its content or a directory.  Reads are a function of that map; every call that changes
  the file system can fail as directed by an explicit environment argument.
-/

set_option autoImplicit false
set_option maxRecDepth 100000

/-! ## Go strings -/

/-- A Go string holding valid UTF-8 text. -/
abbrev GoString := List Char

/-- One element of a Go string that need not be valid UTF-8: a rune, or a byte that is
not part of a well-formed UTF-8 sequence. -/
inductive RawRune where
  | rune (c : Char)
  | invalid (byte : Nat)
deriving DecidableEq, Repr

/-- A Go string that need not be valid UTF-8. -/
abbrev RawString := List RawRune

namespace RawString

/-- The runes that Go reads from the string (`range`, `regexp`, `strings.ToLower`,
`encoding/json`): every byte that is not part of a well-formed sequence reads as
U+FFFD. -/
def runes (s : RawString) : GoString :=
  s.map (fun u => match u with
    | .rune c => c
    | .invalid _ => '\uFFFD')

/-- Valid text as a Go string. -/
def ofValid (s : GoString) : RawString := s.map RawRune.rune

/-- Whether the string is valid UTF-8. -/
def isValid (s : RawString) : Bool :=
  s.all (fun u => match u with
    | .rune _ => true
    | .invalid _ => false)

end RawString

/-- Go `len(s)`: the number of bytes of the UTF-8 encoding. -/
def goLen (s : GoString) : Nat := (s.map Char.utf8Size).sum

/-- Go `s[:k]` on a string whose characters are single bytes: panics (`none`) unless
`0 ≤ k ≤ len(s)`. -/
def goSliceTo (s : GoString) (k : Int) : Option GoString :=
  if 0 ≤ k ∧ k ≤ (s.length : Int) then some (s.take k.toNat) else none

namespace strings

/-- Go `strings.HasPrefix`. -/
def HasPrefix (s pre : GoString) : Bool := pre.isPrefixOf s

/-- Go `strings.HasSuffix`. -/
def HasSuffix (s suf : GoString) : Bool := suf.reverse.isPrefixOf s.reverse

/-- Go `strings.TrimPrefix`: `s` without the leading `pre`, or `s` itself. -/
def TrimPrefix (s pre : GoString) : GoString :=
  if HasPrefix s pre then s.drop pre.length else s

/-- Go `strings.TrimSuffix`: `s` without the trailing `suf`, or `s` itself. -/
def TrimSuffix (s suf : GoString) : GoString :=
  if HasSuffix s suf then s.take (s.length - suf.length) else s

/-- Go `strings.ReplaceAll(s, old, new)` for a one-character `old`. -/
def ReplaceAllChar (s : GoString) (old : Char) (new : GoString) : GoString :=
  s.flatMap (fun c => if c = old then new else [c])

/-- Go `strings.Contains(s, substr)`. -/
def Contains : GoString → GoString → Bool
  | [], sub => sub.isEmpty
  | c :: s, sub => sub.isPrefixOf (c :: s) || Contains s sub

/-- Go `unicode.ToLower` on one rune: ASCII letters are shifted by the code itself, every
other rune goes through the Unicode case tables, which are taken as the parameter
`caseTable`. -/
def toLowerRune (caseTable : Char → Char) (r : Char) : Char :=
  if r.toNat < 128 then
    (if 'A'.toNat ≤ r.toNat ∧ r.toNat ≤ 'Z'.toNat then Char.ofNat (r.toNat + 32) else r)
  else caseTable r

/-- Go `strings.ToLower`. -/
def ToLower (caseTable : Char → Char) (s : GoString) : GoString :=
  s.map (toLowerRune caseTable)

/-- The first element of Go `strings.Split(s, "-")`: the text before the first dash. -/
def SplitDashFirst (s : GoString) : GoString := s.takeWhile (fun c => c != '-')

end strings

/-! ## path/filepath (Unix) -/

namespace filepath

/-- Scan of `filepath.Ext` from the last byte to the left; `acc` holds what was passed. -/
def extScan : List Char → List Char → GoString
  | [], _ => []
  | c :: rest, acc =>
    if c = '/' then [] else if c = '.' then '.' :: acc else extScan rest (c :: acc)

/-- Go `filepath.Ext`: the suffix beginning at the final dot of the final path element,
empty when there is no dot. -/
def Ext (path : GoString) : GoString := extScan path.reverse []

/-- Go `filepath.Base`: the last element of the path, after trailing slashes are removed;
`.` for the empty path and `/` for a path of slashes only. -/
def Base (path : GoString) : GoString :=
  if path = [] then ['.']
  else
    let stripped := (path.reverse.dropWhile (fun c => c == '/')).reverse
    let last := (stripped.reverse.takeWhile (fun c => c != '/')).reverse
    if last = [] then ['/'] else last

/-- Go `strings.Split(path, "/")`: the pieces between slashes, never an empty list. -/
def splitSlash : GoString → List GoString
  | [] => [[]]
  | c :: rest =>
    match splitSlash rest with
    | [] => [[c]]
    | seg :: segs => if c = '/' then [] :: seg :: segs else (c :: seg) :: segs

/-- One round of the loop of `filepath.Clean` on the path element `seg`; `stack` holds the
elements written so far, the last one first.  Empty and `.` elements are skipped, `..`
removes the last element when there is one to remove (in an unrooted path a leading run of
`..` is kept and grows), any other element is appended. -/
def cleanStep (rooted : Bool) (stack : List GoString) (seg : GoString) : List GoString :=
  if seg = [] ∨ seg = ['.'] then stack
  else if seg = ['.', '.'] then
    match stack with
    | top :: rest => if top = ['.', '.'] then seg :: top :: rest else rest
    | [] => if rooted then [] else [seg]
  else seg :: stack

/-- Whether the path begins with a separator. -/
def isRooted : GoString → Bool
  | c :: _ => c == '/'
  | [] => false

/-- Elements that `filepath.Clean` keeps for `path`, the last one first. -/
def cleanStack (path : GoString) : List GoString :=
  (splitSlash path).foldl (cleanStep (isRooted path)) []

/-- Text of a cleaned path: the kept elements joined by `/`, after the leading `/` of a
rooted path; the empty unrooted path is `.`. -/
def render (rooted : Bool) (stack : List GoString) : GoString :=
  let body := ['/'].intercalate stack.reverse
  if rooted then '/' :: body else if body = [] then ['.'] else body

/-- Normal form of the element stack of a cleaned path: every element is a proper name
without a slash, and `..` occurs only as a run at the bottom of an unrooted path. -/
def NormalStack (rooted : Bool) (stack : List GoString) : Prop :=
  (∀ s ∈ stack, s ≠ [] ∧ s ≠ ['.'] ∧ '/' ∉ s) ∧
  stack.Pairwise (fun upper lower => upper = ['.', '.'] → lower = ['.', '.']) ∧
  (rooted = true → ['.', '.'] ∉ stack)

/-- Go `filepath.Clean`. -/
def Clean (path : GoString) : GoString := render (isRooted path) (cleanStack path)

/-- Go `filepath.Join`: leading empty elements are ignored, the rest is joined by `/` and
cleaned; the result is empty when every element is empty. -/
def Join : List GoString → GoString
  | [] => []
  | e :: rest => if e = [] then Join rest else Clean (['/'].intercalate (e :: rest))

/-- Go `filepath.Dir`: the path up to and including its last slash, cleaned. -/
def Dir (path : GoString) : GoString :=
  Clean (path.reverse.dropWhile (fun c => c != '/')).reverse

/-- Scan of a path for the directories on the way to it; `acc` is the text passed so
far. -/
def ancestorsFrom (acc : GoString) : GoString → List GoString
  | [] => if acc = [] then [] else [acc]
  | c :: rest =>
    if c = '/' ∧ acc ≠ [] then acc :: ancestorsFrom (acc ++ [c]) rest
    else ancestorsFrom (acc ++ [c]) rest

/-- The directories that `os.MkdirAll(path)` sees to, the nearest to the root first: the
text before each slash of the path that is not its first character, and the path
itself. -/
def ancestors (path : GoString) : List GoString := ancestorsFrom [] path

end filepath

/-! ## internal/utils/validator.go -/

namespace utils

/-- Character class of `tagRegex`, `[a-zA-Z0-9_-]`. -/
def isTagChar (c : Char) : Bool :=
  ('a'.toNat ≤ c.toNat && c.toNat ≤ 'z'.toNat) || ('A'.toNat ≤ c.toNat && c.toNat ≤ 'Z'.toNat) ||
  ('0'.toNat ≤ c.toNat && c.toNat ≤ '9'.toNat) || c == '_' || c == '-'

/-- Complement of the class `[^a-zA-Z0-9._-]` of `SanitizeFilename`: the characters kept. -/
def isSafeChar (c : Char) : Bool :=
  ('a'.toNat ≤ c.toNat && c.toNat ≤ 'z'.toNat) || ('A'.toNat ≤ c.toNat && c.toNat ≤ 'Z'.toNat) ||
  ('0'.toNat ≤ c.toNat && c.toNat ≤ '9'.toNat) || c == '.' || c == '_' || c == '-'

/-- The call `tagRegex.MatchString`, for `^[a-zA-Z0-9_-]+$`. -/
def tagRegexMatch (tag : GoString) : Bool := tag ≠ [] && tag.all isTagChar

/-- The function `ValidateTag`. -/
def ValidateTag (tag : GoString) : Option String :=
  if tag = [] then some "tag is required"
  else if goLen tag > 50 then some "tag is too long (max 50 characters)"
  else if !tagRegexMatch tag then
    some "tag must contain only alphanumeric characters, dashes, and underscores"
  else none

/-- The extension that `ValidateFileExtension` compares: no leading dot, lower case. -/
def validatedExt (caseTable : Char → Char) (filename : GoString) : GoString :=
  strings.ToLower caseTable (strings.TrimPrefix (filepath.Ext filename) ['.'])

/-- The loop of `ValidateFileExtension` over the allow-list. -/
def extAllowed (caseTable : Char → Char) (ext : GoString) : List GoString → Bool
  | [] => false
  | allowed :: rest =>
    if strings.ToLower caseTable allowed = ext then true else extAllowed caseTable ext rest

/-- The function `ValidateFileExtension`. -/
def ValidateFileExtension (caseTable : Char → Char) (filename : GoString)
    (allowedExtensions : List GoString) : Option String :=
  let ext := validatedExt caseTable filename
  if ext = [] then some "file has no extension"
  else if extAllowed caseTable ext allowedExtensions then none
  else some ("file extension \x27." ++ String.mk ext ++ "\x27 is not allowed")

/-- The function `ValidateFileSize`; `/` of Go truncates toward zero. -/
def ValidateFileSize (size maxSize : Int) : Option String :=
  if size ≤ 0 then some "file is empty"
  else if size > maxSize then
    some ("file size exceeds maximum limit (" ++
      toString (Int.tdiv (Int.tdiv maxSize 1024) 1024) ++ " MB)")
  else none

/-- The function `SanitizeFilename`.  After the regular expression every character is one byte, so
`len` and the slice count characters.  `none` is the panic of `name[:200-len(ext)]`. -/
def SanitizeFilename (filename : GoString) : Option GoString :=
  let filename := filepath.Base filename
  let filename := strings.ReplaceAllChar filename (Char.ofNat 0) []
  let filename := strings.ReplaceAllChar filename ' ' ['_']
  let filename := filename.filter isSafeChar
  let filename := strings.TrimPrefix filename ['.']
  if filename.length > 200 then
    let ext := filepath.Ext filename
    let name := strings.TrimSuffix filename ext
    match goSliceTo name (200 - (ext.length : Int)) with
    | some name => some (name ++ ext)
    | none => none
  else some filename

/-- The value of `filename` in `SanitizeFilename` when the length check is reached: the
result of the first five steps. -/
def strippedName (filename : GoString) : GoString :=
  strings.TrimPrefix
    ((strings.ReplaceAllChar (strings.ReplaceAllChar (filepath.Base filename) (Char.ofNat 0) [])
      ' ' ['_']).filter isSafeChar) ['.']

/-- A hexadecimal digit, as in the text of a UUID. -/
def isHexChar (c : Char) : Bool :=
  ('0'.toNat ≤ c.toNat && c.toNat ≤ '9'.toNat) || ('a'.toNat ≤ c.toNat && c.toNat ≤ 'f'.toNat) ||
  ('A'.toNat ≤ c.toNat && c.toNat ≤ 'F'.toNat)

/-- A safe path segment: not empty, every character in `[A-Za-z0-9._-]`, and neither `.`
nor `..`. -/
def IsSafeSegment (s : GoString) : Prop :=
  s ≠ [] ∧ (∀ c ∈ s, isSafeChar c = true) ∧ s ≠ ['.'] ∧ s ≠ ['.', '.']

/-- The function `IsValidFilename`. -/
def IsValidFilename (filename : GoString) : Bool :=
  if filename = [] then false
  else if strings.Contains filename ['.', '.'] then false
  else if filename.any (fun c => c == '/' || c == '\\') then false
  else true

/-! ## internal/utils/filename.go -/

/-- The function `ExtractExtension`. -/
def ExtractExtension (caseTable : Char → Char) (filename : GoString) : GoString :=
  strings.ToLower caseTable (filepath.Ext filename)

/-- The function `GenerateUniqueFilename`; `id` is the text of `uuid.New().String()`.  `none` when
`SanitizeFilename` panics. -/
def GenerateUniqueFilename (caseTable : Char → Char) (originalName id : GoString) :
    Option GoString :=
  match SanitizeFilename originalName with
  | none => none
  | some sanitized =>
    let ext := ExtractExtension caseTable sanitized
    let nameWithoutExt := strings.TrimSuffix sanitized ext
    let nameWithoutExt := strings.TrimSuffix nameWithoutExt ['.']
    let nameWithoutExt := if nameWithoutExt = [] then "file".toList else nameWithoutExt
    let shortID := strings.SplitDashFirst id
    if ext ≠ [] then some (nameWithoutExt ++ '_' :: shortID ++ ext)
    else some (nameWithoutExt ++ '_' :: shortID)

/-- The function `SanitizeName`: the same as `SanitizeFilename`. -/
def SanitizeName (filename : GoString) : Option GoString := SanitizeFilename filename

/-- The function `GetNameWithoutExtension`: the name without its extension, the extension
taken in the letter case it has. -/
def GetNameWithoutExtension (filename : GoString) : GoString :=
  strings.TrimSuffix filename (filepath.Ext filename)

end utils


/-! ## internal/models/file_meta.go -/

/-- The struct `models.FileMeta`.  `Size` is an `int64`; `UploadedAt` is the instant of the
`time.Time`, in nanoseconds. -/
structure FileMeta where
  FileID : GoString
  OriginalName : RawString
  Tag : GoString
  Size : Int
  ContentType : GoString
  Public : Bool
  UploadedAt : Int
  UploadedBy : RawString
deriving DecidableEq, Repr

/-- What `json.Unmarshal` finds in a document it accepts for a `FileMeta`: for each field
the value of its key, or `none` when the key is absent (the field is then left as it was). -/
structure MetaFields where
  file_id : Option GoString
  original_name : Option GoString
  tag : Option GoString
  size : Option Int
  content_type : Option GoString
  publicFlag : Option Bool
  uploaded_at : Option Int
  uploaded_by : Option GoString
deriving DecidableEq, Repr

/-- Content of a file, as far as this program looks at it: `json d` is a document that
`json.Unmarshal` decodes into a `FileMeta` without error, setting the fields `d`; `raw` is
any other content, given by its bytes. -/
inductive FileData where
  | raw (bytes : List Nat)
  | json (d : MetaFields)
deriving DecidableEq, Repr

/-- What stands at a path: a regular file with its content, or a directory. -/
inductive Entry where
  | file (content : FileData)
  | dir
deriving DecidableEq, Repr

/-- The file system: the regular files and the directories, by cleaned path.  A directory
is there when it is recorded; `os.MkdirAll` records the directories it creates.  A call
that cannot succeed as the file system stands (a file created where a directory is, a
directory removed while it holds files) fails through the environment argument. -/
abbrev FS := List (GoString × Entry)

namespace FS

/-- What stands at `path`, if anything does. -/
def read (fs : FS) (path : GoString) : Option Entry :=
  match fs with
  | [] => none
  | (p, d) :: rest => if p = path then some d else read rest path

/-- The file system without what stands at `path`. -/
def erase (fs : FS) (path : GoString) : FS := fs.filter (fun e => decide (e.1 ≠ path))

/-- The file system in which `path` holds `d`. -/
def put (fs : FS) (path : GoString) (d : Entry) : FS := (path, d) :: erase fs path

/-- The file system after `os.MkdirAll(path)` has returned `nil`: each directory on the
way to `path` at which nothing stood is added. -/
def mkdirAll (fs : FS) (path : GoString) : FS :=
  (filepath.ancestors path).foldl
    (fun acc p => if (read acc p).isSome then acc else (p, Entry.dir) :: acc) fs

end FS

/-- Outcome, chosen by the environment, of a call that writes a file. -/
inductive WriteOutcome where
  /-- the call returns `nil` -/
  | done
  /-- the call fails and the target is as before -/
  | refused
  /-- the call fails after the target was created or truncated; it now holds `left` -/
  | broken (left : FileData)
deriving DecidableEq, Repr

namespace os

/-- Text standing for the message of an operating-system error. -/
def errText : String := "input/output error"

/-- Go `os.Stat(path)` as used here: whether `err == nil`, which is so for a regular file
and for a directory. -/
def Stat (fs : FS) (path : GoString) : Bool := (fs.read path).isSome

/-- Go `os.ReadFile`: the content of a regular file; an error for a directory. -/
def ReadFile (fs : FS) (path : GoString) : Except String FileData :=
  match fs.read path with
  | some (.file d) => .ok d
  | some .dir => .error "is a directory"
  | none => .error "no such file or directory"

/-- Error of `os.Remove`, split the way `os.IsNotExist` splits it. -/
inductive RemoveError where
  | notExist
  | other
deriving DecidableEq, Repr

/-- Go `os.Remove` of what stands at the path, a file or a directory; with `fault` the
call fails for a reason other than absence (a directory that is not empty, a permission)
and nothing is removed. -/
def Remove (fault : Bool) (fs : FS) (path : GoString) : Option RemoveError × FS :=
  if fault then (some .other, fs)
  else if Stat fs path then (none, fs.erase path) else (some .notExist, fs)

/-- Go `os.MkdirAll(path, 0755)`; with `fault` the call fails and creates nothing. -/
def MkdirAll (fault : Bool) (fs : FS) (path : GoString) : Option String × FS :=
  if fault then (some errText, fs) else (none, fs.mkdirAll path)

/-- Go `os.WriteFile(path, data, 0644)`. -/
def WriteFile (outcome : WriteOutcome) (fs : FS) (path : GoString) (data : FileData) :
    Option String × FS :=
  match outcome with
  | .done => (none, fs.put path (.file data))
  | .refused => (some errText, fs)
  | .broken left => (some errText, fs.put path (.file left))

end os

/-- The suffix `.meta.json` of a metadata file. -/
def metaSuffix : GoString := ".meta.json".toList

namespace FileMeta

/-- The zero value of the struct. -/
def zero : FileMeta :=
  { FileID := [], OriginalName := [], Tag := [], Size := 0, ContentType := [],
    Public := false, UploadedAt := 0, UploadedBy := [] }

/-- Document written by `json.MarshalIndent(fm, "", "  ")`: every key is present, and a
string is written as the runes that `encoding/json` reads from it, U+FFFD standing for
each byte that is not valid UTF-8. -/
def marshal (fm : FileMeta) : MetaFields :=
  { file_id := some fm.FileID, original_name := some (RawString.runes fm.OriginalName),
    tag := some fm.Tag, size := some fm.Size, content_type := some fm.ContentType,
    publicFlag := some fm.Public, uploaded_at := some fm.UploadedAt,
    uploaded_by := some (RawString.runes fm.UploadedBy) }

/-- Effect of `json.Unmarshal(data, fm)` on `fm` for an accepted document. -/
def unmarshalInto (d : MetaFields) (fm : FileMeta) : FileMeta :=
  { FileID := d.file_id.getD fm.FileID,
    OriginalName := (d.original_name.map RawString.ofValid).getD fm.OriginalName,
    Tag := d.tag.getD fm.Tag,
    Size := d.size.getD fm.Size,
    ContentType := d.content_type.getD fm.ContentType,
    Public := d.publicFlag.getD fm.Public,
    UploadedAt := d.uploaded_at.getD fm.UploadedAt,
    UploadedBy := (d.uploaded_by.map RawString.ofValid).getD fm.UploadedBy }

/-- The function `GetMetaPath`. -/
def GetMetaPath (fm : FileMeta) (storagePath : GoString) : GoString :=
  filepath.Join [storagePath, fm.Tag, fm.FileID ++ metaSuffix]

/-- The function `GetFilePath`. -/
def GetFilePath (fm : FileMeta) (storagePath : GoString) : GoString :=
  filepath.Join [storagePath, fm.Tag, fm.FileID]

/-- The function `Save`.  `mkdirFault` makes `os.MkdirAll` fail, `write` is the outcome of
`os.WriteFile`.  (`json.MarshalIndent` fails only for a timestamp whose year is outside
0..9999, which the `Int` timestamp does not represent.) -/
def Save (fm : FileMeta) (storagePath : GoString) (mkdirFault : Bool) (write : WriteOutcome)
    (fs : FS) : Option String × FS :=
  let metaPath := fm.GetMetaPath storagePath
  let metaDir := filepath.Dir metaPath
  match os.MkdirAll mkdirFault fs metaDir with
  | (some _, fs0) => (some ("failed to create metadata directory: " ++ os.errText), fs0)
  | (none, fs0) =>
    match os.WriteFile write fs0 metaPath (.json fm.marshal) with
    | (some e, fs1) => (some ("failed to write metadata file: " ++ e), fs1)
    | (none, fs1) => (none, fs1)

/-- The function `Load`: the receiver after the call, or the error. -/
def Load (fm : FileMeta) (storagePath : GoString) (fs : FS) : Except String FileMeta :=
  let metaPath := fm.GetMetaPath storagePath
  match os.ReadFile fs metaPath with
  | .error e => .error ("failed to read metadata file: " ++ e)
  | .ok (.raw _) => .error "failed to unmarshal metadata: invalid document"
  | .ok (.json d) => .ok (unmarshalInto d fm)

/-- The function `Delete`. -/
def Delete (fm : FileMeta) (storagePath : GoString) (removeFault : Bool) (fs : FS) :
    Option String × FS :=
  let metaPath := fm.GetMetaPath storagePath
  match os.Remove removeFault fs metaPath with
  | (some .other, fs1) => (some ("failed to delete metadata file: " ++ os.errText), fs1)
  | (_, fs1) => (none, fs1)

/-- The function `Exists`. -/
def Exists (fm : FileMeta) (storagePath : GoString) (fs : FS) : Bool :=
  os.Stat fs (fm.GetMetaPath storagePath)

/-- The function `LoadFromFile`. -/
def LoadFromFile (fs : FS) (metaPath : GoString) : Except String FileMeta :=
  match os.ReadFile fs metaPath with
  | .error e => .error ("failed to read metadata file: " ++ e)
  | .ok (.raw _) => .error "failed to unmarshal metadata: invalid document"
  | .ok (.json d) => .ok (unmarshalInto d zero)

end FileMeta

/-! ## internal/utils/file.go -/

namespace utils

/-- The function `GetContentType`.  `sniff` is the result of `mimetype.DetectFile` on the file (`none`
when it fails) and `typeByExtension` is `mime.TypeByExtension`. -/
def GetContentType (sniff : Option GoString) (typeByExtension : GoString → GoString)
    (filePath : GoString) : GoString × Option String :=
  match sniff with
  | none =>
    let contentType := typeByExtension (filepath.Ext filePath)
    if contentType = [] then ("application/octet-stream".toList, none) else (contentType, none)
  | some mtype => (mtype, none)

/-- The function `CreateDirectory`: `os.MkdirAll` is called when `os.Stat` finds nothing
at the path; `mkdirFault` makes it fail. -/
def CreateDirectory (mkdirFault : Bool) (fs : FS) (path : GoString) : Option String × FS :=
  if os.Stat fs path then (none, fs)
  else
    match os.MkdirAll mkdirFault fs path with
    | (some e, fs1) => (some ("failed to create directory: " ++ e), fs1)
    | (none, fs1) => (none, fs1)

/-- The function `FileExists`. -/
def FileExists (fs : FS) (filePath : GoString) : Bool := os.Stat fs filePath

/-- The function `DeleteFile`: absence of the file is not an error. -/
def DeleteFile (removeFault : Bool) (fs : FS) (filePath : GoString) : Option String × FS :=
  match os.Remove removeFault fs filePath with
  | (some .other, fs1) => (some ("failed to delete file: " ++ os.errText), fs1)
  | (_, fs1) => (none, fs1)

end utils


/-! ## filepath.Walk and sort.Slice -/

/-- One call that `filepath.Walk` makes to its walk function: the path, `info.IsDir()`
and the `err` argument. -/
structure WalkVisit where
  path : GoString
  isDir : Bool
  err : Option String
deriving DecidableEq, Repr

namespace filepath

/-- The list `l` without the leading `pre`, when `l` begins with it. -/
def dropLeading : List GoString → List GoString → Option (List GoString)
  | [], l => some l
  | _ :: _, [] => none
  | a :: pre, b :: l => if a = b then dropLeading pre l else none

/-- Elements of `path` below the directory `root`, when `path` lies below it. -/
def below (root path : GoString) : Option (List GoString) :=
  if isRooted root = isRooted path then
    match dropLeading (cleanStack root).reverse (cleanStack path).reverse with
    | some rel => if rel ≠ [] ∧ ['.', '.'] ∉ rel then some rel else none
    | none => none
  else none

/-- Ordering of the walk: element by element, names in byte order. -/
def walkLE (a b : List GoString × GoString) : Prop := a.1 ≤ b.1

instance : DecidableRel walkLE := fun a b => inferInstanceAs (Decidable (a.1 ≤ b.1))

/-- Calls of Go `filepath.Walk(root, fn)` for the files and the recorded directories of
`fs` below the root, in lexical order.  With `rootFault` the root cannot be examined and
the only call carries the error.  The call for the root itself, a directory, from which
the walk functions of this program return at once, is not generated. -/
def Walk (rootFault : Bool) (fs : FS) (root : GoString) : List WalkVisit :=
  if rootFault then [{ path := root, isDir := false, err := some os.errText }]
  else
    let paths := (fs.map (fun e => e.1)).dedup
    let under := paths.filterMap (fun p => (below root p).map (fun rel => (rel, p)))
    (under.insertionSort walkLE).map
      (fun e => { path := e.2, isDir := decide (fs.read e.2 = some Entry.dir),
                  err := none })

/-- Run of the walk function `fn` over the calls, threading the state it keeps; the walk
stops at the first error the function returns and returns it. -/
def walkWith {σ ν : Type} (fn : σ → ν → Except String σ) : σ → List ν →
    Except String σ
  | st, [] => .ok st
  | st, v :: rest =>
    match fn st v with
    | .error e => .error e
    | .ok st1 => walkWith fn st1 rest

end filepath

namespace sort

/-- Inner loop of the insertion sort of Go `sort.Slice`: the element `x` moves left past
every element it is `less` than.  `left` is what stands to its left, nearest first. -/
def sink {α : Type} (less : α → α → Bool) (x : α) : List α → List α
  | [] => [x]
  | p :: left => if less x p then p :: sink less x left else x :: p :: left

/-- Go `sort.Slice`, by the insertion sort it runs on slices of up to 12 elements.  On a
longer slice the library runs a quicksort; its result is sorted under the same `less`
but may order elements that compare equal differently. -/
def Slice {α : Type} (less : α → α → Bool) (xs : List α) : List α :=
  (xs.foldl (fun left x => sink less x left) []).reverse

end sort

/-- Wrap-around of a 64-bit signed integer. -/
def wrap64 (x : Int) : Int := (x + 2 ^ 63) % 2 ^ 64 - 2 ^ 63

/-- Go `xs[lo:hi]` on a slice: panics (`none`) unless `0 ≤ lo ≤ hi ≤ len(xs)`. -/
def goSlice {α : Type} (xs : List α) (lo hi : Int) : Option (List α) :=
  if 0 ≤ lo ∧ lo ≤ hi ∧ hi ≤ (xs.length : Int) then
    some ((xs.drop lo.toNat).take (hi.toNat - lo.toNat))
  else none

/-! ## internal/config -/

/-- The part of `config.Config` that the services read; `BaseURL` is the value of
`GetBaseURL()`. -/
structure Config where
  BasePath : GoString
  MaxFileSize : Int
  AllowedExtensions : List GoString
  BaseURL : GoString

/-! ## internal/services/storage_service.go -/

/-- What the surroundings contribute to one call of `FileService.Upload`. -/
structure UploadEnv where
  /-- text of `uuid.New().String()` -/
  uuid : GoString
  /-- the call `time.Now()` -/
  now : Int
  /-- the call `req.File.Open()` fails -/
  openFault : Bool
  /-- bytes the opened upload yields -/
  body : FileData
  /-- the call `os.MkdirAll` of the namespace directory fails -/
  mkdirFault : Bool
  /-- the call `os.Create` of the blob fails -/
  createFault : Bool
  /-- the call `io.Copy` fails after writing `left` (`none`: it succeeds) -/
  copyFault : Option FileData
  /-- the call `os.Remove` of the half-written blob fails -/
  cleanupFault : Bool
  /-- result of `mimetype.DetectFile` -/
  sniff : Option GoString
  /-- the call `mime.TypeByExtension` -/
  typeByExtension : GoString → GoString
  /-- the call `os.MkdirAll` of the metadata directory fails -/
  metaMkdirFault : Bool
  /-- outcome of `os.WriteFile` of the metadata -/
  metaWrite : WriteOutcome
  /-- the call `os.Remove` of the compensating `DeleteFile` fails -/
  rollbackFault : Bool

namespace StorageService

/-- The function `SaveFile`.  A failed `os.Chmod` is only logged and is left out. -/
def SaveFile (cfg : Config) (env : UploadEnv) (fs : FS) (tag fileID : GoString) :
    Option String × FS :=
  let dirPath := filepath.Join [cfg.BasePath, tag]
  match utils.CreateDirectory env.mkdirFault fs dirPath with
  | (some e, fs0) => (some ("failed to create directory: " ++ e), fs0)
  | (none, fs0) =>
    let filePath := filepath.Join [dirPath, fileID]
    if env.createFault then (some ("failed to create file: " ++ os.errText), fs0)
    else
      match env.copyFault with
      | some left =>
        -- the file was created and holds `left`; `os.Remove(filePath)`, result ignored
        ((some ("failed to save file: " ++ os.errText)),
          (os.Remove env.cleanupFault (fs0.put filePath (.file left)) filePath).2)
      | none => (none, fs0.put filePath (.file env.body))

/-- The function `GetFile`. -/
def GetFile (cfg : Config) (fs : FS) (tag fileID : GoString) : Except String GoString :=
  let filePath := filepath.Join [cfg.BasePath, tag, fileID]
  if !utils.FileExists fs filePath then .error "file not found" else .ok filePath

/-- The function `DeleteFile`. -/
def DeleteFile (cfg : Config) (removeFault : Bool) (fs : FS) (tag fileID : GoString) :
    Option String × FS :=
  let filePath := filepath.Join [cfg.BasePath, tag, fileID]
  match utils.DeleteFile removeFault fs filePath with
  | (some e, fs1) => (some ("failed to delete file: " ++ e), fs1)
  | (none, fs1) => (none, fs1)

/-- The filters of a listing as the specification words them: the tag is empty or equal
to the record's, the public flag is absent or equal to the record's, and the search term
is empty or occurs, letter case aside, in the original filename or in the identifier. -/
def matchesFilters (caseTable : Char → Char) (filterTag : GoString)
    (filterPublic : Option Bool) (search : GoString) (r : FileMeta) : Prop :=
  (filterTag = [] ∨ r.Tag = filterTag) ∧
  (filterPublic = none ∨ some r.Public = filterPublic) ∧
  (search = [] ∨
    strings.Contains (strings.ToLower caseTable (RawString.runes r.OriginalName))
      (strings.ToLower caseTable search) = true ∨
    strings.Contains (strings.ToLower caseTable r.FileID)
      (strings.ToLower caseTable search) = true)

instance (caseTable : Char → Char) (filterTag : GoString) (filterPublic : Option Bool)
    (search : GoString) : DecidablePred (matchesFilters caseTable filterTag filterPublic search) :=
  fun _ => inferInstanceAs (Decidable (_ ∧ _ ∧ _))

/-- The record that a call of the walk yields: the one parsed from a regular file whose
path ends in `.meta.json`, when it parses. -/
def parsedRecord (fs : FS) (v : WalkVisit) : Option FileMeta :=
  if v.isDir = false ∧ strings.HasSuffix v.path metaSuffix = true then
    (FileMeta.LoadFromFile fs v.path).toOption
  else none

/-- The walk function of `ListFiles`; the state is the slice `files`. -/
def listWalkFn (caseTable : Char → Char) (fs : FS) (filterTag : GoString)
    (filterPublic : Option Bool) (search : GoString) (files : List FileMeta)
    (v : WalkVisit) : Except String (List FileMeta) :=
  match v.err with
  | some e => .error e
  | none =>
    if v.isDir then .ok files
    else if !strings.HasSuffix v.path metaSuffix then .ok files
    else
      match FileMeta.LoadFromFile fs v.path with
      | .error _ => .ok files
      | .ok fm =>
        if filterTag ≠ [] ∧ fm.Tag ≠ filterTag then .ok files
        else if filterPublic ≠ none ∧ some fm.Public ≠ filterPublic then .ok files
        else if search ≠ [] ∧
            (let searchLower := strings.ToLower caseTable search
             !strings.Contains (strings.ToLower caseTable (RawString.runes fm.OriginalName))
               searchLower &&
             !strings.Contains (strings.ToLower caseTable fm.FileID) searchLower) then .ok files
        else .ok (files ++ [fm])

/-- The function `ListFiles` over the calls `visits` of the walk. -/
def listFilesOver (caseTable : Char → Char) (fs : FS) (visits : List WalkVisit)
    (filterTag : GoString) (filterPublic : Option Bool) (search : GoString) :
    Except String (List FileMeta) :=
  match filepath.walkWith (listWalkFn caseTable fs filterTag filterPublic search) [] visits with
  | .error e => .error ("failed to list files: " ++ e)
  | .ok files => .ok files

/-- The function `ListFiles`. -/
def ListFiles (caseTable : Char → Char) (cfg : Config) (rootFault : Bool) (fs : FS)
    (filterTag : GoString) (filterPublic : Option Bool) (search : GoString) :
    Except String (List FileMeta) :=
  listFilesOver caseTable fs (filepath.Walk rootFault fs cfg.BasePath)
    filterTag filterPublic search

/-- The function `FileExists`. -/
def FileExists (cfg : Config) (fs : FS) (tag fileID : GoString) : Bool :=
  utils.FileExists fs (filepath.Join [cfg.BasePath, tag, fileID])

end StorageService

/-! ## internal/services/file_service.go -/

/-- The fields of `multipart.FileHeader` that are read. -/
structure FileHeader where
  Filename : RawString
  Size : Int

/-- The struct `UploadRequest`. -/
structure UploadRequest where
  File : FileHeader
  Tag : GoString
  Public : Bool
  UploadedBy : RawString

/-- The struct `UploadResponse`. -/
structure UploadResponse where
  FileID : GoString
  OriginalName : RawString
  URL : GoString
  Tag : GoString
  Size : Int
  ContentType : GoString
  Public : Bool
  UploadedAt : Int
  UploadedBy : RawString
deriving DecidableEq, Repr

/-- Result of a call: a value with a `nil` error, an error, or a run-time panic. -/
inductive Outcome (α : Type) where
  | ok (value : α)
  | error (msg : String)
  | panic
deriving DecidableEq, Repr

/-- What the surroundings contribute to one call of `FileService.Delete`. -/
structure DeleteEnv where
  /-- the call `os.Remove` of the blob fails -/
  blobFault : Bool
  /-- the call `os.Remove` of the metadata file fails -/
  metaFault : Bool

/-- The struct `ListRequest`; `Public` is `none` for a nil pointer. -/
structure ListRequest where
  Tag : GoString
  Public : Option Bool
  Search : GoString
  Page : Int
  Limit : Int
  SortDesc : Bool

namespace FileService

/-- The function `Upload`: the result and the file system after the call.  The validator
of the extension and the identifier generator are applied to the runes of the filename:
they read it through `regexp` and `strings.ToLower`, which read an invalid byte as
U+FFFD, and otherwise only compare its bytes with `/`, `.`, the space and the null
byte. -/
def Upload (caseTable : Char → Char) (cfg : Config) (env : UploadEnv) (fs : FS)
    (req : UploadRequest) : Outcome UploadResponse × FS :=
  match utils.ValidateTag req.Tag with
  | some e => (.error ("invalid tag: " ++ e), fs)
  | none =>
  match utils.ValidateFileSize req.File.Size cfg.MaxFileSize with
  | some e => (.error e, fs)
  | none =>
  match utils.ValidateFileExtension caseTable (RawString.runes req.File.Filename) cfg.AllowedExtensions with
  | some e => (.error e, fs)
  | none =>
  match utils.GenerateUniqueFilename caseTable (RawString.runes req.File.Filename) env.uuid with
  | none => (.panic, fs)
  | some fileID =>
  if env.openFault then (.error ("failed to open uploaded file: " ++ os.errText), fs)
  else
  match StorageService.SaveFile cfg env fs req.Tag fileID with
  | (some e, fs1) => (.error ("failed to save file: " ++ e), fs1)
  | (none, fs1) =>
  match StorageService.GetFile cfg fs1 req.Tag fileID with
  | .error e =>
    (.error ("failed to get file path: " ++ e),
      (StorageService.DeleteFile cfg env.rollbackFault fs1 req.Tag fileID).2)
  | .ok filePath =>
  let contentType :=
    match utils.GetContentType env.sniff env.typeByExtension filePath with
    | (_, some _) => "application/octet-stream".toList
    | (ct, none) => ct
  let fm : FileMeta :=
    { FileID := fileID, OriginalName := req.File.Filename, Tag := req.Tag,
      Size := req.File.Size, ContentType := contentType, Public := req.Public,
      UploadedAt := env.now, UploadedBy := req.UploadedBy }
  match fm.Save cfg.BasePath env.metaMkdirFault env.metaWrite fs1 with
  | (some e, fs2) =>
    (.error ("failed to save metadata: " ++ e),
      (StorageService.DeleteFile cfg env.rollbackFault fs2 req.Tag fileID).2)
  | (none, fs2) =>
    (.ok { FileID := fileID, OriginalName := req.File.Filename,
           URL := cfg.BaseURL ++ '/' :: req.Tag ++ '/' :: fileID,
           Tag := req.Tag, Size := req.File.Size, ContentType := contentType,
           Public := req.Public, UploadedAt := fm.UploadedAt, UploadedBy := req.UploadedBy },
      fs2)

/-- The function `Download`. -/
def Download (cfg : Config) (fs : FS) (tag fileID : GoString) :
    Except String (FileMeta × GoString) :=
  let fm : FileMeta := { FileMeta.zero with Tag := tag, FileID := fileID }
  match fm.Load cfg.BasePath fs with
  | .error _ => .error "file not found"
  | .ok fm =>
    match StorageService.GetFile cfg fs tag fileID with
    | .error _ => .error "file not found"
    | .ok filePath => .ok (fm, filePath)

/-- Whether the document stored for (tag, fileID), if there is one that parses, names this
tag and this identifier, or leaves them out.  Every document written by `Upload` does. -/
def recordNamesKey (cfg : Config) (fs : FS) (tag fileID : GoString) : Bool :=
  match os.ReadFile fs (filepath.Join [cfg.BasePath, tag, fileID ++ metaSuffix]) with
  | .ok (.json d) => decide (d.tag.getD tag = tag ∧ d.file_id.getD fileID = fileID)
  | _ => true

/-- The function `Delete`: the error and the file system after the call.  The metadata file is removed
at the path of the record as loaded. -/
def Delete (cfg : Config) (env : DeleteEnv) (fs : FS) (tag fileID : GoString) :
    Option String × FS :=
  let fm : FileMeta := { FileMeta.zero with Tag := tag, FileID := fileID }
  match fm.Load cfg.BasePath fs with
  | .error _ => (some "file not found", fs)
  | .ok fm =>
    match StorageService.DeleteFile cfg env.blobFault fs tag fileID with
    | (some e, fs1) => (some ("failed to delete file: " ++ e), fs1)
    | (none, fs1) =>
      -- a failure of `meta.Delete` is logged only
      (none, (fm.Delete cfg.BasePath env.metaFault fs1).2)

/-- The comparison given to `sort.Slice` in `List`: `After` or `Before` on `UploadedAt`. -/
def uploadLess (sortDesc : Bool) (a b : FileMeta) : Bool :=
  if sortDesc then decide (a.UploadedAt > b.UploadedAt)
  else decide (a.UploadedAt < b.UploadedAt)

/-- The order of the listing: newest first when `sortDesc`, oldest first otherwise; records
of equal upload time may stand either way round. -/
def inUploadOrder (sortDesc : Bool) (a b : FileMeta) : Prop :=
  if sortDesc then a.UploadedAt ≥ b.UploadedAt else a.UploadedAt ≤ b.UploadedAt

/-- The body of `List` after `ListFiles` has returned `allFiles`: sort, then cut the page.
The result is the page with the total count. -/
def listPage (allFiles : List FileMeta) (req : ListRequest) :
    Outcome (List FileMeta × Int) :=
  let allFiles := sort.Slice (uploadLess req.SortDesc) allFiles
  let totalItems : Int := allFiles.length
  let startIndex := wrap64 (wrap64 (req.Page - 1) * req.Limit)
  let endIndex := wrap64 (startIndex + req.Limit)
  if startIndex ≥ totalItems then .ok ([], totalItems)
  else
    let endIndex := if endIndex > totalItems then totalItems else endIndex
    match goSlice allFiles startIndex endIndex with
    | none => .panic
    | some paginatedFiles => .ok (paginatedFiles, totalItems)

/-- The function `List`. -/
def List (caseTable : Char → Char) (cfg : Config) (rootFault : Bool) (fs : FS)
    (req : ListRequest) : Outcome (List FileMeta × Int) :=
  match StorageService.ListFiles caseTable cfg rootFault fs req.Tag req.Public req.Search with
  | .error e => .error e
  | .ok allFiles => listPage allFiles req

end FileService

/-! ## internal/utils/file.go: FormatFileSize -/

namespace utils

/-- The loop `for n := bytes / unit; n >= unit; n /= unit` of `FormatFileSize`, entered
with the values of `n`, `div` and `exp`; the result is `div` and `exp` when it ends.  The
products and sums are those of 64-bit integers. -/
def unitLoop (n div exp : Int) : Int × Int :=
  if n ≥ 1024 then unitLoop (Int.tdiv n 1024) (wrap64 (div * 1024)) (wrap64 (exp + 1))
  else (div, exp)
termination_by n.toNat
decreasing_by
  have h1 : Int.tdiv n 1024 = n / 1024 := Int.tdiv_eq_ediv (by omega) (by omega)
  rw [h1]
  omega

/-- The text that `FormatFileSize` returns: `plain` carries the text itself; `scaled b d u`
stands for the quotient of `b` by `d` printed with one decimal, a space, the letter `u`
and `B` (the floating-point division and its printing are not spelled out). -/
inductive SizeText where
  | plain (text : GoString)
  | scaled (bytes div : Int) (unit : Char)
deriving DecidableEq, Repr

/-- The string `"KMGTPE"` that `FormatFileSize` indexes. -/
def unitLetters : GoString := "KMGTPE".toList

/-- The function `FormatFileSize`; `none` is the panic of an index out of range in
`"KMGTPE"[exp]`. -/
def FormatFileSize (bytes : Int) : Option SizeText :=
  if bytes < 1024 then some (.plain ((toString bytes).toList ++ " B".toList))
  else
    let r := unitLoop (Int.tdiv bytes 1024) 1024 0
    if 0 ≤ r.2 then
      match unitLetters.get? r.2.toNat with
      | some u => some (.scaled bytes r.1 u)
      | none => none
    else none

end utils

/-! ## internal/services/storage_service.go: GetStorageInfo -/

/-- What `GetStorageInfo` returns: `total_files`, the counter `totalSize` in bytes, and
`total_size`, the text `FormatFileSize(totalSize)` that the map holds. -/
structure StorageInfo where
  total_files : Int
  total_bytes : Int
  total_size : utils.SizeText
deriving DecidableEq, Repr

namespace StorageService

/-- The files that `GetStorageInfo` counts: regular files whose path does not end in
`.meta.json` and whose name is not `.gitkeep`. -/
def counted (v : WalkVisit × Int) : Bool :=
  !v.1.isDir && !strings.HasSuffix v.1.path metaSuffix &&
    !decide (filepath.Base v.1.path = ".gitkeep".toList)

/-- The walk function of `GetStorageInfo`; a call is the visit with `info.Size()`, the
state is the pair of `totalFiles` and `totalSize`, and `info.Name()` is the last element
of the path. -/
def statsWalkFn (st : Int × Int) (v : WalkVisit × Int) : Except String (Int × Int) :=
  match v.1.err with
  | some e => .error e
  | none =>
    if v.1.isDir then .ok st
    else if strings.HasSuffix v.1.path metaSuffix then .ok st
    else if filepath.Base v.1.path = ".gitkeep".toList then .ok st
    else .ok (wrap64 (st.1 + 1), wrap64 (st.2 + v.2))

/-- `GetStorageInfo` over the calls `visits` of the walk, each with the size of its file. -/
def getStorageInfoOver (visits : List (WalkVisit × Int)) : Outcome StorageInfo :=
  match filepath.walkWith statsWalkFn (0, 0) visits with
  | .error e => .error ("failed to get storage info: " ++ e)
  | .ok st =>
    match utils.FormatFileSize st.2 with
    | none => .panic
    | some text => .ok { total_files := st.1, total_bytes := st.2, total_size := text }

/-- The calls of the walk of `GetStorageInfo` over `fs`, each with the size of its file.
`sizeOf` gives the number of bytes of a content, which the model of contents leaves open
for documents. -/
def statVisits (cfg : Config) (rootFault : Bool) (fs : FS) (sizeOf : FileData → Int) :
    List (WalkVisit × Int) :=
  (filepath.Walk rootFault fs cfg.BasePath).map
    (fun v => (v, match fs.read v.path with
                  | some (.file d) => sizeOf d
                  | _ => 0))

/-- The function `GetStorageInfo` on the file system `fs`. -/
def GetStorageInfo (cfg : Config) (rootFault : Bool) (fs : FS) (sizeOf : FileData → Int) :
    Outcome StorageInfo :=
  getStorageInfoOver (statVisits cfg rootFault fs sizeOf)

end StorageService

/-! ## internal/handlers/list.go -/

namespace strconv

/-- Result of Go `strconv.Atoi` on the decimal text of the integer `n`: the number when
it fits the 64-bit `int`, and an error (`none`) when it is out of range. -/
def atoiDecimal (n : Int) : Option Int :=
  if -(2 ^ 63) ≤ n ∧ n < 2 ^ 63 then some n else none

end strconv

namespace ListHandler

/-- The page number that `Handle` passes on; `atoi` is the result of `strconv.Atoi` on the
query value `page`, or on `1` when the query has none. -/
def pageOf (atoi : Option Int) : Int :=
  match atoi with
  | none => 1
  | some page => if page < 1 then 1 else page

/-- The limit that `Handle` passes on; `atoi` is the result of `strconv.Atoi` on the query
value `limit`, or on `50` when the query has none. -/
def limitOf (atoi : Option Int) : Int :=
  let limit :=
    match atoi with
    | none => 50
    | some limit => if limit < 1 then 50 else limit
  if limit > 100 then 100 else limit

/-- The `ListRequest` that `Handle` builds; `publicFilter` is the parsed query value
`public` (`none` when it is absent or not a boolean) and `sortOrder` the query value
`sort`, `desc` when absent. -/
def listRequest (tag search : GoString) (publicFilter : Option Bool) (page limit : Option Int)
    (sortOrder : GoString) : ListRequest :=
  { Tag := tag, Public := publicFilter, Search := search, Page := pageOf page,
    Limit := limitOf limit, SortDesc := decide (sortOrder = "desc".toList) }

end ListHandler

/-! ## Sequences of calls on the store -/

namespace utils

/-- A run of `n` hexadecimal digits. -/
def hexGroup (n : Nat) (s : GoString) : Bool := s.length == n && s.all isHexChar

/-- The form of the text of `uuid.New().String()`: groups of 8, 4, 4, 4 and 12
hexadecimal digits, separated by dashes. -/
def isUUIDText (u : GoString) : Bool :=
  hexGroup 8 (u.take 8) && (u.drop 8).head? == some '-' &&
  hexGroup 4 ((u.drop 9).take 4) && (u.drop 13).head? == some '-' &&
  hexGroup 4 ((u.drop 14).take 4) && (u.drop 18).head? == some '-' &&
  hexGroup 4 ((u.drop 19).take 4) && (u.drop 23).head? == some '-' &&
  hexGroup 12 (u.drop 24)

end utils

/-- One completed call of the file service on the store, with what the surroundings
contribute to it. -/
inductive Call where
  | upload (env : UploadEnv) (req : UploadRequest)
  | delete (env : DeleteEnv) (tag fileID : GoString)

namespace Call

/-- The store after the call, whatever the call returns. -/
def run (caseTable : Char → Char) (cfg : Config) (fs : FS) : Call → FS
  | .upload env req => (FileService.Upload caseTable cfg env fs req).2
  | .delete env tag fileID => (FileService.Delete cfg env fs tag fileID).2

/-- What is asked of a call on the store `fs` for the pairs of blob and metadata to be
kept.  A call that is rejected, or fails before it writes, is accepted as it is.  A call
of `Upload` that writes the blob and then fails (the copy fails, or the metadata cannot be
saved) must succeed in removing the blob again, and must not have written over something
that stood at the blob path; its metadata write must not leave a half-written file.  A
call of `Delete` that has removed the blob must succeed in removing the metadata file.
The UUID of a call of `Upload` that creates the blob file has the usual form. -/
def tidy (caseTable : Char → Char) (cfg : Config) (fs : FS) : Call → Bool
  | .upload env req =>
    match utils.ValidateTag req.Tag with
    | some _ => true
    | none =>
    match utils.ValidateFileSize req.File.Size cfg.MaxFileSize with
    | some _ => true
    | none =>
    match utils.ValidateFileExtension caseTable (RawString.runes req.File.Filename)
        cfg.AllowedExtensions with
    | some _ => true
    | none =>
    match utils.GenerateUniqueFilename caseTable (RawString.runes req.File.Filename)
        env.uuid with
    | none => true
    | some fileID =>
    if env.openFault then true
    else
    match utils.CreateDirectory env.mkdirFault fs (filepath.Join [cfg.BasePath, req.Tag]) with
    | (some _, _) => true
    | (none, fs0) =>
    if env.createFault then true
    else
    utils.isUUIDText env.uuid &&
    match env.copyFault with
    | some _ =>
      !env.cleanupFault && !os.Stat fs0 (filepath.Join [cfg.BasePath, req.Tag, fileID])
    | none =>
      if env.metaMkdirFault then
        !env.rollbackFault && !os.Stat fs0 (filepath.Join [cfg.BasePath, req.Tag, fileID])
      else
        match env.metaWrite with
        | .done => true
        | .refused =>
          !env.rollbackFault && !os.Stat fs0 (filepath.Join [cfg.BasePath, req.Tag, fileID])
        | .broken _ => false
  | .delete env tag fileID =>
    match FileMeta.Load { FileMeta.zero with Tag := tag, FileID := fileID } cfg.BasePath fs with
    | .error _ => true
    | .ok _ => env.blobFault || !env.metaFault

end Call

/-- The store reached from the empty store by the calls, in order. -/
def runCalls (caseTable : Char → Char) (cfg : Config) (calls : List Call) : FS :=
  calls.foldl (Call.run caseTable cfg) []

/-- Whether each of the calls, run in order from the store `fs`, is `tidy` on the store it
finds. -/
def tidyRun (caseTable : Char → Char) (cfg : Config) : FS → List Call → Bool
  | _, [] => true
  | fs, c :: rest =>
    c.tidy caseTable cfg fs && tidyRun caseTable cfg (c.run caseTable cfg fs) rest

/-- A complete pair at the blob path `pb`: the path is a directory, a slash and a proper
name that does not end in `.meta.json`; something stands there; and the file at `pb` with
`.meta.json` appended is a document written from a record whose metadata path it is. -/
def Paired (base : GoString) (fs : FS) (pb : GoString) : Prop :=
  (∃ D name : GoString, pb = D ++ '/' :: name ∧ name ≠ [] ∧ name ≠ ['.'] ∧
    name ≠ ['.', '.'] ∧ '/' ∉ name ∧ ¬ metaSuffix <:+ name) ∧
  (fs.read pb).isSome = true ∧
  ∃ fm : FileMeta, fs.read (pb ++ metaSuffix) = some (.file (.json fm.marshal)) ∧
    fm.GetMetaPath base = pb ++ metaSuffix

/-- Every regular file of the store is the blob or the metadata file of a complete pair,
and every directory is on the way to the directory of a valid tag. -/
def Consistent (base : GoString) (fs : FS) : Prop :=
  (∀ q d, fs.read q = some (Entry.file d) →
    ∃ pb, Paired base fs pb ∧ (q = pb ∨ q = pb ++ metaSuffix)) ∧
  (∀ q, fs.read q = some Entry.dir →
    ∃ tag, utils.ValidateTag tag = none ∧ q ∈ filepath.ancestors (filepath.Join [base, tag]))

/-! ## The wording of the specification -/

namespace Spec

/-- The final element of a path: the text after its last slash. -/
def finalElement (path : GoString) : GoString :=
  (path.reverse.takeWhile (fun c => c != '/')).reverse

/-- The extension of a filename in the words of the specification: the text after the last
dot of its final path element, empty when that element has no dot. -/
def extension (filename : GoString) : GoString :=
  if '.' ∈ finalElement filename then
    ((finalElement filename).reverse.takeWhile (fun c => c != '.')).reverse
  else []

/-- An ASCII letter, a digit, an underscore or a dash: the class `[A-Za-z0-9_-]`. -/
def tagChar (c : Char) : Prop :=
  ('A' ≤ c ∧ c ≤ 'Z') ∨ ('a' ≤ c ∧ c ≤ 'z') ∨ ('0' ≤ c ∧ c ≤ '9') ∨ c = '_' ∨ c = '-'

/-- The namespace pattern `^[A-Za-z0-9_-]{1,50}$`: between 1 and 50 characters, each of the
class. -/
def tagPattern (tag : GoString) : Prop :=
  1 ≤ tag.length ∧ tag.length ≤ 50 ∧ ∀ c ∈ tag, tagChar c

/-- A hidden file in the words of the specification: the name begins with a dot. -/
def hidden (name : GoString) : Bool := strings.HasPrefix name ['.']

/-- The files that the statistics count according to the specification: regular files
that are neither metadata files nor hidden files. -/
def countedFile (v : WalkVisit × Int) : Bool :=
  !v.1.isDir && !strings.HasSuffix (filepath.Base v.1.path) metaSuffix &&
    !hidden (filepath.Base v.1.path)

end Spec

/-! ## Sample data -/

namespace Sample

/-- A configuration: storage under `./storage`, files of up to 1000 bytes. -/
def cfg : Config :=
  { BasePath := "./storage".toList, MaxFileSize := 1000,
    AllowedExtensions := ["jpg".toList, "PNG".toList], BaseURL := "http://host".toList }

/-- Surroundings in which every call succeeds. -/
def env : UploadEnv :=
  { uuid := "1234abcd-0000-4000-8000-000000000000".toList, now := 5, openFault := false,
    body := .raw [1, 2], mkdirFault := false, createFault := false, copyFault := none,
    cleanupFault := false, sniff := none, typeByExtension := fun _ => [],
    metaMkdirFault := false, metaWrite := .done, rollbackFault := false }

/-- An upload request that passes validation under `cfg`. -/
def req : UploadRequest :=
  { File := { Filename := RawString.ofValid "My Cat.png".toList, Size := 2 }, Tag := "img".toList,
    Public := true, UploadedBy := RawString.ofValid "bob".toList }

/-- The identifier generated for `req` under `env`. -/
def fileID : GoString := "My_Cat_1234abcd.png".toList

/-- A request whose extension is not in the allow-list of `cfg`. -/
def badReq : UploadRequest :=
  { File := { Filename := RawString.ofValid "run.exe".toList, Size := 2 }, Tag := "img".toList,
    Public := true, UploadedBy := RawString.ofValid "bob".toList }

/-- The response to the upload of `req` under `env`. -/
def response : UploadResponse :=
  { FileID := fileID, OriginalName := RawString.ofValid "My Cat.png".toList,
    URL := "http://host/img/My_Cat_1234abcd.png".toList, Tag := "img".toList, Size := 2,
    ContentType := "application/octet-stream".toList, Public := true, UploadedAt := 5,
    UploadedBy := RawString.ofValid "bob".toList }

/-- The file system after the upload of `req`. -/
def stored : FS := (FileService.Upload id cfg env [] req).2

/-- A filename whose extension is longer than 200 characters: `a.` and then 201 `b`. -/
def longExtension : GoString := 'a' :: '.' :: List.replicate 201 'b'

/-- A name that begins with two dots. -/
def dotted : GoString := "..env".toList

/-- A name with two dots in a row inside. -/
def doubleDot : GoString := "a..b".toList

/-- A name whose stem has no ASCII character. -/
def foreignStem : GoString := "\u5199\u771f.jpg".toList

/-- A name with an upper-case extension. -/
def upperExtension : GoString := "photo.JPG".toList

/-- A name that is two dots and an upper-case extension. -/
def dottedUpper : GoString := "..JPG".toList

/-- The allow-list with the one extension `jpg`. -/
def jpgOnly : List GoString := ["jpg".toList]

/-- The text of a UUID. -/
def uuid : GoString := "1234abcd-0000-4000-8000-000000000000".toList

/-- A request with an empty tag and an empty file. -/
def emptyReq : UploadRequest :=
  { File := { Filename := RawString.ofValid "a.jpg".toList, Size := 0 }, Tag := [], Public := true,
    UploadedBy := RawString.ofValid "bob".toList }

/-- A store with a hidden file of 7 bytes, a blob of 3 bytes, its metadata file, which
does not parse, and an empty `.gitkeep`. -/
def withHidden : FS :=
  [("storage".toList, .dir), ("storage/img".toList, .dir),
   ("storage/img/.hidden".toList, .file (.raw [1, 2, 3, 4, 5, 6, 7])),
   ("storage/img/a.png".toList, .file (.raw [1, 2, 3])),
   ("storage/img/a.png.meta.json".toList, .file (.raw [123])),
   ("storage/.gitkeep".toList, .file (.raw []))]

/-- Size of a file: the number of its bytes; a metadata document is taken as 200 bytes. -/
def fileSize : FileData → Int
  | .raw bytes => bytes.length
  | .json _ => 200

/-- A second request that passes validation under `cfg`. -/
def otherReq : UploadRequest :=
  { File := { Filename := RawString.ofValid "b.jpg".toList, Size := 2 }, Tag := "doc".toList,
    Public := false, UploadedBy := RawString.ofValid "eve".toList }

/-- An upload and then a delete during which the removal of the metadata file fails. -/
def faultyCalls : List Call :=
  [.upload env req, .delete { blobFault := false, metaFault := true } "img".toList fileID]

/-- An upload and then a second upload that generates the same identifier, writes over
the blob, cannot write its metadata and removes the blob again. -/
def overwritingCalls : List Call :=
  [.upload env req, .upload { env with metaWrite := .refused } req]

/-- A run with failures of every accepted kind: an upload; an upload whose file cannot be
created; an upload whose metadata write is refused and whose blob is removed again; a
delete whose removal of the blob fails; an upload; and the delete of the first upload. -/
def calls : List Call :=
  [.upload env req,
   .upload { env with createFault := true } otherReq,
   .upload { env with metaWrite := .refused } otherReq,
   .delete { blobFault := true, metaFault := false } "img".toList fileID,
   .upload env otherReq,
   .delete { blobFault := false, metaFault := false } "img".toList fileID]

/-- A record uploaded at time `t`. -/
def record (name : String) (t : Int) (isPublic : Bool) : FileMeta :=
  { FileID := name.toList, OriginalName := RawString.ofValid name.toList, Tag := "img".toList, Size := 1,
    ContentType := [], Public := isPublic, UploadedAt := t, UploadedBy := [] }

/-- Five records of one namespace. -/
def five : List FileMeta :=
  [record "a" 3 true, record "b" 1 false, record "c" 5 true, record "d" 2 true,
   record "e" 4 false]

/-- A list request for page `page` of size `limit`, newest first. -/
def listReq (page limit : Int) : ListRequest :=
  { Tag := [], Public := none, Search := [], Page := page, Limit := limit, SortDesc := true }

/-- A file system with a public record, a private record and a metadata file that does
not parse. -/
def mixed : FS :=
  [("storage".toList, .dir), ("storage/img".toList, .dir),
   ("storage/img/b.png.meta.json".toList, .file (.json (record "b.png" 1 false).marshal)),
   ("storage/img/b.png".toList, .file (.raw [2])),
   ("storage/img/a.png.meta.json".toList, .file (.json (record "a.png" 3 true).marshal)),
   ("storage/img/a.png".toList, .file (.raw [1])),
   ("storage/img/c.png.meta.json".toList, .file (.raw [123]))]

/-- A file system in which the metadata file of `a.png` holds a document that names the
identifier `b.png`. -/
def misfiled : FS :=
  [("storage".toList, .dir), ("storage/img".toList, .dir),
   ("storage/img/a.png.meta.json".toList,
    Entry.file (FileData.json
      { file_id := some "b.png".toList, original_name := some "b.png".toList,
        tag := some "img".toList, size := some 1, content_type := none,
        publicFlag := some true, uploaded_at := some 1, uploaded_by := none }))]

/-- A filename that is not valid UTF-8: `caf`, the byte E9 (Latin-1 for an accented `e`)
and `.jpg`. -/
def latin1Name : RawString :=
  RawString.ofValid "caf".toList ++ [RawRune.invalid 0xE9] ++ RawString.ofValid ".jpg".toList

/-- An upload request with that filename. -/
def latin1Req : UploadRequest :=
  { File := { Filename := latin1Name, Size := 2 }, Tag := "img".toList,
    Public := true, UploadedBy := RawString.ofValid "bob".toList }

/-- A store in which a directory `sub`, holding a file, stands where the blob of
(`img`, `sub`) would be, beside a metadata file for that key. -/
def underDirectory : FS :=
  [("storage".toList, .dir), ("storage/img".toList, .dir), ("storage/img/sub".toList, .dir),
   ("storage/img/sub/x.png".toList, .file (.raw [1])),
   ("storage/img/sub.meta.json".toList, .file (.json (record "sub" 1 true).marshal))]

end Sample

/-! # Theorems -/

/-! ## The file system -/

theorem FS.read_erase (fs : FS) (p q : GoString) :
    (fs.erase p).read q = if q = p then none else fs.read q := by
  induction fs with
  | nil => simp [FS.erase, FS.read]
  | cons e rest ih =>
    obtain ⟨k, d⟩ := e
    by_cases hk : k = p
    · have : FS.erase ((k, d) :: rest) p = FS.erase rest p := by simp [FS.erase, hk]
      rw [this, ih]
      by_cases hq : q = p
      · simp [hq]
      · have hkq : ¬ k = q := fun h => hq (h ▸ hk)
        simp [hq, FS.read, hkq]
    · have : FS.erase ((k, d) :: rest) p = (k, d) :: FS.erase rest p := by simp [FS.erase, hk]
      rw [this]
      by_cases hkq : k = q
      · have hq : ¬ q = p := fun h => hk (hkq.trans h)
        simp [FS.read, hkq, hq]
      · simp only [FS.read, hkq, if_false]
        exact ih

theorem FS.read_put (fs : FS) (p q : GoString) (d : Entry) :
    (fs.put p d).read q = if q = p then some d else fs.read q := by
  by_cases hq : q = p
  · simp [FS.put, FS.read, hq]
  · have hpq : ¬ p = q := fun h => hq h.symm
    simp only [FS.put, FS.read, hpq, hq, if_false]
    rw [FS.read_erase]
    simp [hq]

theorem FS.read_foldl_dirs (ps : List GoString) :
    ∀ (fs : FS) (q : GoString),
      FS.read (ps.foldl
        (fun acc p => if (FS.read acc p).isSome then acc else (p, Entry.dir) :: acc) fs) q =
      match FS.read fs q with
      | some d => some d
      | none => if q ∈ ps then some Entry.dir else none := by
  induction ps with
  | nil =>
    intro fs q
    cases h : FS.read fs q <;> simp [h]
  | cons p rest ih =>
    intro fs q
    simp only [List.foldl_cons]
    rw [ih]
    by_cases hp : (FS.read fs p).isSome = true
    · simp only [hp, if_true]
      cases h : FS.read fs q with
      | some d => rfl
      | none =>
        have hne : q ≠ p := by
          intro e
          rw [e] at h
          rw [h] at hp
          simp at hp
        simp [hne]
    · simp only [hp, if_false]
      by_cases hq : p = q
      · subst hq
        have h : FS.read fs p = none := by
          cases h : FS.read fs p with
          | none => rfl
          | some d => rw [h] at hp; simp at hp
        simp [FS.read, h]
      · have hq2 : ¬ q = p := fun e => hq e.symm
        simp only [FS.read, hq, if_false]
        cases h : FS.read fs q with
        | some d => rfl
        | none => simp [hq2]

/-- Reading after `os.MkdirAll`: what stood at a path stands there; a directory stands at
each of the other paths on the way. -/
theorem FS.read_mkdirAll (fs : FS) (path q : GoString) :
    (fs.mkdirAll path).read q =
      match fs.read q with
      | some d => some d
      | none => if q ∈ filepath.ancestors path then some Entry.dir else none :=
  FS.read_foldl_dirs _ fs q

theorem FS.read_mkdirAll_of_some (fs : FS) (path q : GoString) (d : Entry)
    (h : fs.read q = some d) : (fs.mkdirAll path).read q = some d := by
  rw [FS.read_mkdirAll, h]

theorem FS.isSome_read_mkdirAll (fs : FS) (path q : GoString)
    (h : (fs.read q).isSome = true) : ((fs.mkdirAll path).read q).isSome = true := by
  cases hd : fs.read q with
  | none => rw [hd] at h; simp at h
  | some d => rw [FS.read_mkdirAll_of_some fs path q d hd]; rfl

theorem os.stat_after_remove (fs : FS) (p : GoString) :
    os.Stat (os.Remove false fs p).2 p = false := by
  unfold os.Remove
  by_cases h : os.Stat fs p = true
  · simp only [Bool.false_eq_true, if_false, h, if_true]
    simp [os.Stat, FS.read_erase]
  · simp only [Bool.false_eq_true, if_false, h]

/-! ## Validation failures leave the store alone -/

/-- C1.  When the tag, the size or the extension of an upload request fails validation
(in particular when the extension is absent or is not in the allow-list), `Upload`
returns an error and the file system it leaves is the one it was given. -/
theorem upload_invalid_request_touches_nothing (caseTable : Char → Char) (cfg : Config)
    (env : UploadEnv) (fs : FS) (req : UploadRequest)
    (h : utils.ValidateTag req.Tag ≠ none ∨
         utils.ValidateFileSize req.File.Size cfg.MaxFileSize ≠ none ∨
         utils.ValidateFileExtension caseTable (RawString.runes req.File.Filename)
           cfg.AllowedExtensions ≠ none ∨
         utils.validatedExt caseTable (RawString.runes req.File.Filename) = [] ∨
         (∀ a ∈ cfg.AllowedExtensions,
            strings.ToLower caseTable a ≠
              utils.validatedExt caseTable (RawString.runes req.File.Filename))) :
    (∃ msg, (FileService.Upload caseTable cfg env fs req).1 = Outcome.error msg) ∧
    (FileService.Upload caseTable cfg env fs req).2 = fs := by
  have hext : ∀ (ext : GoString) (l : List GoString),
      (∀ a ∈ l, strings.ToLower caseTable a ≠ ext) → utils.extAllowed caseTable ext l = false := by
    intro ext l
    induction l with
    | nil => intro _; rfl
    | cons a rest ih =>
      intro hl
      have ha : strings.ToLower caseTable a ≠ ext := hl a (by simp)
      simp only [utils.extAllowed, ha, if_false]
      exact ih (fun b hb => hl b (by simp [hb]))
  have hv : utils.ValidateTag req.Tag ≠ none ∨
      utils.ValidateFileSize req.File.Size cfg.MaxFileSize ≠ none ∨
      utils.ValidateFileExtension caseTable (RawString.runes req.File.Filename) cfg.AllowedExtensions ≠ none := by
    rcases h with h | h | h | h | h
    · exact Or.inl h
    · exact Or.inr (Or.inl h)
    · exact Or.inr (Or.inr h)
    · right; right
      simp [utils.ValidateFileExtension, h]
    · right; right
      by_cases he : utils.validatedExt caseTable (RawString.runes req.File.Filename) = []
      · simp [utils.ValidateFileExtension, he]
      · simp [utils.ValidateFileExtension, he, hext _ _ h]
  unfold FileService.Upload
  cases h1 : utils.ValidateTag req.Tag with
  | some e => exact ⟨⟨_, rfl⟩, rfl⟩
  | none =>
    cases h2 : utils.ValidateFileSize req.File.Size cfg.MaxFileSize with
    | some e => exact ⟨⟨_, rfl⟩, rfl⟩
    | none =>
      cases h3 : utils.ValidateFileExtension caseTable (RawString.runes req.File.Filename)
          cfg.AllowedExtensions with
      | some e => exact ⟨⟨_, rfl⟩, rfl⟩
      | none => simp [h1, h2, h3] at hv

/-! ## Cleaned paths -/

namespace filepath

theorem splitSlash_ne_nil (x : GoString) : splitSlash x ≠ [] := by
  cases x with
  | nil => simp [splitSlash]
  | cons c rest =>
    unfold splitSlash
    split
    · simp
    · split <;> simp

theorem splitSlash_cons (c : Char) (x : GoString) :
    ∃ seg segs, splitSlash x = seg :: segs ∧
      splitSlash (c :: x) = if c = '/' then [] :: seg :: segs else (c :: seg) :: segs := by
  cases h : splitSlash x with
  | nil => exact absurd h (splitSlash_ne_nil x)
  | cons seg segs =>
    refine ⟨seg, segs, rfl, ?_⟩
    simp only [splitSlash, h]

theorem splitSlash_append (x y : GoString) :
    splitSlash (x ++ '/' :: y) = splitSlash x ++ splitSlash y := by
  induction x with
  | nil =>
    obtain ⟨seg, segs, h1, h2⟩ := splitSlash_cons '/' y
    simp [h2, h1, splitSlash]
  | cons c rest ih =>
    obtain ⟨seg, segs, h1, h2⟩ := splitSlash_cons c rest
    obtain ⟨seg2, segs2, h3, h4⟩ := splitSlash_cons c (rest ++ '/' :: y)
    rw [List.cons_append, h4, h2]
    rw [ih, h1] at h3
    simp only [List.cons_append, List.cons.injEq] at h3
    obtain ⟨hs, hss⟩ := h3
    subst hs
    by_cases hc : c = '/'
    · simp [hc, h1, hss]
    · simp [hc, h1, hss]

theorem splitSlash_of_no_slash (s : GoString) (h : '/' ∉ s) : splitSlash s = [s] := by
  induction s with
  | nil => rfl
  | cons c rest ih =>
    have hc : c ≠ '/' := fun e => h (by simp [e])
    have hr : '/' ∉ rest := fun e => h (by simp [e])
    simp [splitSlash, ih hr, hc]

theorem no_slash_of_mem_splitSlash (x : GoString) :
    ∀ seg ∈ splitSlash x, '/' ∉ seg := by
  induction x with
  | nil => simp [splitSlash]
  | cons c rest ih =>
    obtain ⟨seg, segs, h1, h2⟩ := splitSlash_cons c rest
    rw [h1] at ih
    rw [h2]
    intro s hs
    by_cases hc : c = '/'
    · simp only [hc, if_true, List.mem_cons] at hs
      rcases hs with rfl | hs
      · simp
      · exact ih s (by simpa using hs)
    · simp only [hc, if_false, List.mem_cons] at hs
      rcases hs with rfl | hs
      · have := ih seg (by simp)
        simp only [List.mem_cons, not_or]
        exact ⟨fun e => hc e.symm, this⟩
      · exact ih s (by simp [hs])

theorem normalStack_nil (rooted : Bool) : NormalStack rooted [] := by
  simp [NormalStack]

theorem normalStack_tail {rooted : Bool} {top : GoString} {rest : List GoString}
    (h : NormalStack rooted (top :: rest)) : NormalStack rooted rest := by
  obtain ⟨h1, h2, h3⟩ := h
  refine ⟨fun s hs => h1 s (by simp [hs]), (List.pairwise_cons.mp h2).2, ?_⟩
  intro hr hm
  exact h3 hr (by simp [hm])

theorem cleanStep_of_normal {rooted : Bool} {top : GoString} {rest : List GoString}
    (h : NormalStack rooted (top :: rest)) : cleanStep rooted rest top = top :: rest := by
  obtain ⟨h1, h2, h3⟩ := h
  obtain ⟨hne, hnd, _⟩ := h1 top (by simp)
  unfold cleanStep
  simp only [hne, hnd, or_self, if_false]
  by_cases hdd : top = ['.', '.']
  · simp only [hdd, if_true]
    cases rest with
    | nil =>
      cases rooted with
      | true => exact absurd (by simp [hdd]) (h3 rfl)
      | false => simp
    | cons t rest2 =>
      have : t = ['.', '.'] := (List.pairwise_cons.mp h2).1 t (by simp) hdd
      simp [this]
  · simp [hdd]

theorem cleanStep_normal {rooted : Bool} {stack : List GoString} {seg : GoString}
    (h : NormalStack rooted stack) (hs : '/' ∉ seg) :
    NormalStack rooted (cleanStep rooted stack seg) := by
  unfold cleanStep
  by_cases h0 : seg = [] ∨ seg = ['.']
  · simp only [h0, if_true]; exact h
  · simp only [h0, if_false]
    have hne : seg ≠ [] := fun e => h0 (Or.inl e)
    have hnd : seg ≠ ['.'] := fun e => h0 (Or.inr e)
    by_cases hdd : seg = ['.', '.']
    · simp only [hdd, if_true]
      cases stack with
      | nil =>
        cases rooted with
        | true => simpa using normalStack_nil true
        | false =>
          refine ⟨?_, ?_, ?_⟩
          · intro s hs2
            simp only [Bool.false_eq_true, if_false, List.mem_singleton] at hs2
            subst hs2
            simp
          · simp
          · simp
      | cons t rest =>
        by_cases ht : t = ['.', '.']
        · simp only [ht, if_true]
          obtain ⟨h1, h2, h3⟩ := h
          refine ⟨?_, ?_, ?_⟩
          · intro s hs2
            simp only [List.mem_cons] at hs2
            rcases hs2 with rfl | hs2
            · simp
            · exact h1 s (by simpa [ht] using hs2)
          · rw [List.pairwise_cons]
            refine ⟨?_, by simpa [ht] using h2⟩
            intro b hb _
            simp only [List.mem_cons] at hb
            rcases hb with rfl | hb
            · rfl
            · exact (List.pairwise_cons.mp h2).1 b hb ht
          · intro hr
            exact absurd (by simp [ht]) (h3 hr)
        · simp only [ht, if_false]
          exact normalStack_tail h
    · simp only [hdd, if_false]
      obtain ⟨h1, h2, h3⟩ := h
      refine ⟨?_, ?_, ?_⟩
      · intro s hs2
        simp only [List.mem_cons] at hs2
        rcases hs2 with rfl | hs2
        · exact ⟨hne, hnd, hs⟩
        · exact h1 s hs2
      · rw [List.pairwise_cons]
        exact ⟨fun b _ e => absurd e hdd, h2⟩
      · intro hr hm
        simp only [List.mem_cons] at hm
        rcases hm with e | hm
        · exact hdd e.symm
        · exact h3 hr hm

theorem foldl_cleanStep_normal (rooted : Bool) (segs : List GoString) :
    ∀ stack, NormalStack rooted stack → (∀ s ∈ segs, '/' ∉ s) →
      NormalStack rooted (segs.foldl (cleanStep rooted) stack) := by
  induction segs with
  | nil => intro stack h _; exact h
  | cons s rest ih =>
    intro stack h hs
    simp only [List.foldl_cons]
    exact ih _ (cleanStep_normal h (hs s (by simp))) (fun t ht => hs t (by simp [ht]))

theorem cleanStack_normal (x : GoString) : NormalStack (isRooted x) (cleanStack x) :=
  foldl_cleanStep_normal _ _ _ (normalStack_nil _) (no_slash_of_mem_splitSlash x)

theorem foldl_cleanStep_reverse (rooted : Bool) (stack : List GoString)
    (h : NormalStack rooted stack) : stack.reverse.foldl (cleanStep rooted) [] = stack := by
  induction stack with
  | nil => rfl
  | cons top rest ih =>
    rw [List.reverse_cons, List.foldl_append, ih (normalStack_tail h)]
    simp only [List.foldl_cons, List.foldl_nil]
    exact cleanStep_of_normal h

end filepath

namespace filepath

theorem intercalate_nil : ['/'].intercalate ([] : List GoString) = [] := by
  simp [List.intercalate]

theorem intercalate_single (a : GoString) : ['/'].intercalate [a] = a := by
  simp [List.intercalate]

theorem intercalate_cons_cons (a b : GoString) (l : List GoString) :
    ['/'].intercalate (a :: b :: l) = a ++ '/' :: ['/'].intercalate (b :: l) := by
  simp [List.intercalate]

theorem intercalate_append_single (l : List GoString) (a : GoString) (h : l ≠ []) :
    ['/'].intercalate (l ++ [a]) = ['/'].intercalate l ++ '/' :: a := by
  induction l with
  | nil => exact absurd rfl h
  | cons b rest ih =>
    cases rest with
    | nil => simp [intercalate_cons_cons, intercalate_single]
    | cons c rest2 =>
      rw [List.cons_append, List.cons_append, intercalate_cons_cons, intercalate_cons_cons]
      rw [← List.cons_append, ih (by simp)]
      simp

theorem splitSlash_intercalate (l : List GoString) (h : l ≠ [])
    (hs : ∀ s ∈ l, '/' ∉ s) : splitSlash (['/'].intercalate l) = l := by
  induction l with
  | nil => exact absurd rfl h
  | cons a rest ih =>
    cases rest with
    | nil =>
      rw [intercalate_single]
      exact splitSlash_of_no_slash a (hs a (by simp))
    | cons b rest2 =>
      rw [intercalate_cons_cons, splitSlash_append, ih (by simp) (fun s m => hs s (by simp [m])),
        splitSlash_of_no_slash a (hs a (by simp))]
      rfl

theorem intercalate_eq_nil (l : List GoString) (hs : ∀ s ∈ l, s ≠ [])
    (h : ['/'].intercalate l = []) : l = [] := by
  cases l with
  | nil => rfl
  | cons a rest =>
    cases rest with
    | nil =>
      rw [intercalate_single] at h
      exact absurd h (hs a (by simp))
    | cons b rest2 =>
      rw [intercalate_cons_cons] at h
      simp at h

theorem isRooted_intercalate (l : List GoString)
    (hs : ∀ s ∈ l, s ≠ [] ∧ '/' ∉ s) : isRooted (['/'].intercalate l) = false := by
  cases l with
  | nil => rfl
  | cons a rest =>
    obtain ⟨hne, hsl⟩ := hs a (by simp)
    cases a with
    | nil => exact absurd rfl hne
    | cons c a2 =>
      have hc : c ≠ '/' := fun e => hsl (by simp [e])
      cases rest with
      | nil => simp [intercalate_single, isRooted, hc]
      | cons b rest2 => simp [intercalate_cons_cons, isRooted, hc]

theorem render_ne_nil (rooted : Bool) (stack : List GoString) : render rooted stack ≠ [] := by
  unfold render
  cases rooted with
  | true => simp
  | false =>
    by_cases h : ['/'].intercalate stack.reverse = []
    · simp [h]
    · simp [h]

theorem isRooted_render (rooted : Bool) (stack : List GoString)
    (h : NormalStack rooted stack) : isRooted (render rooted stack) = rooted := by
  unfold render
  cases rooted with
  | true => simp [isRooted]
  | false =>
    by_cases hb : ['/'].intercalate stack.reverse = []
    · simp [hb, isRooted]
    · simp only [Bool.false_eq_true, if_false, hb]
      exact isRooted_intercalate _ (fun s hs => by
        have := h.1 s (by simpa using hs)
        exact ⟨this.1, this.2.2⟩)

theorem cleanStack_render_aux (rooted : Bool) (stack : List GoString)
    (h : NormalStack rooted stack) :
    (splitSlash (render rooted stack)).foldl (cleanStep rooted) [] = stack := by
  have hsl : ∀ s ∈ stack.reverse, '/' ∉ s := fun s hs => (h.1 s (by simpa using hs)).2.2
  have hne : ∀ s ∈ stack.reverse, s ≠ [] := fun s hs => (h.1 s (by simpa using hs)).1
  by_cases hst : stack = []
  · subst hst
    cases rooted <;> simp [render, intercalate_nil, splitSlash, cleanStep]
  · have hrev : stack.reverse ≠ [] := by simpa using hst
    have hb : ['/'].intercalate stack.reverse ≠ [] := fun e =>
      hrev (intercalate_eq_nil _ hne e)
    unfold render
    cases rooted with
    | true =>
      simp only [if_true]
      have : ('/' :: ['/'].intercalate stack.reverse) =
          ([] : GoString) ++ '/' :: ['/'].intercalate stack.reverse := rfl
      rw [this, splitSlash_append, splitSlash_intercalate _ hrev hsl, List.foldl_append]
      simp only [splitSlash, List.foldl_cons, List.foldl_nil]
      have h0 : cleanStep true [] [] = [] := by simp [cleanStep]
      rw [h0]
      exact foldl_cleanStep_reverse true stack h
    | false =>
      simp only [Bool.false_eq_true, if_false, hb]
      rw [splitSlash_intercalate _ hrev hsl]
      exact foldl_cleanStep_reverse false stack h

theorem isRooted_append (x y : GoString) (h : x ≠ []) : isRooted (x ++ y) = isRooted x := by
  cases x with
  | nil => exact absurd rfl h
  | cons c rest => rfl

theorem cleanStack_append (x c : GoString) (h : x ≠ []) :
    cleanStack (x ++ '/' :: c) =
      (splitSlash c).foldl (cleanStep (isRooted x)) (cleanStack x) := by
  unfold cleanStack
  rw [isRooted_append x _ h, splitSlash_append, List.foldl_append]

theorem clean_ne_nil (x : GoString) : Clean x ≠ [] := render_ne_nil _ _

theorem isRooted_clean (x : GoString) : isRooted (Clean x) = isRooted x :=
  isRooted_render _ _ (cleanStack_normal x)

theorem cleanStack_clean (x : GoString) : cleanStack (Clean x) = cleanStack x := by
  have h := cleanStack_render_aux (isRooted x) (cleanStack x) (cleanStack_normal x)
  unfold cleanStack at h ⊢
  rw [isRooted_clean]
  exact h

/-- Cleaning is not disturbed by cleaning a leading part first. -/
theorem clean_clean_append (x c : GoString) (h : x ≠ []) :
    Clean (Clean x ++ '/' :: c) = Clean (x ++ '/' :: c) := by
  have e1 : Clean (Clean x ++ '/' :: c) =
      render (isRooted (Clean x ++ '/' :: c)) (cleanStack (Clean x ++ '/' :: c)) := rfl
  have e2 : Clean (x ++ '/' :: c) =
      render (isRooted (x ++ '/' :: c)) (cleanStack (x ++ '/' :: c)) := rfl
  rw [e1, e2, cleanStack_append _ _ (clean_ne_nil x), cleanStack_append _ _ h,
    isRooted_append _ _ (clean_ne_nil x), isRooted_append _ _ h, isRooted_clean,
    cleanStack_clean]

/-- The path `filepath.Join(filepath.Join(a, b), c)` is `filepath.Join(a, b, c)`: the path at which
`SaveFile` creates a blob is the path at which `GetFile` and `DeleteFile` look for it. -/
theorem join_join (a b c : GoString) : Join [Join [a, b], c] = Join [a, b, c] := by
  by_cases ha : a = []
  · by_cases hb : b = []
    · simp [Join, ha, hb]
    · have h1 : Join [a, b] = Clean b := by simp [Join, ha, hb, intercalate_single]
      have h2 : Join [a, b, c] = Clean (b ++ '/' :: c) := by
        simp [Join, ha, hb, intercalate_cons_cons, intercalate_single]
      rw [h1, h2]
      simp only [Join, clean_ne_nil, if_false, intercalate_cons_cons, intercalate_single]
      exact clean_clean_append b c hb
  · have h1 : Join [a, b] = Clean (a ++ '/' :: b) := by
      simp [Join, ha, intercalate_cons_cons, intercalate_single]
    have h2 : Join [a, b, c] = Clean ((a ++ '/' :: b) ++ '/' :: c) := by
      simp [Join, ha, intercalate_cons_cons, intercalate_single]
    rw [h1, h2]
    simp only [Join, clean_ne_nil, if_false, intercalate_cons_cons, intercalate_single]
    exact clean_clean_append _ c (by simp)

end filepath

/-! ## Upload, download and delete -/

theorem StorageService.deleteFile_snd (cfg : Config) (fault : Bool) (fs : FS)
    (tag fileID : GoString) :
    (StorageService.DeleteFile cfg fault fs tag fileID).2 =
      (os.Remove fault fs (filepath.Join [cfg.BasePath, tag, fileID])).2 := by
  simp only [StorageService.DeleteFile, utils.DeleteFile]
  generalize os.Remove fault fs (filepath.Join [cfg.BasePath, tag, fileID]) = r
  obtain ⟨e, fs1⟩ := r
  cases e with
  | none => rfl
  | some e => cases e <;> rfl

theorem FileMeta.save_fails (fm : FileMeta) (base : GoString) (mk : Bool) (w : WriteOutcome)
    (fs : FS) (h : mk = true ∨ w ≠ WriteOutcome.done) : (fm.Save base mk w fs).1 ≠ none := by
  unfold FileMeta.Save
  cases mk with
  | true => simp [os.MkdirAll]
  | false =>
    cases w with
    | done => simp at h
    | refused => simp [os.MkdirAll, os.WriteFile]
    | broken left => simp [os.MkdirAll, os.WriteFile]

theorem StorageService.saveFile_writes_blob (cfg : Config) (env : UploadEnv) (fs : FS)
    (tag fileID : GoString) (h : (StorageService.SaveFile cfg env fs tag fileID).1 = none) :
    StorageService.FileExists cfg (StorageService.SaveFile cfg env fs tag fileID).2
      tag fileID = true := by
  simp only [StorageService.SaveFile] at h ⊢
  generalize utils.CreateDirectory env.mkdirFault fs (filepath.Join [cfg.BasePath, tag]) = r
    at h ⊢
  obtain ⟨e, fs0⟩ := r
  cases e with
  | some e => simp at h
  | none =>
    cases hc : env.createFault with
    | true => simp [hc] at h
    | false =>
      cases hp : env.copyFault with
      | some left => simp [hc, hp] at h
      | none =>
        simp [hc, hp, StorageService.FileExists, utils.FileExists, os.Stat,
          filepath.join_join, FS.read_put]

/-- C2, as amended.  For an upload request that passes validation and whose blob write
succeeds, if the metadata write then fails, `Upload` returns an error, whether the
compensating removal works or not; and when the compensating removal of the blob does
not itself fail, no blob is present at (tag, fileID) in the file system that `Upload`
leaves, where `SaveFile` had written one. -/
theorem upload_metadata_failure_rolls_back (caseTable : Char → Char) (cfg : Config)
    (env : UploadEnv) (fs : FS) (req : UploadRequest) (fileID : GoString)
    (hv1 : utils.ValidateTag req.Tag = none)
    (hv2 : utils.ValidateFileSize req.File.Size cfg.MaxFileSize = none)
    (hv3 : utils.ValidateFileExtension caseTable (RawString.runes req.File.Filename) cfg.AllowedExtensions = none)
    (hid : utils.GenerateUniqueFilename caseTable (RawString.runes req.File.Filename) env.uuid = some fileID)
    (hopen : env.openFault = false)
    (hsave : (StorageService.SaveFile cfg env fs req.Tag fileID).1 = none)
    (hmeta : env.metaMkdirFault = true ∨ env.metaWrite ≠ WriteOutcome.done) :
    (∃ msg, (FileService.Upload caseTable cfg env fs req).1 = Outcome.error msg) ∧
    StorageService.FileExists cfg (StorageService.SaveFile cfg env fs req.Tag fileID).2
      req.Tag fileID = true ∧
    (env.rollbackFault = false →
      StorageService.FileExists cfg (FileService.Upload caseTable cfg env fs req).2
        req.Tag fileID = false) := by
  refine ⟨?_, StorageService.saveFile_writes_blob cfg env fs req.Tag fileID hsave, ?_⟩
  · unfold FileService.Upload
    simp only [hv1, hv2, hv3, hid, hopen, Bool.false_eq_true, if_false]
    cases hs : StorageService.SaveFile cfg env fs req.Tag fileID with
    | mk e fs1 =>
      rw [hs] at hsave
      simp only at hsave
      subst hsave
      simp only
      cases hg : StorageService.GetFile cfg fs1 req.Tag fileID with
      | error e => exact ⟨_, rfl⟩
      | ok filePath =>
        simp only
        split
        · exact ⟨_, rfl⟩
        · rename_i e2 fs2 hsv
          exact absurd (congrArg Prod.fst hsv) (FileMeta.save_fails _ _ _ _ _ hmeta)
  · intro hroll
    unfold FileService.Upload
    simp only [hv1, hv2, hv3, hid, hopen, Bool.false_eq_true, if_false]
    cases hs : StorageService.SaveFile cfg env fs req.Tag fileID with
    | mk e fs1 =>
      rw [hs] at hsave
      simp only at hsave
      subst hsave
      simp only
      cases hg : StorageService.GetFile cfg fs1 req.Tag fileID with
      | error e =>
        simp only [StorageService.FileExists, utils.FileExists,
          StorageService.deleteFile_snd, hroll]
        exact os.stat_after_remove _ _
      | ok filePath =>
        simp only
        split
        · simp only [StorageService.FileExists, utils.FileExists,
            StorageService.deleteFile_snd, hroll]
          exact os.stat_after_remove _ _
        · rename_i e2 fs2 hsv
          exact absurd (congrArg Prod.fst hsv) (FileMeta.save_fails _ _ _ _ _ hmeta)

theorem upload_invalid_request_touches_nothing_witness :
    utils.ValidateFileExtension id (RawString.runes Sample.badReq.File.Filename)
        Sample.cfg.AllowedExtensions ≠ none ∧
    (∃ msg, (FileService.Upload id Sample.cfg Sample.env Sample.stored Sample.badReq).1 =
      Outcome.error msg) ∧
    (FileService.Upload id Sample.cfg Sample.env Sample.stored Sample.badReq).2 =
      Sample.stored :=
  ⟨by decide,
   upload_invalid_request_touches_nothing id Sample.cfg Sample.env Sample.stored Sample.badReq
    (Or.inr (Or.inr (Or.inl (by decide))))⟩

/-- C2, as stated, fails: when the compensating removal fails too, `Upload` returns an
error and the blob it wrote stays in the file system. -/
theorem upload_rollback_can_leave_blob :
    utils.ValidateTag Sample.req.Tag = none ∧
    utils.ValidateFileSize Sample.req.File.Size Sample.cfg.MaxFileSize = none ∧
    utils.ValidateFileExtension id (RawString.runes Sample.req.File.Filename)
      Sample.cfg.AllowedExtensions = none ∧
    (StorageService.SaveFile Sample.cfg
      { Sample.env with metaWrite := .refused, rollbackFault := true } []
      Sample.req.Tag Sample.fileID).1 = none ∧
    (FileService.Upload id Sample.cfg
      { Sample.env with metaWrite := .refused, rollbackFault := true } [] Sample.req).1 =
      Outcome.error "failed to save metadata: failed to write metadata file: input/output error" ∧
    StorageService.FileExists Sample.cfg
      (FileService.Upload id Sample.cfg
        { Sample.env with metaWrite := .refused, rollbackFault := true } [] Sample.req).2
      Sample.req.Tag Sample.fileID = true := by
  decide

theorem upload_metadata_failure_rolls_back_witness :
    ((∃ msg, (FileService.Upload id Sample.cfg
      { Sample.env with metaWrite := .refused } [] Sample.req).1 = Outcome.error msg) ∧
    StorageService.FileExists Sample.cfg (StorageService.SaveFile Sample.cfg
      { Sample.env with metaWrite := .refused } [] Sample.req.Tag Sample.fileID).2
      Sample.req.Tag Sample.fileID = true ∧
    StorageService.FileExists Sample.cfg (FileService.Upload id Sample.cfg
      { Sample.env with metaWrite := .refused } [] Sample.req).2
      Sample.req.Tag Sample.fileID = false) ∧
    (∃ msg, (FileService.Upload id Sample.cfg
      { Sample.env with metaWrite := .refused, rollbackFault := true } [] Sample.req).1 =
        Outcome.error msg) :=
  ⟨⟨(upload_metadata_failure_rolls_back id Sample.cfg { Sample.env with metaWrite := .refused }
      [] Sample.req Sample.fileID (by decide) (by decide) (by decide) (by decide) rfl
      (by decide) (Or.inr (by decide))).1,
    (upload_metadata_failure_rolls_back id Sample.cfg { Sample.env with metaWrite := .refused }
      [] Sample.req Sample.fileID (by decide) (by decide) (by decide) (by decide) rfl
      (by decide) (Or.inr (by decide))).2.1,
    (upload_metadata_failure_rolls_back id Sample.cfg { Sample.env with metaWrite := .refused }
      [] Sample.req Sample.fileID (by decide) (by decide) (by decide) (by decide) rfl
      (by decide) (Or.inr (by decide))).2.2 rfl⟩,
   (upload_metadata_failure_rolls_back id Sample.cfg
      { Sample.env with metaWrite := .refused, rollbackFault := true }
      [] Sample.req Sample.fileID (by decide) (by decide) (by decide) (by decide) rfl
      (by decide) (Or.inr (by decide))).1⟩

theorem RawString.runes_ofValid (s : GoString) :
    RawString.runes (RawString.ofValid s) = s := by
  induction s with
  | nil => rfl
  | cons c rest ih =>
    simp only [RawString.runes, RawString.ofValid, List.map_cons, List.map_map] at ih ⊢
    rw [ih]

theorem RawString.ofValid_runes (s : RawString) (h : RawString.isValid s = true) :
    RawString.ofValid (RawString.runes s) = s := by
  induction s with
  | nil => rfl
  | cons u rest ih =>
    simp only [RawString.isValid, List.all_cons, Bool.and_eq_true] at h
    have ih2 := ih (by simpa [RawString.isValid] using h.2)
    cases u with
    | rune c =>
      simp only [RawString.runes, RawString.ofValid, List.map_cons] at ih2 ⊢
      rw [ih2]
    | invalid b => simp at h

/-- Reading back the document written from a record gives the record with the runes of
its original filename and of its uploader: the other fields are as they were. -/
theorem FileMeta.unmarshal_marshal (fm other : FileMeta) :
    FileMeta.unmarshalInto fm.marshal other =
      { fm with OriginalName := RawString.ofValid (RawString.runes fm.OriginalName),
                UploadedBy := RawString.ofValid (RawString.runes fm.UploadedBy) } := by
  cases fm
  rfl

theorem FileMeta.getMetaPath_unmarshal_marshal (fm other : FileMeta) (base : GoString) :
    (FileMeta.unmarshalInto fm.marshal other).GetMetaPath base = fm.GetMetaPath base := by
  cases fm
  rfl

/-- C3, as amended.  When `Upload` succeeds with response `r`, `Download` of the request
tag and `r.FileID` on the file system that `Upload` leaves succeeds: it returns the path
`Join(BasePath, tag, r.FileID)` and a record whose identifier, tag, size and public flag
are those of the request, as reported in `r`, and whose original filename and uploader
are the runes of those of the request, U+FFFD standing for each byte that is not valid
UTF-8; they are those of the request when these are valid UTF-8.  The response `r`
reports filename and uploader as submitted; content type and upload time of the record
are those reported in `r`. -/
theorem upload_then_download (caseTable : Char → Char) (cfg : Config) (env : UploadEnv)
    (fs fs1 : FS) (req : UploadRequest) (r : UploadResponse)
    (h : FileService.Upload caseTable cfg env fs req = (Outcome.ok r, fs1)) :
    ∃ fm, FileService.Download cfg fs1 req.Tag r.FileID =
        Except.ok (fm, filepath.Join [cfg.BasePath, req.Tag, r.FileID]) ∧
      fm.FileID = r.FileID ∧
      fm.OriginalName = RawString.ofValid (RawString.runes req.File.Filename) ∧
      (RawString.isValid req.File.Filename = true → fm.OriginalName = req.File.Filename) ∧
      r.OriginalName = req.File.Filename ∧
      fm.Tag = req.Tag ∧ r.Tag = req.Tag ∧
      fm.Size = req.File.Size ∧ r.Size = req.File.Size ∧
      fm.Public = req.Public ∧ r.Public = req.Public ∧
      fm.UploadedBy = RawString.ofValid (RawString.runes req.UploadedBy) ∧
      (RawString.isValid req.UploadedBy = true → fm.UploadedBy = req.UploadedBy) ∧
      r.UploadedBy = req.UploadedBy ∧
      fm.ContentType = r.ContentType ∧ fm.UploadedAt = r.UploadedAt := by
  unfold FileService.Upload at h
  cases h1 : utils.ValidateTag req.Tag with
  | some e => simp [h1] at h
  | none =>
  cases h2 : utils.ValidateFileSize req.File.Size cfg.MaxFileSize with
  | some e => simp [h1, h2] at h
  | none =>
  cases h3 : utils.ValidateFileExtension caseTable (RawString.runes req.File.Filename) cfg.AllowedExtensions with
  | some e => simp [h1, h2, h3] at h
  | none =>
  cases h4 : utils.GenerateUniqueFilename caseTable (RawString.runes req.File.Filename) env.uuid with
  | none => simp [h1, h2, h3, h4] at h
  | some fileID =>
  cases h5 : env.openFault with
  | true => simp [h1, h2, h3, h4, h5] at h
  | false =>
  cases hsave : StorageService.SaveFile cfg env fs req.Tag fileID with
  | mk e fs2 =>
  cases e with
  | some e => simp [h1, h2, h3, h4, h5, hsave] at h
  | none =>
  cases hget : StorageService.GetFile cfg fs2 req.Tag fileID with
  | error e => simp [h1, h2, h3, h4, h5, hsave, hget] at h
  | ok filePath =>
  simp only [h1, h2, h3, h4, h5, hsave, hget, Bool.false_eq_true, if_false] at h
  split at h
  · simp at h
  rename_i fs3 hmeta
  simp only [Prod.mk.injEq, Outcome.ok.injEq] at h
  obtain ⟨hr, hfs⟩ := h
  subst hr
  subst hfs
  -- the metadata write succeeded: the record is at its path
  have hget2 : (fs2.read (filepath.Join [cfg.BasePath, req.Tag, fileID])).isSome = true := by
    unfold StorageService.GetFile utils.FileExists os.Stat at hget
    by_cases hx : (fs2.read (filepath.Join [cfg.BasePath, req.Tag, fileID])).isSome = true
    · exact hx
    · simp [hx] at hget
  unfold FileMeta.Save at hmeta
  cases hmk : env.metaMkdirFault with
  | true => simp [hmk, os.MkdirAll] at hmeta
  | false =>
    cases hw : env.metaWrite with
    | refused => simp [hmk, hw, os.MkdirAll, os.WriteFile] at hmeta
    | broken left => simp [hmk, hw, os.MkdirAll, os.WriteFile] at hmeta
    | done =>
      simp only [hmk, hw, os.MkdirAll, os.WriteFile, Bool.false_eq_true, if_false,
        Prod.mk.injEq, true_and] at hmeta
      subst hmeta
      refine ⟨{ FileID := fileID,
                OriginalName := RawString.ofValid (RawString.runes req.File.Filename),
                Tag := req.Tag, Size := req.File.Size,
                ContentType :=
                  (match utils.GetContentType env.sniff env.typeByExtension filePath with
                   | (_, some _) => "application/octet-stream".toList
                   | (ct, none) => ct),
                Public := req.Public, UploadedAt := env.now,
                UploadedBy := RawString.ofValid (RawString.runes req.UploadedBy) },
        ?_, rfl, rfl, RawString.ofValid_runes _, rfl, rfl, rfl, rfl, rfl, rfl, rfl, rfl,
        RawString.ofValid_runes _, rfl, rfl, rfl⟩
      simp only [FileService.Download, FileMeta.Load, FileMeta.GetMetaPath,
        StorageService.GetFile, utils.FileExists, os.Stat, os.ReadFile]
      generalize filepath.Join [cfg.BasePath, req.Tag, fileID] = bp at hget2 ⊢
      generalize filepath.Join [cfg.BasePath, req.Tag, fileID ++ metaSuffix] = mp
      simp only [FS.read_put, if_true, FileMeta.unmarshal_marshal]
      by_cases hp : bp = mp
      · simp [hp]
      · simp [hp, FS.isSome_read_mkdirAll _ _ _ hget2]

/-- C3, as stated, fails: for the filename `caf`, byte E9, `.jpg`, which is not valid
UTF-8, `Upload` succeeds and reports the filename as submitted, and `Download` of the
identifier returns a record whose original filename has U+FFFD in place of the byte. -/
theorem upload_then_download_changes_invalid_name :
    (∃ r, (FileService.Upload id Sample.cfg Sample.env [] Sample.latin1Req).1 = Outcome.ok r ∧
      r.FileID = "caf_1234abcd.jpg".toList ∧ r.OriginalName = Sample.latin1Name) ∧
    (∃ fm, FileService.Download Sample.cfg
        (FileService.Upload id Sample.cfg Sample.env [] Sample.latin1Req).2
        "img".toList "caf_1234abcd.jpg".toList =
        Except.ok (fm, "storage/img/caf_1234abcd.jpg".toList) ∧
      fm.OriginalName = RawString.ofValid "caf\uFFFD.jpg".toList ∧
      fm.OriginalName ≠ Sample.latin1Req.File.Filename) :=
  ⟨⟨_, rfl, by decide, by decide⟩, ⟨_, rfl, by decide, by decide⟩⟩

theorem upload_then_download_witness :
    ∃ fm, FileService.Download Sample.cfg Sample.stored Sample.req.Tag Sample.fileID =
        Except.ok (fm, "storage/img/My_Cat_1234abcd.png".toList) ∧
      fm.OriginalName = RawString.ofValid "My Cat.png".toList ∧ fm.Size = 2 := by
  obtain ⟨fm, h1, _, _, h2, _, _, _, h3, _⟩ :=
    upload_then_download id Sample.cfg Sample.env [] Sample.stored Sample.req
      Sample.response (by decide)
  exact ⟨fm, h1, h2 (by decide), h3⟩

theorem os.stat_remove_of_absent (fault : Bool) (fs : FS) (p q : GoString)
    (h : os.Stat fs q = false) : os.Stat (os.Remove fault fs p).2 q = false := by
  unfold os.Remove
  cases fault with
  | true => simpa using h
  | false =>
    by_cases hp : os.Stat fs p = true
    · simp only [Bool.false_eq_true, if_false, hp, if_true]
      simp only [os.Stat, FS.read_erase] at h ⊢
      by_cases hq : q = p
      · simp [hq]
      · simpa [hq] using h
    · simp only [Bool.false_eq_true, if_false, hp]
      exact h

theorem FileService.download_of_no_blob (cfg : Config) (fs : FS) (tag fileID : GoString)
    (h : StorageService.FileExists cfg fs tag fileID = false) :
    FileService.Download cfg fs tag fileID = Except.error "file not found" := by
  simp only [StorageService.FileExists, utils.FileExists] at h
  simp only [FileService.Download, StorageService.GetFile, utils.FileExists, h]
  split <;> rfl

theorem FileService.delete_of_no_record (cfg : Config) (env : DeleteEnv) (fs : FS)
    (tag fileID : GoString)
    (h : os.Stat fs (filepath.Join [cfg.BasePath, tag, fileID ++ metaSuffix]) = false) :
    FileService.Delete cfg env fs tag fileID = (some "file not found", fs) := by
  have hr : fs.read (filepath.Join [cfg.BasePath, tag, fileID ++ metaSuffix]) = none := by
    simpa [os.Stat] using h
  simp only [FileService.Delete, FileMeta.Load, FileMeta.GetMetaPath, os.ReadFile, hr]

/-- The function `Download` succeeds exactly when the metadata file of (tag, fileID)
holds a document that parses and `os.Stat` finds something at the blob path, a regular
file or a directory; in every other case (no metadata file, a metadata file that does not
parse, or nothing at the blob path) its result is the one error `file not found`, which
carries neither record nor path. -/
theorem download_succeeds_iff (cfg : Config) (fs : FS) (tag fileID : GoString) :
    ((∃ res, FileService.Download cfg fs tag fileID = Except.ok res) ↔
      ((∃ d, os.ReadFile fs (filepath.Join [cfg.BasePath, tag, fileID ++ metaSuffix]) =
          Except.ok (FileData.json d)) ∧
       StorageService.FileExists cfg fs tag fileID = true)) ∧
    ((∃ res, FileService.Download cfg fs tag fileID = Except.ok res) ∨
      FileService.Download cfg fs tag fileID = Except.error "file not found") := by
  simp only [FileService.Download, FileMeta.Load, FileMeta.GetMetaPath, os.ReadFile,
    StorageService.GetFile, StorageService.FileExists, utils.FileExists, os.Stat]
  cases hm : fs.read (filepath.Join [cfg.BasePath, tag, fileID ++ metaSuffix]) with
  | none => simp
  | some data =>
    cases data with
    | dir => simp
    | file content =>
      cases content with
      | raw bytes => simp
      | json d =>
        by_cases hb : (fs.read (filepath.Join [cfg.BasePath, tag, fileID])).isSome = true
        · simp [hb]
        · simp [hb]

/-- C4 at a failing input.  In a store where the directory `storage/img/sub` stands at
the blob path of (`img`, `sub`) and `storage/img/sub.meta.json` holds a record,
`FileExists` is true for the directory and `Download` succeeds: it returns the record and
the path of the directory, though no blob exists at (`img`, `sub`). -/
theorem download_succeeds_on_directory :
    Sample.underDirectory.read "storage/img/sub".toList = some Entry.dir ∧
    utils.FileExists Sample.underDirectory "storage/img/sub".toList = true ∧
    FileService.Download Sample.cfg Sample.underDirectory "img".toList "sub".toList =
      Except.ok (Sample.record "sub" 1 true, "storage/img/sub".toList) :=
  ⟨by decide, by decide, by rfl⟩

/-- C5, as stated, fails in two ways.  When the removal of the metadata file fails,
`Delete` still reports success, the metadata file stays, and a second `Delete` reports
success again.  And when the document stored for (tag, fileID) names another identifier,
`Delete` removes the metadata file of that identifier and leaves this one. -/
theorem delete_can_leave_metadata :
    ((FileService.Delete Sample.cfg { blobFault := false, metaFault := true } Sample.stored
        Sample.req.Tag Sample.fileID).1 = none ∧
      os.Stat (FileService.Delete Sample.cfg { blobFault := false, metaFault := true }
        Sample.stored Sample.req.Tag Sample.fileID).2
        (filepath.Join [Sample.cfg.BasePath, Sample.req.Tag,
          Sample.fileID ++ metaSuffix]) = true ∧
      (FileService.Delete Sample.cfg { blobFault := false, metaFault := false }
        (FileService.Delete Sample.cfg { blobFault := false, metaFault := true }
          Sample.stored Sample.req.Tag Sample.fileID).2
        Sample.req.Tag Sample.fileID).1 = none) ∧
    ((FileService.Delete Sample.cfg { blobFault := false, metaFault := false } Sample.misfiled
        "img".toList "a.png".toList).1 = none ∧
      os.Stat (FileService.Delete Sample.cfg { blobFault := false, metaFault := false }
        Sample.misfiled "img".toList "a.png".toList).2
        (filepath.Join [Sample.cfg.BasePath, "img".toList, "a.png.meta.json".toList]) = true) := by
  decide

/-- C5, as amended.  `Delete` on a (tag, fileID) without metadata file returns
`file not found`.  When `Delete` returns success, no blob exists at (tag, fileID)
afterwards and `Download` returns `file not found`; when moreover the removal of the
metadata file did not fail and the stored document names this tag and identifier (or
leaves them out), the metadata file is gone as well and a second `Delete` returns
`file not found`. -/
theorem delete_then_not_found (cfg : Config) (env : DeleteEnv) (fs : FS)
    (tag fileID : GoString) :
    (os.Stat fs (filepath.Join [cfg.BasePath, tag, fileID ++ metaSuffix]) = false →
      FileService.Delete cfg env fs tag fileID = (some "file not found", fs)) ∧
    ((FileService.Delete cfg env fs tag fileID).1 = none →
      StorageService.FileExists cfg (FileService.Delete cfg env fs tag fileID).2
        tag fileID = false ∧
      FileService.Download cfg (FileService.Delete cfg env fs tag fileID).2 tag fileID =
        Except.error "file not found" ∧
      (env.metaFault = false →
        FileService.recordNamesKey cfg fs tag fileID = true →
        os.Stat (FileService.Delete cfg env fs tag fileID).2
          (filepath.Join [cfg.BasePath, tag, fileID ++ metaSuffix]) = false ∧
        ∀ env2, (FileService.Delete cfg env2 (FileService.Delete cfg env fs tag fileID).2
          tag fileID).1 = some "file not found")) := by
  refine ⟨FileService.delete_of_no_record cfg env fs tag fileID, ?_⟩
  intro hok
  -- unfold the successful run
  simp only [FileService.Delete, FileMeta.Load, FileMeta.GetMetaPath, os.ReadFile] at hok ⊢
  cases hm : fs.read (filepath.Join [cfg.BasePath, tag, fileID ++ metaSuffix]) with
  | none => simp [hm] at hok
  | some data =>
    cases data with
    | dir => simp [hm] at hok
    | file content =>
      cases content with
      | raw bytes => simp [hm] at hok
      | json d =>
        simp only [hm] at hok ⊢
        cases hdel : StorageService.DeleteFile cfg env.blobFault fs tag fileID with
        | mk e fs2 =>
          cases e with
          | some e => simp [hdel] at hok
          | none =>
            simp only [hdel]
            have hfs2 : fs2 = (os.Remove env.blobFault fs
                (filepath.Join [cfg.BasePath, tag, fileID])).2 := by
              have := StorageService.deleteFile_snd cfg env.blobFault fs tag fileID
              rw [hdel] at this
              exact this
            have hbf : env.blobFault = false := by
              cases hb : env.blobFault with
              | false => rfl
              | true =>
                simp [StorageService.DeleteFile, utils.DeleteFile, os.Remove, hb] at hdel
            have habsent : os.Stat fs2 (filepath.Join [cfg.BasePath, tag, fileID]) = false := by
              rw [hfs2, hbf]
              exact os.stat_after_remove _ _
            have hblob : ∀ fault q, StorageService.FileExists cfg
                (os.Remove fault fs2 q).2 tag fileID = false := fun fault q =>
              os.stat_remove_of_absent fault fs2 q _ habsent
            have hsnd : ∀ (fm : FileMeta), (fm.Delete cfg.BasePath env.metaFault fs2).2 =
                (os.Remove env.metaFault fs2 (fm.GetMetaPath cfg.BasePath)).2 := by
              intro fm
              simp only [FileMeta.Delete]
              generalize os.Remove env.metaFault fs2 (fm.GetMetaPath cfg.BasePath) = r
              obtain ⟨e, fs3⟩ := r
              cases e with
              | none => rfl
              | some e => cases e <;> rfl
            rw [hsnd]
            refine ⟨hblob _ _, FileService.download_of_no_blob _ _ _ _ (hblob _ _), ?_⟩
            intro hmf hco
            obtain ⟨ht, hi⟩ : d.tag.getD tag = tag ∧ d.file_id.getD fileID = fileID := by
              simpa [FileService.recordNamesKey, os.ReadFile, hm] using hco
            have hpath : FileMeta.GetMetaPath (FileMeta.unmarshalInto d
                { FileMeta.zero with Tag := tag, FileID := fileID }) cfg.BasePath =
                filepath.Join [cfg.BasePath, tag, fileID ++ metaSuffix] := by
              simp only [FileMeta.GetMetaPath, FileMeta.unmarshalInto, ht, hi]
            rw [hpath, hmf]
            have hgone := os.stat_after_remove fs2
              (filepath.Join [cfg.BasePath, tag, fileID ++ metaSuffix])
            refine ⟨hgone, fun env2 => ?_⟩
            have := FileService.delete_of_no_record cfg env2 _ tag fileID hgone
            simp only [FileService.Delete, FileMeta.Load, FileMeta.GetMetaPath, os.ReadFile] at this
            rw [this]

theorem delete_then_not_found_witness :
    (FileService.Delete Sample.cfg { blobFault := false, metaFault := false } Sample.stored
        "img".toList "nope.png".toList = (some "file not found", Sample.stored)) ∧
    (StorageService.FileExists Sample.cfg (FileService.Delete Sample.cfg
        { blobFault := false, metaFault := false } Sample.stored Sample.req.Tag
        Sample.fileID).2 Sample.req.Tag Sample.fileID = false ∧
      ∀ env2, (FileService.Delete Sample.cfg env2 (FileService.Delete Sample.cfg
        { blobFault := false, metaFault := false } Sample.stored Sample.req.Tag
        Sample.fileID).2 Sample.req.Tag Sample.fileID).1 = some "file not found") :=
  ⟨(delete_then_not_found Sample.cfg { blobFault := false, metaFault := false } Sample.stored
      "img".toList "nope.png".toList).1 (by decide),
   ((delete_then_not_found Sample.cfg { blobFault := false, metaFault := false } Sample.stored
      Sample.req.Tag Sample.fileID).2 (by decide)).1,
   (((delete_then_not_found Sample.cfg { blobFault := false, metaFault := false } Sample.stored
      Sample.req.Tag Sample.fileID).2 (by decide)).2.2 rfl (by decide)).2⟩

/-! ## Listing: order and pages -/

namespace sort

theorem sink_perm {α : Type} (less : α → α → Bool) (x : α) (left : List α) :
    (sink less x left).Perm (x :: left) := by
  induction left with
  | nil => exact List.Perm.refl _
  | cons p rest ih =>
    unfold sink
    by_cases h : less x p = true
    · simp only [h, if_true]
      exact (List.Perm.cons p ih).trans (List.Perm.swap x p rest)
    · simp only [h, Bool.false_eq_true, if_false]
      exact List.Perm.refl _

theorem foldl_sink_perm {α : Type} (less : α → α → Bool) (xs : List α) :
    ∀ left, (xs.foldl (fun left x => sink less x left) left).Perm (xs.reverse ++ left) := by
  induction xs with
  | nil => intro left; exact List.Perm.refl _
  | cons x rest ih =>
    intro left
    simp only [List.foldl_cons, List.reverse_cons, List.append_assoc, List.singleton_append]
    exact (ih _).trans (List.Perm.append_left _ (sink_perm less x left))

/-- The result of `sort.Slice` is a rearrangement of its input. -/
theorem slice_perm {α : Type} (less : α → α → Bool) (xs : List α) :
    (Slice less xs).Perm xs := by
  unfold Slice
  have h := foldl_sink_perm less xs []
  simp only [List.append_nil] at h
  exact (List.reverse_perm _).trans (h.trans (List.reverse_perm _))

theorem sink_pairwise {α : Type} (less : α → α → Bool)
    (hasym : ∀ a b, less a b = true → less b a = false)
    (hneg : ∀ a b c, less a c = true → less a b = true ∨ less b c = true)
    (x : α) (left : List α) (h : left.Pairwise (fun a b => less a b = false)) :
    (sink less x left).Pairwise (fun a b => less a b = false) := by
  induction left with
  | nil => simp [sink]
  | cons p rest ih =>
    obtain ⟨hp, hrest⟩ := List.pairwise_cons.mp h
    unfold sink
    by_cases hx : less x p = true
    · simp only [hx, if_true]
      rw [List.pairwise_cons]
      refine ⟨?_, ih hrest⟩
      intro y hy
      have hy2 : y ∈ x :: rest := (sink_perm less x rest).subset hy
      simp only [List.mem_cons] at hy2
      rcases hy2 with rfl | hy2
      · exact hasym _ _ hx
      · exact hp y hy2
    · simp only [hx, Bool.false_eq_true, if_false]
      rw [List.pairwise_cons]
      refine ⟨?_, h⟩
      intro y hy
      simp only [List.mem_cons] at hy
      rcases hy with rfl | hy
      · simpa using hx
      · by_contra hc
        have hc2 : less x y = true := by simpa using hc
        rcases hneg x p y hc2 with h1 | h1
        · exact hx h1
        · have := hp y hy
          rw [this] at h1
          exact Bool.false_ne_true h1

theorem foldl_sink_pairwise {α : Type} (less : α → α → Bool)
    (hasym : ∀ a b, less a b = true → less b a = false)
    (hneg : ∀ a b c, less a c = true → less a b = true ∨ less b c = true)
    (xs : List α) : ∀ left, left.Pairwise (fun a b => less a b = false) →
      (xs.foldl (fun left x => sink less x left) left).Pairwise
        (fun a b => less a b = false) := by
  induction xs with
  | nil => intro left h; exact h
  | cons x rest ih =>
    intro left h
    simp only [List.foldl_cons]
    exact ih _ (sink_pairwise less hasym hneg x left h)

/-- The result of `sort.Slice` is sorted: no element is `less` than one before it. -/
theorem slice_sorted {α : Type} (less : α → α → Bool)
    (hasym : ∀ a b, less a b = true → less b a = false)
    (hneg : ∀ a b c, less a c = true → less a b = true ∨ less b c = true)
    (xs : List α) : (Slice less xs).Pairwise (fun a b => less b a = false) := by
  unfold Slice
  rw [List.pairwise_reverse]
  exact foldl_sink_pairwise less hasym hneg xs [] List.Pairwise.nil

end sort

theorem uploadLess_asymm (sortDesc : Bool) (a b : FileMeta)
    (h : FileService.uploadLess sortDesc a b = true) :
    FileService.uploadLess sortDesc b a = false := by
  cases sortDesc <;> simp [FileService.uploadLess] at h ⊢ <;> omega

theorem uploadLess_negTrans (sortDesc : Bool) (a b c : FileMeta)
    (h : FileService.uploadLess sortDesc a c = true) :
    FileService.uploadLess sortDesc a b = true ∨ FileService.uploadLess sortDesc b c = true := by
  cases sortDesc <;> simp [FileService.uploadLess] at h ⊢ <;> omega

theorem sorted_inUploadOrder (sortDesc : Bool) (files : List FileMeta) :
    (sort.Slice (FileService.uploadLess sortDesc) files).Pairwise
      (FileService.inUploadOrder sortDesc) := by
  have h := sort.slice_sorted (FileService.uploadLess sortDesc)
    (uploadLess_asymm sortDesc) (uploadLess_negTrans sortDesc) files
  refine h.imp ?_
  intro a b hab
  cases sortDesc <;> simp [FileService.uploadLess, FileService.inUploadOrder] at hab ⊢ <;> omega

theorem goSlice_sublist {α : Type} (xs page : List α) (lo hi : Int)
    (h : goSlice xs lo hi = some page) : page.Sublist xs := by
  unfold goSlice at h
  split at h
  · simp only [Option.some.injEq] at h
    subst h
    exact (List.take_sublist _ _).trans (List.drop_sublist _ _)
  · simp at h

/-- C7.  The sequence that `List` cuts its page from is a rearrangement of the scan
result, ordered by upload time: newest first when `SortDesc` is set, oldest first
otherwise; and every page that `List` returns is ordered the same way. -/
theorem list_sorts_by_upload_time (files : List FileMeta) (req : ListRequest) :
    (sort.Slice (FileService.uploadLess req.SortDesc) files).Perm files ∧
    (sort.Slice (FileService.uploadLess req.SortDesc) files).Pairwise
      (FileService.inUploadOrder req.SortDesc) ∧
    (∀ page total, FileService.listPage files req = Outcome.ok (page, total) →
      page.Sublist (sort.Slice (FileService.uploadLess req.SortDesc) files) ∧
      page.Pairwise (FileService.inUploadOrder req.SortDesc)) := by
  refine ⟨sort.slice_perm _ _, sorted_inUploadOrder _ _, ?_⟩
  intro page total h
  have hsub : page.Sublist (sort.Slice (FileService.uploadLess req.SortDesc) files) := by
    simp only [FileService.listPage] at h
    split at h
    · simp only [Outcome.ok.injEq, Prod.mk.injEq] at h
      rw [← h.1]
      exact List.nil_sublist _
    · split at h
      · simp at h
      · rename_i paginated hsl
        simp only [Outcome.ok.injEq, Prod.mk.injEq] at h
        rw [← h.1]
        exact goSlice_sublist _ _ _ _ hsl
  exact ⟨hsub, (sorted_inUploadOrder _ _).sublist hsub⟩

theorem list_sorts_by_upload_time_witness :
    FileService.listPage Sample.five (Sample.listReq 1 2) =
      Outcome.ok ([Sample.record "c" 5 true, Sample.record "e" 4 false], 5) ∧
    [Sample.record "c" 5 true, Sample.record "e" 4 false].Pairwise
      (FileService.inUploadOrder true) :=
  ⟨by decide,
   ((list_sorts_by_upload_time Sample.five (Sample.listReq 1 2)).2.2
      [Sample.record "c" 5 true, Sample.record "e" 4 false] 5 (by decide)).2⟩

theorem wrap64_of_inRange (x : Int) (h1 : -(2 ^ 63) ≤ x) (h2 : x < 2 ^ 63) : wrap64 x = x := by
  unfold wrap64
  norm_num at h1 h2 ⊢
  omega

/-- Pages of `List` while the index arithmetic stays within 64 bits: for `Page ≥ 1`,
`Limit ≥ 1` and `Page * Limit < 2^63`, the total is the number of records and the page is
the run of at most `Limit` sorted records that begins at index `(Page-1)*Limit`; it is
empty, without error, when that index is not below the total. -/
theorem listPage_of_inRange (files : List FileMeta) (req : ListRequest)
    (hp : 1 ≤ req.Page) (hl : 1 ≤ req.Limit) (hr : req.Page * req.Limit < 2 ^ 63) :
    FileService.listPage files req =
      Outcome.ok
        (((sort.Slice (FileService.uploadLess req.SortDesc) files).drop
            ((req.Page - 1) * req.Limit).toNat).take req.Limit.toNat,
         (files.length : Int)) := by
  have hlen : (sort.Slice (FileService.uploadLess req.SortDesc) files).length = files.length :=
    (sort.slice_perm _ _).length_eq
  generalize hs : sort.Slice (FileService.uploadLess req.SortDesc) files = sorted at hlen
  have hmul : 0 ≤ (req.Page - 1) * req.Limit :=
    Int.mul_nonneg (by omega) (by omega)
  have hexp : req.Page * req.Limit = (req.Page - 1) * req.Limit + req.Limit := by ring
  have hP : req.Page - 1 < 2 ^ 63 := by
    have : req.Page ≤ req.Page * req.Limit := by nlinarith
    omega
  have hsum : (req.Page - 1) * req.Limit + req.Limit < 2 ^ 63 := by omega
  have w1 : wrap64 (req.Page - 1) = req.Page - 1 :=
    wrap64_of_inRange _ (by norm_num; omega) hP
  have w2 : wrap64 ((req.Page - 1) * req.Limit) = (req.Page - 1) * req.Limit :=
    wrap64_of_inRange _ (by norm_num; omega) (by omega)
  have w3 : wrap64 ((req.Page - 1) * req.Limit + req.Limit) =
      (req.Page - 1) * req.Limit + req.Limit :=
    wrap64_of_inRange _ (by norm_num; omega) hsum
  simp only [FileService.listPage, hs, w1, w2, w3, hlen]
  generalize hst : (req.Page - 1) * req.Limit = start at hmul
  obtain ⟨n, rfl⟩ := Int.eq_ofNat_of_zero_le hmul
  obtain ⟨k, hk⟩ := Int.eq_ofNat_of_zero_le (show 0 ≤ req.Limit by omega)
  rw [hk] at hl ⊢
  simp only [Int.toNat_ofNat]
  by_cases hge : (n : Int) ≥ (files.length : Int)
  · simp only [hge, if_true]
    have : sorted.drop n = [] := List.drop_eq_nil_of_le (by omega)
    simp [this]
  · simp only [hge, if_false]
    by_cases hend : (n : Int) + (k : Int) > (files.length : Int)
    · simp only [hend, if_true, goSlice]
      have hc : (0 : Int) ≤ n ∧ (n : Int) ≤ files.length ∧
          (files.length : Int) ≤ (sorted.length : Int) := by omega
      simp only [hc, and_self, if_true, Int.toNat_ofNat]
      have h1 : (sorted.drop n).length ≤ files.length - n := by simp; omega
      have h2 : (sorted.drop n).length ≤ k := by simp; omega
      rw [List.take_of_length_le h1, List.take_of_length_le h2]
    · simp only [hend, if_false, goSlice]
      have hc : (0 : Int) ≤ n ∧ (n : Int) ≤ (n : Int) + k ∧
          (n : Int) + k ≤ (sorted.length : Int) := by omega
      simp only [hc, and_self, if_true, Int.toNat_ofNat]
      have : ((n : Int) + (k : Int)).toNat - n = k := by omega
      rw [this]

/-- C6 at inputs where the index arithmetic overflows.  Five records, page size 64 and
page 2^58 + 1: `(Page-1)*Limit` is 2^64, far beyond the total, yet it wraps to 0 and
`List` returns all five records as the page.  Page size 100 and page 184467440737095517:
the index wraps to -16 and the slice expression panics. -/
theorem list_page_index_overflows :
    (288230376151711745 - 1) * 64 ≥ ((Sample.five.length : Nat) : Int) ∧
    FileService.listPage Sample.five (Sample.listReq 288230376151711745 64) =
      Outcome.ok
        ([Sample.record "c" 5 true, Sample.record "e" 4 false, Sample.record "a" 3 true,
          Sample.record "d" 2 true, Sample.record "b" 1 false], 5) ∧
    FileService.listPage Sample.five (Sample.listReq 184467440737095517 100) =
      Outcome.panic := by
  decide

theorem listPage_examples :
    FileService.listPage Sample.five (Sample.listReq 1 2) =
      Outcome.ok ([Sample.record "c" 5 true, Sample.record "e" 4 false], 5) ∧
    FileService.listPage Sample.five (Sample.listReq 3 2) =
      Outcome.ok ([Sample.record "b" 1 false], 5) ∧
    FileService.listPage Sample.five (Sample.listReq 10 2) = Outcome.ok ([], 5) := by
  decide

/-! ## The catalog scan -/

theorem StorageService.listWalkFn_eq (caseTable : Char → Char) (fs : FS)
    (filterTag : GoString) (filterPublic : Option Bool) (search : GoString)
    (files : List FileMeta) (v : WalkVisit) (hv : v.err = none) :
    StorageService.listWalkFn caseTable fs filterTag filterPublic search files v =
      Except.ok (files ++ (((StorageService.parsedRecord fs v).toList).filter
        (fun r => decide (StorageService.matchesFilters caseTable filterTag filterPublic
          search r)))) := by
  unfold StorageService.listWalkFn StorageService.parsedRecord
  simp only [hv]
  cases hd : v.isDir with
  | true => simp
  | false =>
    cases hs : strings.HasSuffix v.path metaSuffix with
    | false => simp
    | true =>
      cases hl : FileMeta.LoadFromFile fs v.path with
      | error e => simp [Except.toOption]
      | ok fm =>
        simp only [Bool.false_eq_true, if_false, Bool.not_true, Except.toOption,
          and_self, if_true, Option.toList, List.filter, StorageService.matchesFilters]
        by_cases h1 : filterTag ≠ [] ∧ fm.Tag ≠ filterTag
        · have : ¬ (filterTag = [] ∨ fm.Tag = filterTag) := by
            rintro (h | h)
            · exact h1.1 h
            · exact h1.2 h
          simp [h1, this]
        · have h1b : filterTag = [] ∨ fm.Tag = filterTag := by
            by_cases ht : filterTag = []
            · exact Or.inl ht
            · right
              by_contra hc
              exact h1 ⟨ht, hc⟩
          simp only [h1, if_false]
          by_cases h2 : filterPublic ≠ none ∧ some fm.Public ≠ filterPublic
          · have : ¬ (filterPublic = none ∨ some fm.Public = filterPublic) := by
              rintro (h | h)
              · exact h2.1 h
              · exact h2.2 h
            simp [h2, this]
          · have h2b : filterPublic = none ∨ some fm.Public = filterPublic := by
              by_cases ht : filterPublic = none
              · exact Or.inl ht
              · right
                by_contra hc
                exact h2 ⟨ht, hc⟩
            simp only [h2, if_false]
            by_cases h3 : search = []
            · simp [h3, h1b, h2b]
            · by_cases hc1 : strings.Contains (strings.ToLower caseTable (RawString.runes fm.OriginalName))
                  (strings.ToLower caseTable search) = true
              · simp [h3, h1b, h2b, hc1]
              · by_cases hc2 : strings.Contains (strings.ToLower caseTable fm.FileID)
                    (strings.ToLower caseTable search) = true
                · simp [h3, h1b, h2b, hc2]
                · simp [h3, h1b, h2b, hc1, hc2]

theorem StorageService.walkWith_listWalkFn (caseTable : Char → Char) (fs : FS)
    (filterTag : GoString) (filterPublic : Option Bool) (search : GoString)
    (visits : List WalkVisit) (hv : ∀ v ∈ visits, v.err = none) :
    ∀ files, filepath.walkWith
        (StorageService.listWalkFn caseTable fs filterTag filterPublic search) files visits =
      Except.ok (files ++ ((visits.filterMap (StorageService.parsedRecord fs)).filter
        (fun r => decide (StorageService.matchesFilters caseTable filterTag filterPublic
          search r)))) := by
  induction visits with
  | nil => intro files; simp [filepath.walkWith]
  | cons v rest ih =>
    intro files
    unfold filepath.walkWith
    rw [StorageService.listWalkFn_eq _ _ _ _ _ _ _ (hv v (by simp))]
    simp only
    rw [ih (fun w hw => hv w (by simp [hw]))]
    cases hp : StorageService.parsedRecord fs v with
    | none => simp [List.filterMap_cons, hp]
    | some r =>
      simp only [List.filterMap_cons, hp, List.filter_cons, Option.toList, List.filter_nil,
        decide_eq_true_eq, List.append_assoc]
      by_cases hm : StorageService.matchesFilters caseTable filterTag filterPublic search r
      · simp [hm]
      · simp [hm]

theorem filepath.walk_err_none (fs : FS) (root : GoString) :
    ∀ v ∈ filepath.Walk false fs root, v.err = none := by
  intro v hv
  simp only [filepath.Walk, Bool.false_eq_true, if_false, List.mem_map] at hv
  obtain ⟨e, _, he⟩ := hv
  rw [← he]

/-- C8.  When the walk reports no error, `ListFiles` returns exactly the records parsed
from the metadata files it visits that pass the three filters, in the order of the walk:
the tag is empty or equals the record's tag, the public flag is absent or equals the
record's, and the search term is empty or occurs, in lower case, in the lower-cased
original filename or identifier.  This is so for the walk of any file system whose root
can be examined.  A visited file that does not parse adds nothing and changes nothing
about the other records, and with the public filter set to true every record returned
is public. -/
theorem listFiles_returns_matching_records (caseTable : Char → Char) (cfg : Config) (fs : FS)
    (visits : List WalkVisit) (filterTag : GoString) (filterPublic : Option Bool)
    (search : GoString) (hv : ∀ v ∈ visits, v.err = none) :
    StorageService.listFilesOver caseTable fs visits filterTag filterPublic search =
      Except.ok ((visits.filterMap (StorageService.parsedRecord fs)).filter
        (fun r => decide (StorageService.matchesFilters caseTable filterTag filterPublic
          search r))) ∧
    StorageService.ListFiles caseTable cfg false fs filterTag filterPublic search =
      Except.ok (((filepath.Walk false fs cfg.BasePath).filterMap
        (StorageService.parsedRecord fs)).filter
        (fun r => decide (StorageService.matchesFilters caseTable filterTag filterPublic
          search r))) ∧
    (∀ (before after : List WalkVisit) (bad : WalkVisit),
      visits = before ++ bad :: after → StorageService.parsedRecord fs bad = none →
      StorageService.listFilesOver caseTable fs visits filterTag filterPublic search =
        StorageService.listFilesOver caseTable fs (before ++ after) filterTag filterPublic
          search) ∧
    (∀ files, StorageService.listFilesOver caseTable fs visits filterTag (some true) search =
        Except.ok files → ∀ r ∈ files, r.Public = true) := by
  have main : ∀ (vs : List WalkVisit) (fp : Option Bool), (∀ v ∈ vs, v.err = none) →
      StorageService.listFilesOver caseTable fs vs filterTag fp search =
        Except.ok ((vs.filterMap (StorageService.parsedRecord fs)).filter
          (fun r => decide (StorageService.matchesFilters caseTable filterTag fp search r))) := by
    intro vs fp h
    unfold StorageService.listFilesOver
    rw [StorageService.walkWith_listWalkFn caseTable fs filterTag fp search vs h []]
    simp
  refine ⟨main visits filterPublic hv, ?_, ?_, ?_⟩
  · exact main _ filterPublic (filepath.walk_err_none fs cfg.BasePath)
  · intro before after bad hsplit hbad
    have hv2 : ∀ v ∈ before ++ after, v.err = none := by
      intro v hm
      apply hv
      rw [hsplit]
      simp only [List.mem_append, List.mem_cons] at hm ⊢
      rcases hm with h | h
      · exact Or.inl h
      · exact Or.inr (Or.inr h)
    rw [main visits filterPublic hv, main _ filterPublic hv2, hsplit]
    simp [List.filterMap_append, List.filterMap_cons, hbad]
  · intro files hf r hr
    rw [main visits (some true) hv] at hf
    simp only [Except.ok.injEq] at hf
    rw [← hf] at hr
    have := (List.mem_filter.mp hr).2
    simp only [StorageService.matchesFilters, decide_eq_true_eq] at this
    rcases this.2.1 with h | h
    · simp at h
    · simpa using h

theorem listFiles_returns_matching_records_witness :
    (∀ v ∈ filepath.Walk false Sample.mixed Sample.cfg.BasePath, v.err = none) ∧
    StorageService.ListFiles id Sample.cfg false Sample.mixed [] (some true) [] =
      Except.ok [Sample.record "a.png" 3 true] ∧
    StorageService.ListFiles id Sample.cfg false Sample.mixed [] (some true) [] =
      Except.ok (((filepath.Walk false Sample.mixed Sample.cfg.BasePath).filterMap
        (StorageService.parsedRecord Sample.mixed)).filter
        (fun r => decide (StorageService.matchesFilters id [] (some true) [] r))) :=
  ⟨by decide, by rfl,
   (listFiles_returns_matching_records id Sample.cfg Sample.mixed
      (filepath.Walk false Sample.mixed Sample.cfg.BasePath) [] (some true) []
      (by decide)).2.1⟩

/-! ## Sanitizing and generating names -/

/-- C10 at a failing input.  For the name `a.` followed by 201 letters, the name after the
first five steps is 203 characters long and its extension 202, so the truncation step
evaluates `name[:200-202]` and panics: `SanitizeFilename` returns no string. -/
theorem sanitize_panics_on_long_extension :
    Sample.longExtension.length = 203 ∧
    (filepath.Ext Sample.longExtension).length = 202 ∧
    utils.SanitizeFilename Sample.longExtension = none := by
  decide

/-- For the name `a.` followed by 201 letters `GenerateUniqueFilename` produces no
identifier, whatever the random suffix: the panic of `SanitizeFilename` (C10) ends the
call. -/
theorem generate_panics_on_long_extension (caseTable : Char → Char) (id : GoString) :
    utils.GenerateUniqueFilename caseTable Sample.longExtension id = none := by
  have h : utils.SanitizeFilename Sample.longExtension = none := by decide
  simp [utils.GenerateUniqueFilename, h]

theorem filepath.extScan_suffix (l acc : List Char) :
    filepath.extScan l acc <:+ l.reverse ++ acc := by
  induction l generalizing acc with
  | nil => exact List.nil_suffix
  | cons c rest ih =>
    unfold filepath.extScan
    by_cases h1 : c = '/'
    · simp only [h1, if_true]
      exact List.nil_suffix
    · simp only [h1, if_false]
      by_cases h2 : c = '.'
      · simp only [h2, if_true, List.reverse_cons, List.append_assoc, List.singleton_append]
        exact List.suffix_append _ _
      · simp only [h2, if_false, List.reverse_cons, List.append_assoc, List.singleton_append]
        exact ih (c :: acc)

/-- The extension is a suffix of the path. -/
theorem filepath.ext_suffix (path : GoString) : filepath.Ext path <:+ path := by
  have h := filepath.extScan_suffix path.reverse []
  simpa [filepath.Ext] using h

theorem utils.sanitize_eq (filename : GoString) :
    utils.SanitizeFilename filename =
      if (utils.strippedName filename).length > 200 then
        (match goSliceTo
            (strings.TrimSuffix (utils.strippedName filename)
              (filepath.Ext (utils.strippedName filename)))
            (200 - ((filepath.Ext (utils.strippedName filename)).length : Int)) with
         | some name => some (name ++ filepath.Ext (utils.strippedName filename))
         | none => none)
      else some (utils.strippedName filename) := rfl

theorem utils.strippedName_safe (filename : GoString) :
    ∀ c ∈ utils.strippedName filename, utils.isSafeChar c = true := by
  intro c hc
  unfold utils.strippedName strings.TrimPrefix at hc
  split at hc
  · exact (List.mem_filter.mp (List.mem_of_mem_drop hc)).2
  · exact (List.mem_filter.mp hc).2

theorem strings.mem_trimSuffix (s suf : GoString) (c : Char)
    (h : c ∈ strings.TrimSuffix s suf) : c ∈ s := by
  unfold strings.TrimSuffix at h
  split at h
  · exact List.mem_of_mem_take h
  · exact h

/-- Every character of a sanitized name is in `[A-Za-z0-9._-]`. -/
theorem utils.sanitize_safe (filename s : GoString)
    (h : utils.SanitizeFilename filename = some s) : ∀ c ∈ s, utils.isSafeChar c = true := by
  rw [utils.sanitize_eq] at h
  split at h
  · split at h
    · rename_i name hsl
      simp only [Option.some.injEq] at h
      subst h
      intro c hc
      rcases List.mem_append.mp hc with hc | hc
      · unfold goSliceTo at hsl
        split at hsl
        · simp only [Option.some.injEq] at hsl
          subst hsl
          exact utils.strippedName_safe filename c
            (strings.mem_trimSuffix _ _ _ (List.mem_of_mem_take hc))
        · simp at hsl
      · exact utils.strippedName_safe filename c
          ((filepath.ext_suffix _).subset hc)
    · simp at h
  · simp only [Option.some.injEq] at h
    subst h
    exact utils.strippedName_safe filename

theorem utils.safe_lt_128 (c : Char) (h : utils.isSafeChar c = true) : c.toNat < 128 := by
  simp only [utils.isSafeChar, Bool.or_eq_true, Bool.and_eq_true, decide_eq_true_eq,
    beq_iff_eq] at h
  rcases h with ((((h | h) | h) | h) | h) | h
  · have : 'z'.toNat = 122 := rfl
    omega
  · have : 'Z'.toNat = 90 := rfl
    omega
  · have : '9'.toNat = 57 := rfl
    omega
  · subst h; decide
  · subst h; decide
  · subst h; decide

theorem utils.safe_ofNat_lower :
    ∀ n < 91, 65 ≤ n → utils.isSafeChar (Char.ofNat (n + 32)) = true := by
  decide

theorem utils.toLowerRune_safe (caseTable : Char → Char) (c : Char)
    (h : utils.isSafeChar c = true) :
    utils.isSafeChar (strings.toLowerRune caseTable c) = true := by
  unfold strings.toLowerRune
  simp only [utils.safe_lt_128 c h, if_true]
  split
  · rename_i hu
    have h1 : 'A'.toNat = 65 := rfl
    have h2 : 'Z'.toNat = 90 := rfl
    exact utils.safe_ofNat_lower c.toNat (by omega) (by omega)
  · exact h

theorem utils.hex_safe (c : Char) (h : utils.isHexChar c = true) :
    utils.isSafeChar c = true ∧ c ≠ '-' := by
  have e0 : '0'.toNat = 48 := rfl
  have e9 : '9'.toNat = 57 := rfl
  have ea : 'a'.toNat = 97 := rfl
  have ef : 'f'.toNat = 102 := rfl
  have ez : 'z'.toNat = 122 := rfl
  have eA : 'A'.toNat = 65 := rfl
  have eF : 'F'.toNat = 70 := rfl
  have eZ : 'Z'.toNat = 90 := rfl
  simp only [utils.isHexChar, Bool.or_eq_true, Bool.and_eq_true, decide_eq_true_eq] at h
  refine ⟨?_, ?_⟩
  · simp only [utils.isSafeChar, Bool.or_eq_true, Bool.and_eq_true, decide_eq_true_eq,
      beq_iff_eq]
    rcases h with (h | h) | h
    · exact Or.inl (Or.inl (Or.inl (Or.inr (by omega))))
    · exact Or.inl (Or.inl (Or.inl (Or.inl (Or.inl (by omega)))))
    · exact Or.inl (Or.inl (Or.inl (Or.inl (Or.inr (by omega)))))
  · intro hc
    subst hc
    have : '-'.toNat = 45 := rfl
    omega

theorem strings.splitDashFirst_append (suffix rest : GoString)
    (h : ∀ c ∈ suffix, c ≠ '-') :
    strings.SplitDashFirst (suffix ++ '-' :: rest) = suffix := by
  unfold strings.SplitDashFirst
  induction suffix with
  | nil => simp [List.takeWhile]
  | cons c cs ih =>
    have hc : c ≠ '-' := h c (by simp)
    simp only [List.cons_append, List.takeWhile_cons, bne_iff_ne, ne_eq, hc, not_false_eq_true,
      if_true]
    rw [ih (fun d hd => h d (by simp [hd]))]

theorem filepath.render_push (rooted : Bool) (stack : List GoString) (seg : GoString)
    (h : filepath.NormalStack rooted stack) (hne : stack ≠ []) :
    filepath.render rooted (seg :: stack) = filepath.render rooted stack ++ '/' :: seg := by
  have hrev : stack.reverse ≠ [] := by simpa using hne
  have hbody : ['/'].intercalate stack.reverse ≠ [] := fun e =>
    hrev (filepath.intercalate_eq_nil _ (fun s hs => (h.1 s (by simpa using hs)).1) e)
  unfold filepath.render
  simp only [List.reverse_cons, filepath.intercalate_append_single _ _ hrev]
  cases rooted with
  | true => simp
  | false => simp [hbody]

/-- A proper name joined to a path that keeps at least one element is a direct child of
it: the cleaned path is the cleaned directory, a slash, and the name. -/
theorem filepath.clean_append_segment (x seg : GoString) (hx : x ≠ [])
    (hst : filepath.cleanStack x ≠ []) (h0 : seg ≠ []) (h1 : seg ≠ ['.'])
    (h2 : seg ≠ ['.', '.']) (hs : '/' ∉ seg) :
    filepath.Clean (x ++ '/' :: seg) = filepath.Clean x ++ '/' :: seg := by
  have e1 : filepath.Clean (x ++ '/' :: seg) =
      filepath.render (filepath.isRooted (x ++ '/' :: seg))
        (filepath.cleanStack (x ++ '/' :: seg)) := rfl
  have e2 : filepath.Clean x = filepath.render (filepath.isRooted x) (filepath.cleanStack x) :=
    rfl
  have hstep : filepath.cleanStep (filepath.isRooted x) (filepath.cleanStack x) seg =
      seg :: filepath.cleanStack x := by
    simp [filepath.cleanStep, h0, h1, h2]
  rw [e1, e2, filepath.cleanStack_append _ _ hx, filepath.isRooted_append _ _ hx,
    filepath.splitSlash_of_no_slash seg hs]
  simp only [List.foldl_cons, List.foldl_nil, hstep]
  exact filepath.render_push _ _ _ (filepath.cleanStack_normal x) hst

theorem filepath.cleanStack_append_segment (x seg : GoString) (hx : x ≠ [])
    (h0 : seg ≠ []) (h1 : seg ≠ ['.']) (h2 : seg ≠ ['.', '.']) (hs : '/' ∉ seg) :
    filepath.cleanStack (x ++ '/' :: seg) = seg :: filepath.cleanStack x := by
  rw [filepath.cleanStack_append _ _ hx, filepath.splitSlash_of_no_slash seg hs]
  simp [filepath.cleanStep, h0, h1, h2]

theorem filepath.cleanStack_segment (seg : GoString)
    (h0 : seg ≠ []) (h1 : seg ≠ ['.']) (h2 : seg ≠ ['.', '.']) (hs : '/' ∉ seg) :
    filepath.cleanStack seg = [seg] := by
  unfold filepath.cleanStack
  rw [filepath.splitSlash_of_no_slash seg hs]
  simp [filepath.cleanStep, h0, h1, h2]

/-- Under a directory `Join(base, dir)` whose last element `dir` is a proper name, the
path `Join(base, dir, name)` of a proper name is the directory, a slash, and the name. -/
theorem filepath.join_direct_child (base dir name : GoString)
    (d0 : dir ≠ []) (d1 : dir ≠ ['.']) (d2 : dir ≠ ['.', '.']) (ds : '/' ∉ dir)
    (n0 : name ≠ []) (n1 : name ≠ ['.']) (n2 : name ≠ ['.', '.']) (ns : '/' ∉ name) :
    filepath.Join [base, dir, name] = filepath.Join [base, dir] ++ '/' :: name := by
  by_cases hb : base = []
  · have e1 : filepath.Join [base, dir] = filepath.Clean dir := by
      simp [filepath.Join, hb, d0, filepath.intercalate_single]
    have e2 : filepath.Join [base, dir, name] = filepath.Clean (dir ++ '/' :: name) := by
      simp [filepath.Join, hb, d0, filepath.intercalate_cons_cons, filepath.intercalate_single]
    rw [e1, e2]
    exact filepath.clean_append_segment dir name d0
      (by rw [filepath.cleanStack_segment dir d0 d1 d2 ds]; simp) n0 n1 n2 ns
  · have e1 : filepath.Join [base, dir] = filepath.Clean (base ++ '/' :: dir) := by
      simp [filepath.Join, hb, filepath.intercalate_cons_cons, filepath.intercalate_single]
    have e2 : filepath.Join [base, dir, name] =
        filepath.Clean ((base ++ '/' :: dir) ++ '/' :: name) := by
      simp [filepath.Join, hb, filepath.intercalate_cons_cons, filepath.intercalate_single]
    rw [e1, e2]
    exact filepath.clean_append_segment _ name (by simp)
      (by rw [filepath.cleanStack_append_segment base dir hb d0 d1 d2 ds]; simp) n0 n1 n2 ns

theorem utils.tag_is_segment (tag : GoString) (h : utils.ValidateTag tag = none) :
    tag ≠ [] ∧ tag ≠ ['.'] ∧ tag ≠ ['.', '.'] ∧ '/' ∉ tag := by
  unfold utils.ValidateTag at h
  split at h
  · simp at h
  · rename_i hne
    split at h
    · simp at h
    · split at h
      · simp at h
      · rename_i hm
        have hall : ∀ c ∈ tag, utils.isTagChar c = true := by
          simpa [utils.tagRegexMatch, hne] using hm
        refine ⟨hne, ?_, ?_, ?_⟩
        · intro e
          have := hall '.' (by simp [e])
          exact absurd this (by decide)
        · intro e
          have := hall '.' (by simp [e])
          exact absurd this (by decide)
        · intro e
          exact absurd (hall '/' e) (by decide)

/-- The identifier that `GenerateUniqueFilename` produces, whenever `SanitizeFilename`
returns, is a safe path segment: it is not empty, every character is in
`[A-Za-z0-9._-]` (so there is neither `/` nor `\`), and it is neither `.` nor `..`; and
under a validated tag the blob path is the namespace directory, a slash, and the
identifier. -/
theorem utils.generated_safe_segment (caseTable : Char → Char)
    (originalName sanitized suffix rest : GoString)
    (hsan : utils.SanitizeFilename originalName = some sanitized)
    (hhex : ∀ c ∈ suffix, utils.isHexChar c = true) :
    ∃ id, utils.GenerateUniqueFilename caseTable originalName (suffix ++ '-' :: rest) = some id ∧
      utils.IsSafeSegment id ∧ '/' ∉ id ∧ '\\' ∉ id ∧
      ∀ base tag, utils.ValidateTag tag = none →
        filepath.Join [filepath.Join [base, tag], id] = filepath.Join [base, tag] ++ '/' :: id := by
  have hsafe := utils.sanitize_safe originalName sanitized hsan
  have hext : ∀ c ∈ utils.ExtractExtension caseTable sanitized, utils.isSafeChar c = true := by
    intro c hc
    simp only [utils.ExtractExtension, strings.ToLower, List.mem_map] at hc
    obtain ⟨d, hd, rfl⟩ := hc
    exact utils.toLowerRune_safe caseTable d (hsafe d ((filepath.ext_suffix _).subset hd))
  have hshort : strings.SplitDashFirst (suffix ++ '-' :: rest) = suffix :=
    strings.splitDashFirst_append suffix rest (fun c hc => (utils.hex_safe c (hhex c hc)).2)
  -- the stem
  have hstem : ∀ c ∈ (if strings.TrimSuffix (strings.TrimSuffix sanitized
        (utils.ExtractExtension caseTable sanitized)) ['.'] = [] then "file".toList
      else strings.TrimSuffix (strings.TrimSuffix sanitized
        (utils.ExtractExtension caseTable sanitized)) ['.']), utils.isSafeChar c = true := by
    intro c hc
    split at hc
    · revert c
      decide
    · exact hsafe c (strings.mem_trimSuffix _ _ _ (strings.mem_trimSuffix _ _ _ hc))
  have key : ∀ id : GoString, (∀ c ∈ id, utils.isSafeChar c = true) → '_' ∈ id →
      utils.IsSafeSegment id ∧ '/' ∉ id ∧ '\\' ∉ id ∧
      ∀ base tag, utils.ValidateTag tag = none →
        filepath.Join [filepath.Join [base, tag], id] =
          filepath.Join [base, tag] ++ '/' :: id := by
    intro id hall hus
    have hne : id ≠ [] := fun e => by simp [e] at hus
    have hd1 : id ≠ ['.'] := fun e => by
      rw [e] at hus
      exact absurd hus (by decide)
    have hd2 : id ≠ ['.', '.'] := fun e => by
      rw [e] at hus
      exact absurd hus (by decide)
    have hsl : '/' ∉ id := fun e => absurd (hall '/' e) (by decide)
    have hbs : '\\' ∉ id := fun e => absurd (hall '\\' e) (by decide)
    refine ⟨⟨hne, hall, hd1, hd2⟩, hsl, hbs, ?_⟩
    intro base tag htag
    obtain ⟨t0, t1, t2, ts⟩ := utils.tag_is_segment tag htag
    rw [filepath.join_join]
    exact filepath.join_direct_child base tag id t0 t1 t2 ts hne hd1 hd2 hsl
  simp only [utils.GenerateUniqueFilename, hsan, hshort]
  have hus : utils.isSafeChar '_' = true := by decide
  have hsuf : ∀ c ∈ suffix, utils.isSafeChar c = true :=
    fun c hc => (utils.hex_safe c (hhex c hc)).1
  split
  · refine ⟨_, rfl, key _ ?_ (by simp)⟩
    intro c hc
    simp only [List.mem_append, List.mem_cons] at hc
    rcases hc with (hc | hc | hc) | hc
    · exact hstem c hc
    · rw [hc]; exact hus
    · exact hsuf c hc
    · exact hext c hc
  · refine ⟨_, rfl, key _ ?_ (by simp)⟩
    intro c hc
    simp only [List.mem_append, List.mem_cons] at hc
    rcases hc with hc | hc | hc
    · exact hstem c hc
    · rw [hc]; exact hus
    · exact hsuf c hc

theorem strings.hasSuffix_of_suffix (s suf : GoString) (h : suf <:+ s) :
    strings.HasSuffix s suf = true := by
  unfold strings.HasSuffix
  rw [List.isPrefixOf_iff_prefix]
  exact List.reverse_prefix.mpr h

theorem strings.length_trimSuffix (s suf : GoString) (h : suf <:+ s) :
    (strings.TrimSuffix s suf).length = s.length - suf.length := by
  unfold strings.TrimSuffix
  rw [strings.hasSuffix_of_suffix s suf h]
  simp

/-- The function `SanitizeFilename` returns exactly when the truncation step is not reached or the
extension of the name that reaches it has at most 200 characters. -/
theorem sanitize_returns_iff (filename : GoString) :
    utils.SanitizeFilename filename ≠ none ↔
      ((utils.strippedName filename).length ≤ 200 ∨
        (filepath.Ext (utils.strippedName filename)).length ≤ 200) := by
  rw [utils.sanitize_eq]
  have hlen := strings.length_trimSuffix (utils.strippedName filename) _
    (filepath.ext_suffix (utils.strippedName filename))
  have hle := (filepath.ext_suffix (utils.strippedName filename)).length_le
  by_cases hlong : (utils.strippedName filename).length > 200
  · simp only [hlong, if_true, goSliceTo, hlen]
    by_cases hext : (filepath.Ext (utils.strippedName filename)).length ≤ 200
    · have hc : (0 : Int) ≤ 200 - ((filepath.Ext (utils.strippedName filename)).length : Int) ∧
          (200 : Int) - ((filepath.Ext (utils.strippedName filename)).length : Int) ≤
            (((utils.strippedName filename).length -
              (filepath.Ext (utils.strippedName filename)).length : Nat) : Int) := by
        omega
      simp [hc, hext]
    · have hc : ¬ ((0 : Int) ≤ 200 - ((filepath.Ext (utils.strippedName filename)).length : Int) ∧
          (200 : Int) - ((filepath.Ext (utils.strippedName filename)).length : Int) ≤
            (((utils.strippedName filename).length -
              (filepath.Ext (utils.strippedName filename)).length : Nat) : Int)) := by
        omega
      simp only [hc, if_false]
      constructor
      · intro h; exact absurd rfl h
      · intro h; omega
  · simp only [hlong, if_false]
    constructor
    · intro _; left; omega
    · intro _; simp

/-! ## The sanitizer: characters, length, dots -/

theorem filepath.extScan_shape (l acc : List Char) :
    filepath.extScan l acc = [] ∨
    ∃ y rest, l = y ++ '.' :: rest ∧ (∀ c ∈ y, c ≠ '.' ∧ c ≠ '/') ∧
      filepath.extScan l acc = '.' :: (y.reverse ++ acc) := by
  induction l generalizing acc with
  | nil => exact Or.inl rfl
  | cons c rest ih =>
    unfold filepath.extScan
    by_cases h1 : c = '/'
    · simp [h1]
    · by_cases h2 : c = '.'
      · right
        refine ⟨[], rest, by simp [h2], by simp, by simp [h2]⟩
      · simp only [h1, h2, if_false]
        rcases ih (c :: acc) with h | ⟨y, r, hl, hy, he⟩
        · exact Or.inl h
        · right
          refine ⟨c :: y, r, by simp [hl], ?_, by simp [he]⟩
          intro d hd
          simp only [List.mem_cons] at hd
          rcases hd with rfl | hd
          · exact ⟨h2, h1⟩
          · exact hy d hd

theorem filepath.extScan_of_plain (y rest acc : List Char)
    (hy : ∀ c ∈ y, c ≠ '.' ∧ c ≠ '/') :
    filepath.extScan (y ++ '.' :: rest) acc = '.' :: (y.reverse ++ acc) := by
  induction y generalizing acc with
  | nil => simp [filepath.extScan]
  | cons c cs ih =>
    obtain ⟨h2, h1⟩ := hy c (by simp)
    have e : filepath.extScan (c :: cs ++ '.' :: rest) acc =
        filepath.extScan (cs ++ '.' :: rest) (c :: acc) := by
      simp only [List.cons_append, filepath.extScan, h1, h2, if_false]
      rfl
    rw [e, ih (c :: acc) (fun d hd => hy d (by simp [hd]))]
    simp

theorem filepath.extScan_no_dot (l acc : List Char) (h : '.' ∉ l) :
    filepath.extScan l acc = [] := by
  induction l generalizing acc with
  | nil => rfl
  | cons c rest ih =>
    have h2 : c ≠ '.' := fun e => h (by simp [e])
    have hr : '.' ∉ rest := fun e => h (by simp [e])
    unfold filepath.extScan
    by_cases h1 : c = '/'
    · simp [h1]
    · simp only [h1, h2, if_false]
      exact ih _ hr

theorem filepath.extScan_ne_nil (l acc : List Char) (hs : '/' ∉ l) (hd : '.' ∈ l) :
    filepath.extScan l acc ≠ [] := by
  induction l generalizing acc with
  | nil => simp at hd
  | cons c rest ih =>
    have h1 : c ≠ '/' := fun e => hs (by simp [e])
    have hr : '/' ∉ rest := fun e => hs (by simp [e])
    unfold filepath.extScan
    by_cases h2 : c = '.'
    · simp [h1, h2]
    · simp only [h1, h2, if_false]
      refine ih _ hr ?_
      simp only [List.mem_cons] at hd
      rcases hd with e | e
      · exact absurd e.symm h2
      · exact e

/-- An extension is empty, or a dot followed by text without dot and slash. -/
theorem filepath.ext_shape (path : GoString) :
    filepath.Ext path = [] ∨
    ∃ x, filepath.Ext path = '.' :: x ∧ (∀ c ∈ x, c ≠ '.' ∧ c ≠ '/') := by
  rcases filepath.extScan_shape path.reverse [] with h | ⟨y, r, _, hy, he⟩
  · exact Or.inl h
  · right
    refine ⟨y.reverse, by simpa [filepath.Ext] using he, ?_⟩
    intro c hc
    exact hy c (by simpa using hc)

theorem filepath.ext_append_plain (pre x : GoString) (hx : ∀ c ∈ x, c ≠ '.' ∧ c ≠ '/') :
    filepath.Ext (pre ++ '.' :: x) = '.' :: x := by
  unfold filepath.Ext
  have : (pre ++ '.' :: x).reverse = x.reverse ++ '.' :: pre.reverse := by simp
  rw [this, filepath.extScan_of_plain _ _ _ (fun c hc => hx c (by simpa using hc))]
  simp

theorem filepath.ext_no_dot (path : GoString) (h : '.' ∉ path) : filepath.Ext path = [] :=
  filepath.extScan_no_dot _ _ (by simpa using h)

theorem filepath.ext_ne_nil (path : GoString) (hs : '/' ∉ path) (hd : '.' ∈ path) :
    filepath.Ext path ≠ [] :=
  filepath.extScan_ne_nil _ _ (by simpa using hs) (by simpa using hd)

theorem utils.sanitize_short (filename : GoString)
    (h : (utils.strippedName filename).length ≤ 200) :
    utils.SanitizeFilename filename = some (utils.strippedName filename) := by
  rw [utils.sanitize_eq]
  have : ¬ (utils.strippedName filename).length > 200 := by omega
  simp only [this, if_false]

/-- The truncation step where it does not panic: the first `200 - len(ext)` characters of
the name, then the extension. -/
theorem utils.sanitize_long (filename : GoString)
    (h : (utils.strippedName filename).length > 200)
    (he : (filepath.Ext (utils.strippedName filename)).length ≤ 200) :
    utils.SanitizeFilename filename =
      some ((utils.strippedName filename).take
          (200 - (filepath.Ext (utils.strippedName filename)).length) ++
        filepath.Ext (utils.strippedName filename)) := by
  rw [utils.sanitize_eq]
  have hsuf := filepath.ext_suffix (utils.strippedName filename)
  have hlen := strings.length_trimSuffix (utils.strippedName filename) _ hsuf
  have hle := hsuf.length_le
  have htrim : strings.TrimSuffix (utils.strippedName filename)
      (filepath.Ext (utils.strippedName filename)) =
      (utils.strippedName filename).take ((utils.strippedName filename).length -
        (filepath.Ext (utils.strippedName filename)).length) := by
    unfold strings.TrimSuffix
    rw [strings.hasSuffix_of_suffix _ _ hsuf]
    simp
  generalize utils.strippedName filename = st at *
  generalize filepath.Ext st = ext at *
  have hc : (0 : Int) ≤ 200 - (ext.length : Int) ∧
      (200 : Int) - (ext.length : Int) ≤ ((strings.TrimSuffix st ext).length : Int) := by
    rw [hlen]; omega
  simp only [h, if_true, goSliceTo, hc, and_self]
  have hk : ((200 : Int) - (ext.length : Int)).toNat = 200 - ext.length := by omega
  rw [hk, htrim, List.take_take]
  have : min (200 - ext.length) (st.length - ext.length) = 200 - ext.length := by omega
  rw [this]

/-- C11.  Every character of a name that `SanitizeFilename` returns is in
`[A-Za-z0-9._-]`; in particular the name holds no slash, no backslash, no null byte and
no space. -/
theorem sanitize_output_characters (filename s : GoString)
    (h : utils.SanitizeFilename filename = some s) :
    (∀ c ∈ s, utils.isSafeChar c = true) ∧
    '/' ∉ s ∧ '\\' ∉ s ∧ Char.ofNat 0 ∉ s ∧ ' ' ∉ s := by
  have hs := utils.sanitize_safe filename s h
  refine ⟨hs, ?_, ?_, ?_, ?_⟩
  · exact fun e => absurd (hs _ e) (by decide)
  · exact fun e => absurd (hs _ e) (by decide)
  · exact fun e => absurd (hs _ e) (by decide)
  · exact fun e => absurd (hs _ e) (by decide)

theorem sanitize_output_characters_witness :
    utils.SanitizeFilename "../../my file#1.txt".toList = some "my_file1.txt".toList ∧
    (∀ c ∈ "my_file1.txt".toList, utils.isSafeChar c = true) ∧
    ' ' ∉ "my_file1.txt".toList :=
  ⟨by decide,
   (sanitize_output_characters "../../my file#1.txt".toList "my_file1.txt".toList
      (by decide)).1,
   (sanitize_output_characters "../../my file#1.txt".toList "my_file1.txt".toList
      (by decide)).2.2.2.2⟩

/-- C12, as stated, fails: for the name `a.` followed by 201 letters the name after the
first five steps is longer than 200, yet no output of length 200 carries its extension.
There is no output at all, and the extension alone has 202 characters. -/
theorem sanitize_cannot_keep_long_extension :
    (utils.strippedName Sample.longExtension).length > 200 ∧
    (filepath.Ext (utils.strippedName Sample.longExtension)).length = 202 ∧
    ¬ ∃ s, utils.SanitizeFilename Sample.longExtension = some s ∧ s.length = 200 ∧
      filepath.Ext s = filepath.Ext (utils.strippedName Sample.longExtension) := by
  refine ⟨by decide, by decide, ?_⟩
  rintro ⟨s, hs, _, _⟩
  have hn : utils.SanitizeFilename Sample.longExtension = none := by decide
  rw [hn] at hs
  exact Option.noConfusion hs

/-- C12, as amended.  A name that `SanitizeFilename` returns has at most 200 characters.
When the name after the first five steps is longer than 200 and its extension has at
most 200 characters, `SanitizeFilename` returns a name of exactly 200 characters whose
extension is the extension of the untruncated name. -/
theorem sanitize_truncates_to_200 (filename : GoString) :
    (∀ s, utils.SanitizeFilename filename = some s → s.length ≤ 200) ∧
    ((utils.strippedName filename).length > 200 →
      (filepath.Ext (utils.strippedName filename)).length ≤ 200 →
      ∃ s, utils.SanitizeFilename filename = some s ∧ s.length = 200 ∧
        filepath.Ext s = filepath.Ext (utils.strippedName filename)) := by
  have hsafe := utils.strippedName_safe filename
  have main : (utils.strippedName filename).length > 200 →
      (filepath.Ext (utils.strippedName filename)).length ≤ 200 →
      ∃ s, utils.SanitizeFilename filename = some s ∧ s.length = 200 ∧
        filepath.Ext s = filepath.Ext (utils.strippedName filename) := by
    intro hlong hext
    refine ⟨_, utils.sanitize_long filename hlong hext, ?_, ?_⟩
    · simp only [List.length_append, List.length_take]
      omega
    · rcases filepath.ext_shape (utils.strippedName filename) with h0 | ⟨x, hx, hplain⟩
      · -- no extension: the name has no dot at all
        have hnodot : '.' ∉ utils.strippedName filename := by
          intro hd
          refine filepath.ext_ne_nil _ ?_ hd h0
          exact fun e => absurd (hsafe _ e) (by decide)
        rw [h0, List.append_nil]
        exact filepath.ext_no_dot _ (fun e => hnodot (List.mem_of_mem_take e))
      · rw [hx]
        exact filepath.ext_append_plain _ x hplain
  refine ⟨?_, main⟩
  intro s hs
  by_cases hlong : (utils.strippedName filename).length > 200
  · have hext : (filepath.Ext (utils.strippedName filename)).length ≤ 200 := by
      rcases (sanitize_returns_iff filename).mp (by rw [hs]; simp) with h | h
      · omega
      · exact h
    obtain ⟨t, ht, hlen, _⟩ := main hlong hext
    rw [hs] at ht
    simp only [Option.some.injEq] at ht
    rw [ht]; omega
  · rw [utils.sanitize_short filename (by omega)] at hs
    simp only [Option.some.injEq] at hs
    rw [← hs]; omega

theorem sanitize_truncates_to_200_witness :
    ∃ s, utils.SanitizeFilename (List.replicate 250 'a' ++ ".txt".toList) = some s ∧
      s.length = 200 ∧ filepath.Ext s = ".txt".toList := by
  obtain ⟨s, h1, h2, h3⟩ :=
    (sanitize_truncates_to_200 (List.replicate 250 'a' ++ ".txt".toList)).2
      (by decide) (by decide)
  refine ⟨s, h1, h2, ?_⟩
  rw [h3]
  decide

/-- C13 at a failing input.  The name `..env` is sanitized to `.env`: only one of the two
leading dots is removed, and the result begins with a dot. -/
theorem sanitize_leaves_leading_dot :
    utils.SanitizeFilename Sample.dotted = some ".env".toList ∧
    strings.HasPrefix ".env".toList ['.'] = true := by
  decide

/-- C14, as stated, fails: the name `a..b` is returned as it is; it contains two dots in
a row and `IsValidFilename` rejects it. -/
theorem sanitize_keeps_double_dot :
    utils.SanitizeFilename Sample.doubleDot = some Sample.doubleDot ∧
    strings.Contains Sample.doubleDot ['.', '.'] = true ∧
    Sample.doubleDot ≠ [] ∧
    utils.IsValidFilename Sample.doubleDot = false := by
  decide

/-- C14, as amended.  A name that `SanitizeFilename` returns contains no path separator,
and `IsValidFilename` accepts it exactly when it is not empty and has no two dots in a
row. -/
theorem sanitize_output_has_no_separator (filename s : GoString)
    (h : utils.SanitizeFilename filename = some s) :
    '/' ∉ s ∧ '\\' ∉ s ∧
    (utils.IsValidFilename s = true ↔ (s ≠ [] ∧ strings.Contains s ['.', '.'] = false)) := by
  have hs := utils.sanitize_safe filename s h
  have h1 : '/' ∉ s := fun e => absurd (hs _ e) (by decide)
  have h2 : '\\' ∉ s := fun e => absurd (hs _ e) (by decide)
  refine ⟨h1, h2, ?_⟩
  have hany : s.any (fun c => c == '/' || c == '\\') = false := by
    rw [List.any_eq_false]
    intro c hc
    have c1 : c ≠ '/' := fun e => h1 (e ▸ hc)
    have c2 : c ≠ '\\' := fun e => h2 (e ▸ hc)
    simp [c1, c2]
  unfold utils.IsValidFilename
  by_cases he : s = []
  · simp [he]
  · by_cases hc : strings.Contains s ['.', '.'] = true
    · simp [he, hc]
    · simp [he, hc, hany]

theorem sanitize_output_has_no_separator_witness :
    utils.SanitizeFilename "../../etc/passwd".toList = some "passwd".toList ∧
    '/' ∉ "passwd".toList ∧
    utils.IsValidFilename "passwd".toList = true :=
  ⟨by decide,
   (sanitize_output_has_no_separator "../../etc/passwd".toList "passwd".toList
      (by decide)).1,
   (sanitize_output_has_no_separator "../../etc/passwd".toList "passwd".toList
      (by decide)).2.2.mpr (by decide)⟩

/-! ## The identifier: extension and stem -/

theorem strings.trimSuffix_append (n e : GoString) : strings.TrimSuffix (n ++ e) e = n := by
  unfold strings.TrimSuffix
  rw [strings.hasSuffix_of_suffix _ _ (List.suffix_append n e)]
  simp

/-- The identifier as `GenerateUniqueFilename` builds it, whenever `SanitizeFilename`
returns: a stem that is not empty (the sanitized name without its lower-cased extension
and without a trailing dot, or `file` when that is empty), an underscore, the text of the
UUID before its first dash, and the lower-cased extension of the sanitized name. -/
theorem generate_identifier_parts (caseTable : Char → Char)
    (originalName sanitized suffix rest : GoString)
    (hsan : utils.SanitizeFilename originalName = some sanitized)
    (hdash : '-' ∉ suffix) :
    ∃ stem, stem ≠ [] ∧
      utils.GenerateUniqueFilename caseTable originalName (suffix ++ '-' :: rest) =
        some (stem ++ '_' :: suffix ++ utils.ExtractExtension caseTable sanitized) ∧
      (strings.TrimSuffix (strings.TrimSuffix sanitized
          (utils.ExtractExtension caseTable sanitized)) ['.'] = [] →
        stem = "file".toList) := by
  have hshort : strings.SplitDashFirst (suffix ++ '-' :: rest) = suffix :=
    strings.splitDashFirst_append suffix rest (fun c hc e => hdash (e ▸ hc))
  simp only [utils.GenerateUniqueFilename, hsan, hshort]
  by_cases hn : strings.TrimSuffix (strings.TrimSuffix sanitized
      (utils.ExtractExtension caseTable sanitized)) ['.'] = []
  · refine ⟨"file".toList, by decide, ?_, fun _ => rfl⟩
    simp only [hn, if_true]
    by_cases he : utils.ExtractExtension caseTable sanitized = []
    · simp [he]
    · simp [he]
  · refine ⟨_, hn, ?_, fun h => absurd h hn⟩
    simp only [hn, if_false]
    by_cases he : utils.ExtractExtension caseTable sanitized = []
    · simp [he]
    · simp [he]

/-- The format `name_suffix.ext` for an extension without upper-case letters: when the
sanitized name is `N ++ E` with `E` its extension, `E` unchanged by lower-casing, and `N`
not empty and not ending in a dot, the identifier is `N`, an underscore, the text of the
UUID before its first dash, and `E`. -/
theorem generate_format_lower_extension (caseTable : Char → Char)
    (originalName n e suffix rest : GoString)
    (hsan : utils.SanitizeFilename originalName = some (n ++ e))
    (hext : filepath.Ext (n ++ e) = e) (hlow : strings.ToLower caseTable e = e)
    (hn : n ≠ []) (hdot : strings.HasSuffix n ['.'] = false) (hdash : '-' ∉ suffix) :
    utils.GenerateUniqueFilename caseTable originalName (suffix ++ '-' :: rest) =
      some (n ++ '_' :: suffix ++ e) := by
  have hshort : strings.SplitDashFirst (suffix ++ '-' :: rest) = suffix :=
    strings.splitDashFirst_append suffix rest (fun c hc h => hdash (h ▸ hc))
  have he : utils.ExtractExtension caseTable (n ++ e) = e := by
    simp only [utils.ExtractExtension, hext, hlow]
  have ht : strings.TrimSuffix n ['.'] = n := by
    simp only [strings.TrimSuffix, hdot, Bool.false_eq_true, if_false]
  simp only [utils.GenerateUniqueFilename, hsan, hshort, he, strings.trimSuffix_append, ht, hn,
    if_false]
  by_cases h0 : e = []
  · simp [h0]
  · simp [h0]

theorem generate_format_lower_extension_example (caseTable : Char → Char) :
    utils.GenerateUniqueFilename caseTable "My Cat.png".toList Sample.uuid =
      some "My_Cat_1234abcd.png".toList :=
  generate_format_lower_extension caseTable "My Cat.png".toList "My_Cat".toList
    ".png".toList "1234abcd".toList "0000-4000-8000-000000000000".toList
    (by decide) (by decide) rfl (by decide) (by decide) (by decide)

/-- C15 at a failing input.  The name made of two CJK characters and `.jpg` passes
`ValidateFileExtension` against the allow-list `jpg`, with validated extension `jpg`; its
sanitized form is `jpg`, which has no extension, and the identifier is `jpg_1234abcd`:
it does not end in `.jpg`. -/
theorem generate_loses_extension_of_bare_stem (caseTable : Char → Char) :
    utils.ValidateFileExtension caseTable Sample.foreignStem Sample.jpgOnly = none ∧
    utils.validatedExt caseTable Sample.foreignStem = "jpg".toList ∧
    utils.SanitizeFilename Sample.foreignStem = some "jpg".toList ∧
    utils.GenerateUniqueFilename caseTable Sample.foreignStem Sample.uuid =
      some "jpg_1234abcd".toList ∧
    strings.HasSuffix "jpg_1234abcd".toList ".jpg".toList = false := by
  refine ⟨rfl, rfl, by decide, rfl, by decide⟩

/-- C16 at a failing input.  The name `photo.JPG` is sanitized to itself, `photo` followed
by its extension `.JPG`; the identifier is `photo.JPG_1234abcd.jpg`, not
`photo_1234abcd.jpg`: the upper-case extension stays in the stem. -/
theorem generate_keeps_upper_extension_in_stem (caseTable : Char → Char) :
    utils.SanitizeFilename Sample.upperExtension = some ("photo".toList ++ ".JPG".toList) ∧
    filepath.Ext ("photo".toList ++ ".JPG".toList) = ".JPG".toList ∧
    utils.GenerateUniqueFilename caseTable Sample.upperExtension Sample.uuid =
      some "photo.JPG_1234abcd.jpg".toList ∧
    utils.GenerateUniqueFilename caseTable Sample.upperExtension Sample.uuid ≠
      some ("photo".toList ++ '_' :: "1234abcd".toList ++
        strings.ToLower caseTable ".JPG".toList) := by
  refine ⟨by decide, by decide, rfl, ?_⟩
  have h : utils.GenerateUniqueFilename caseTable Sample.upperExtension Sample.uuid =
      some "photo.JPG_1234abcd.jpg".toList := rfl
  have h2 : strings.ToLower caseTable ".JPG".toList = ".jpg".toList := rfl
  rw [h, h2]
  decide

/-- C17 at a failing input.  The name `..JPG` is sanitized to `.JPG`, whose name without
extension is empty; the identifier is `.JPG_1234abcd.jpg`, not `file_1234abcd.jpg`.  With
the extension in lower case, `..jpg`, the identifier is `file_1234abcd.jpg`. -/
theorem generate_misses_empty_stem (caseTable : Char → Char) :
    utils.SanitizeFilename Sample.dottedUpper = some ".JPG".toList ∧
    utils.GetNameWithoutExtension ".JPG".toList = [] ∧
    utils.GenerateUniqueFilename caseTable Sample.dottedUpper Sample.uuid =
      some ".JPG_1234abcd.jpg".toList ∧
    utils.GenerateUniqueFilename caseTable "..jpg".toList Sample.uuid =
      some "file_1234abcd.jpg".toList := by
  refine ⟨by decide, by decide, rfl, rfl⟩

/-! ## Validation of tag, extension and size -/

theorem utf8Size_of_ascii (c : Char) (h : c.toNat < 128) : c.utf8Size = 1 := by
  have h1 : c.val ≤ 127 := by
    show c.val.toNat ≤ (127 : UInt32).toNat
    have : c.val.toNat = c.toNat := rfl
    have e : (127 : UInt32).toNat = 127 := by decide
    omega
  simp [Char.utf8Size, h1]

theorem goLen_of_ascii (s : GoString) (h : ∀ c ∈ s, c.toNat < 128) : goLen s = s.length := by
  induction s with
  | nil => rfl
  | cons c rest ih =>
    have hr := ih (fun d hd => h d (by simp [hd]))
    simp only [goLen, List.map_cons, List.sum_cons, List.length_cons] at hr ⊢
    rw [utf8Size_of_ascii c (h c (by simp)), hr]
    omega

theorem char_le_iff (a b : Char) : a ≤ b ↔ a.toNat ≤ b.toNat := Iff.rfl

theorem utils.isTagChar_iff (c : Char) : utils.isTagChar c = true ↔ Spec.tagChar c := by
  simp only [utils.isTagChar, Spec.tagChar, Bool.or_eq_true, Bool.and_eq_true,
    decide_eq_true_eq, beq_iff_eq, char_le_iff]
  tauto

theorem utils.tagChar_lt_128 (c : Char) (h : utils.isTagChar c = true) : c.toNat < 128 := by
  simp only [utils.isTagChar, Bool.or_eq_true, Bool.and_eq_true, decide_eq_true_eq,
    beq_iff_eq] at h
  rcases h with (((h | h) | h) | h) | h
  · have : 'z'.toNat = 122 := rfl
    omega
  · have : 'Z'.toNat = 90 := rfl
    omega
  · have : '9'.toNat = 57 := rfl
    omega
  · subst h; decide
  · subst h; decide

/-- C18.  `ValidateTag` returns no error exactly for the tags that match
`^[A-Za-z0-9_-]{1,50}$`: between 1 and 50 characters, each an ASCII letter, a digit, an
underscore or a dash. -/
theorem validateTag_accepts_iff_pattern (tag : GoString) :
    utils.ValidateTag tag = none ↔ Spec.tagPattern tag := by
  unfold utils.ValidateTag Spec.tagPattern
  by_cases h0 : tag = []
  · simp [h0]
  · have hlen : 1 ≤ tag.length := by
      cases tag with
      | nil => exact absurd rfl h0
      | cons c rest => simp
    simp only [h0, if_false]
    by_cases hall : ∀ c ∈ tag, utils.isTagChar c = true
    · have hascii : goLen tag = tag.length :=
        goLen_of_ascii tag (fun c hc => utils.tagChar_lt_128 c (hall c hc))
      have hm : utils.tagRegexMatch tag = true := by
        simp only [utils.tagRegexMatch, Bool.and_eq_true, decide_eq_true_eq, List.all_eq_true]
        exact ⟨h0, hall⟩
      have hspec : ∀ c ∈ tag, Spec.tagChar c :=
        fun c hc => (utils.isTagChar_iff c).mp (hall c hc)
      by_cases h50 : goLen tag > 50
      · simp only [h50, if_true]
        constructor
        · intro h; exact absurd h (by simp)
        · intro h; omega
      · simp only [h50, if_false, hm, Bool.not_true, Bool.false_eq_true]
        constructor
        · intro _; exact ⟨hlen, by omega, hspec⟩
        · intro _; trivial
    · have hm : utils.tagRegexMatch tag = false := by
        simp only [utils.tagRegexMatch, Bool.and_eq_false_imp]
        intro _
        rw [List.all_eq_false]
        push_neg at hall
        obtain ⟨c, hc, hn⟩ := hall
        exact ⟨c, hc, hn⟩
      have hnot : ¬ ∀ c ∈ tag, Spec.tagChar c := by
        intro h
        exact hall (fun c hc => (utils.isTagChar_iff c).mpr (h c hc))
      by_cases h50 : goLen tag > 50
      · simp only [h50, if_true]
        constructor
        · intro h; exact absurd h (by simp)
        · intro h; exact absurd h.2.2 hnot
      · simp only [h50, if_false, hm, Bool.not_false, if_true]
        constructor
        · intro h; exact absurd h (by simp)
        · intro h; exact absurd h.2.2 hnot

theorem filepath.extScan_takeWhile (l acc : List Char) :
    filepath.extScan l acc =
      if '.' ∈ l.takeWhile (fun c => c != '/') then
        '.' :: (((l.takeWhile (fun c => c != '/')).takeWhile (fun c => c != '.')).reverse ++ acc)
      else [] := by
  induction l generalizing acc with
  | nil => simp [filepath.extScan]
  | cons c rest ih =>
    unfold filepath.extScan
    by_cases h1 : c = '/'
    · simp [h1]
    · by_cases h2 : c = '.'
      · simp [h2]
      · simp only [h1, h2, if_false]
        rw [ih (c :: acc)]
        have e1 : List.takeWhile (fun c => c != '/') (c :: rest) =
            c :: List.takeWhile (fun c => c != '/') rest := by
          simp [List.takeWhile_cons, h1]
        rw [e1]
        have e2 : List.takeWhile (fun c => c != '.')
            (c :: List.takeWhile (fun c => c != '/') rest) =
            c :: List.takeWhile (fun c => c != '.')
              (List.takeWhile (fun c => c != '/') rest) := by
          simp [List.takeWhile_cons, h2]
        rw [e2]
        have e3 : ('.' ∈ c :: List.takeWhile (fun c => c != '/') rest) ↔
            ('.' ∈ List.takeWhile (fun c => c != '/') rest) := by
          simp only [List.mem_cons]
          constructor
          · rintro (e | e)
            · exact absurd e.symm h2
            · exact e
          · exact Or.inr
        simp only [e3, List.reverse_cons, List.append_assoc, List.singleton_append]

/-- The extension that the code compares is the extension in the words of the
specification: the text after the last dot of the final path element. -/
theorem filepath.ext_without_dot (filename : GoString) :
    strings.TrimPrefix (filepath.Ext filename) ['.'] = Spec.extension filename := by
  unfold filepath.Ext Spec.extension Spec.finalElement
  rw [filepath.extScan_takeWhile]
  simp only [List.mem_reverse, List.reverse_reverse, List.append_nil]
  by_cases h : '.' ∈ List.takeWhile (fun c => c != '/') filename.reverse
  · simp [h, strings.TrimPrefix, strings.HasPrefix]
  · simp [h, strings.TrimPrefix, strings.HasPrefix]

theorem utils.extAllowed_iff (caseTable : Char → Char) (ext : GoString)
    (allowed : List GoString) :
    utils.extAllowed caseTable ext allowed = true ↔
      ∃ a ∈ allowed, strings.ToLower caseTable a = ext := by
  induction allowed with
  | nil => simp [utils.extAllowed]
  | cons a rest ih =>
    unfold utils.extAllowed
    by_cases h : strings.ToLower caseTable a = ext
    · simp [h]
    · simp only [h, if_false, ih, List.mem_cons, exists_eq_or_imp, false_or]

/-- C19.  `ValidateFileExtension` returns no error exactly when the extension of the
filename, the text after the last dot of its final path element, is not empty and its
lower-casing is the lower-casing of an entry of the allow-list; a filename without
extension, or one that ends in a dot, is rejected. -/
theorem validateFileExtension_accepts_iff (caseTable : Char → Char) (filename : GoString)
    (allowedExtensions : List GoString) :
    (utils.ValidateFileExtension caseTable filename allowedExtensions = none ↔
      (Spec.extension filename ≠ [] ∧
       ∃ a ∈ allowedExtensions,
         strings.ToLower caseTable a = strings.ToLower caseTable (Spec.extension filename))) ∧
    (Spec.extension filename = [] →
      utils.ValidateFileExtension caseTable filename allowedExtensions =
        some "file has no extension") ∧
    (∀ pre, filename = pre ++ ['.'] →
      utils.ValidateFileExtension caseTable filename allowedExtensions =
        some "file has no extension") := by
  have hve : utils.validatedExt caseTable filename =
      strings.ToLower caseTable (Spec.extension filename) := by
    simp only [utils.validatedExt, filepath.ext_without_dot]
  have hnil : utils.validatedExt caseTable filename = [] ↔ Spec.extension filename = [] := by
    rw [hve]
    simp [strings.ToLower]
  have hempty : Spec.extension filename = [] →
      utils.ValidateFileExtension caseTable filename allowedExtensions =
        some "file has no extension" := by
    intro h
    simp only [utils.ValidateFileExtension, hnil.mpr h, if_true]
  refine ⟨?_, hempty, ?_⟩
  · unfold utils.ValidateFileExtension
    by_cases h0 : Spec.extension filename = []
    · simp [hnil.mpr h0, h0]
    · have h0v : ¬ utils.validatedExt caseTable filename = [] := fun e => h0 (hnil.mp e)
      simp only [h0v, if_false, ne_eq, h0, not_false_eq_true, true_and]
      by_cases ha : utils.extAllowed caseTable (utils.validatedExt caseTable filename)
          allowedExtensions = true
      · simp only [ha, if_true, true_iff]
        rw [← hve]
        exact (utils.extAllowed_iff _ _ _).mp ha
      · simp only [ha, Bool.false_eq_true, if_false]
        constructor
        · intro h; exact absurd h (by simp)
        · intro h
          rw [← hve] at h
          exact absurd ((utils.extAllowed_iff _ _ _).mpr h) ha
  · intro pre hp
    apply hempty
    rw [← filepath.ext_without_dot, hp]
    have : filepath.Ext (pre ++ ['.']) = ['.'] :=
      filepath.ext_append_plain pre [] (by simp)
    rw [this]
    decide

theorem validateFileExtension_accepts_iff_witness :
    utils.ValidateFileExtension id "holiday/IMG.JpG".toList ["png".toList, "JPG".toList] = none ∧
    utils.ValidateFileExtension id "notes.".toList ["png".toList] =
      some "file has no extension" :=
  ⟨(validateFileExtension_accepts_iff id "holiday/IMG.JpG".toList
      ["png".toList, "JPG".toList]).1.mpr (by decide),
   (validateFileExtension_accepts_iff id "notes.".toList ["png".toList]).2.2
      "notes".toList (by decide)⟩

/-- C20, as stated, fails: a request with an empty tag and a size of 0 is rejected for
its tag, not as an empty file. -/
theorem upload_checks_tag_before_size :
    Sample.emptyReq.File.Size = 0 ∧
    (FileService.Upload id Sample.cfg Sample.env [] Sample.emptyReq).1 =
      Outcome.error "invalid tag: tag is required" ∧
    (FileService.Upload id Sample.cfg Sample.env [] Sample.emptyReq).1 ≠
      Outcome.error "file is empty" := by
  decide

/-- C20, as amended.  For an upload request whose tag is valid: when the declared size is
0 or negative `Upload` fails with `file is empty`; when it is positive and exceeds the
configured maximum `Upload` fails with the file-too-large error; in both cases the file
system is untouched.  The size check passes every size `s` with `0 < s ≤ max`. -/
theorem upload_rejects_bad_size (caseTable : Char → Char) (cfg : Config) (env : UploadEnv)
    (fs : FS) (req : UploadRequest) (htag : utils.ValidateTag req.Tag = none) :
    (req.File.Size ≤ 0 →
      FileService.Upload caseTable cfg env fs req = (Outcome.error "file is empty", fs)) ∧
    (0 < req.File.Size → req.File.Size > cfg.MaxFileSize →
      FileService.Upload caseTable cfg env fs req =
        (Outcome.error ("file size exceeds maximum limit (" ++
          toString (Int.tdiv (Int.tdiv cfg.MaxFileSize 1024) 1024) ++ " MB)"), fs)) ∧
    (∀ s max : Int, 0 < s → s ≤ max → utils.ValidateFileSize s max = none) := by
  refine ⟨?_, ?_, ?_⟩
  · intro h
    simp [FileService.Upload, htag, utils.ValidateFileSize, h]
  · intro h1 h2
    have h1n : ¬ req.File.Size ≤ 0 := by omega
    simp [FileService.Upload, htag, utils.ValidateFileSize, h1n, h2]
  · intro s max h1 h2
    have h1n : ¬ s ≤ 0 := by omega
    have h2n : ¬ s > max := by omega
    simp [utils.ValidateFileSize, h1n, h2n]

theorem upload_rejects_bad_size_witness :
    FileService.Upload id Sample.cfg Sample.env []
        { Sample.req with File := { Filename := RawString.ofValid "My Cat.png".toList, Size := 0 } } =
      (Outcome.error "file is empty", []) ∧
    FileService.Upload id Sample.cfg Sample.env []
        { Sample.req with File := { Filename := RawString.ofValid "My Cat.png".toList, Size := 5000000 } } =
      (Outcome.error "file size exceeds maximum limit (0 MB)", []) ∧
    utils.ValidateFileSize 1000 1000 = none :=
  ⟨(upload_rejects_bad_size id Sample.cfg Sample.env []
      { Sample.req with File := { Filename := RawString.ofValid "My Cat.png".toList, Size := 0 } }
      (by decide)).1 (by decide),
   (upload_rejects_bad_size id Sample.cfg Sample.env []
      { Sample.req with File := { Filename := RawString.ofValid "My Cat.png".toList, Size := 5000000 } }
      (by decide)).2.1 (by decide) (by decide),
   (upload_rejects_bad_size id Sample.cfg Sample.env [] Sample.req (by decide)).2.2
      1000 1000 (by decide) (by decide)⟩

/-! ## Sizes in human-readable form -/

theorem utils.unitLoop_eq (n div exp : Int) :
    utils.unitLoop n div exp =
      if n ≥ 1024 then
        utils.unitLoop (Int.tdiv n 1024) (wrap64 (div * 1024)) (wrap64 (exp + 1))
      else (div, exp) := by
  conv => lhs; unfold utils.unitLoop

theorem pow1024_bound (e : Nat) (h : (1024 : Int) ^ (e + 1) < 2 ^ 63) : e ≤ 5 := by
  by_contra hc
  have h7 : (1024 : Int) ^ 7 ≤ 1024 ^ (e + 1) :=
    pow_le_pow_right₀ (by norm_num) (by omega)
  have : (2 : Int) ^ 63 < 1024 ^ 7 := by norm_num
  omega

/-- The loop of `FormatFileSize`, by its invariant: `div` is a power of 1024 and `n` is
the quotient of the byte count by `div`. -/
theorem utils.unitLoop_spec (b : Int) (hb : b < 2 ^ 63) :
    ∀ (k : Nat) (n div : Int) (e : Nat), n.toNat ≤ k → 1 ≤ n → div = 1024 ^ (e + 1) →
      div * n ≤ b → b < div * (n + 1) →
      ∃ e2 : Nat, utils.unitLoop n div (e : Int) = ((1024 : Int) ^ (e2 + 1), (e2 : Int)) ∧
        (1024 : Int) ^ (e2 + 1) ≤ b ∧ b < 1024 * 1024 ^ (e2 + 1) := by
  intro k
  induction k with
  | zero =>
    intro n div e hk hn _ _ _
    omega
  | succ k ih =>
    intro n div e hk hn hdiv hlo hhi
    have hdpos : 0 < div := by rw [hdiv]; positivity
    rw [utils.unitLoop_eq]
    by_cases hge : n ≥ 1024
    · simp only [hge, if_true]
      have htd : Int.tdiv n 1024 = n / 1024 := Int.tdiv_eq_ediv (by omega) (by omega)
      have hq1 : 1024 * (n / 1024) ≤ n := by omega
      have hq2 : n < 1024 * (n / 1024 + 1) := by omega
      have hmul : div * 1024 ≤ div * n := by nlinarith
      have hd63 : div * 1024 < 2 ^ 63 := by omega
      have he5 : e + 1 ≤ 5 := by
        have : (1024 : Int) ^ (e + 1 + 1) < 2 ^ 63 := by
          rw [pow_succ, ← hdiv]; exact hd63
        exact pow1024_bound (e + 1) this
      have hw1 : wrap64 (div * 1024) = div * 1024 :=
        wrap64_of_inRange _ (by norm_num; nlinarith) hd63
      have hw2 : wrap64 ((e : Int) + 1) = ((e + 1 : Nat) : Int) := by
        rw [wrap64_of_inRange _ (by norm_num; omega) (by norm_num; omega)]
        push_cast; ring
      rw [htd, hw1, hw2]
      refine ih (n / 1024) (div * 1024) (e + 1) (by omega) (by omega) ?_ ?_ ?_
      · rw [hdiv]; ring
      · calc div * 1024 * (n / 1024) = div * (1024 * (n / 1024)) := by ring
          _ ≤ div * n := by nlinarith
          _ ≤ b := hlo
      · calc b < div * (n + 1) := hhi
          _ ≤ div * (1024 * (n / 1024 + 1)) := by nlinarith
          _ = div * 1024 * (n / 1024 + 1) := by ring
    · simp only [hge, if_false]
      refine ⟨e, by rw [hdiv], ?_, ?_⟩
      · rw [← hdiv]; nlinarith
      · rw [← hdiv]; nlinarith

/-- C26.  For a byte count `b` with `1024 ≤ b < 2^63` the loop of `FormatFileSize` ends
with `exp ≤ 5` and `div = 1024^(exp+1)`, where `div ≤ b < 1024 * div`; so `div` stays
below `2^63`, the index into `KMGTPE` is in range and `FormatFileSize` returns the
quotient by `div` with the letter at `exp`.  For `b < 1024` the result is the decimal
text of `b` followed by ` B`. -/
theorem formatFileSize_unit (b : Int) :
    (1024 ≤ b → b < 2 ^ 63 →
      ∃ e : Nat, utils.unitLoop (Int.tdiv b 1024) 1024 0 = ((1024 : Int) ^ (e + 1), (e : Int)) ∧
        e ≤ 5 ∧ (1024 : Int) ^ (e + 1) ≤ b ∧ b < 1024 * 1024 ^ (e + 1) ∧
        (1024 : Int) ^ (e + 1) < 2 ^ 63 ∧
        ∃ u, utils.unitLetters.get? e = some u ∧
          utils.FormatFileSize b = some (utils.SizeText.scaled b (1024 ^ (e + 1)) u)) ∧
    (b < 1024 →
      utils.FormatFileSize b =
        some (utils.SizeText.plain ((toString b).toList ++ " B".toList))) := by
  constructor
  · intro h1 h2
    have htd : Int.tdiv b 1024 = b / 1024 := Int.tdiv_eq_ediv (by omega) (by omega)
    obtain ⟨e, hloop, hlo, hhi⟩ := utils.unitLoop_spec b h2 (Int.tdiv b 1024).toNat
      (Int.tdiv b 1024) 1024 0 (le_refl _) (by rw [htd]; omega) (by norm_num)
      (by rw [htd]; omega) (by rw [htd]; omega)
    have hloop2 : utils.unitLoop (Int.tdiv b 1024) 1024 0 =
        ((1024 : Int) ^ (e + 1), (e : Int)) := by simpa using hloop
    have he : e ≤ 5 := pow1024_bound e (by omega)
    have hu : ∃ u, utils.unitLetters.get? e = some u := by
      have : e < utils.unitLetters.length := by
        have : utils.unitLetters.length = 6 := by decide
        omega
      exact ⟨utils.unitLetters.get ⟨e, this⟩, List.get?_eq_get this⟩
    obtain ⟨u, hu⟩ := hu
    refine ⟨e, hloop2, he, hlo, hhi, by omega, u, hu, ?_⟩
    have hnot : ¬ b < 1024 := by omega
    simp only [utils.FormatFileSize, hnot, if_false, hloop2, Int.toNat_ofNat, hu,
      Int.natCast_nonneg, if_true]
  · intro h
    simp only [utils.FormatFileSize, h, if_true]

theorem formatFileSize_unit_witness :
    (∃ e : Nat, e ≤ 5 ∧ (1024 : Int) ^ (e + 1) ≤ 3145735 ∧
      (3145735 : Int) < 1024 * 1024 ^ (e + 1)) ∧
    utils.FormatFileSize 1023 = some (utils.SizeText.plain "1023 B".toList) := by
  obtain ⟨e, _, h1, h2, h3, _⟩ := (formatFileSize_unit 3145735).1 (by decide) (by decide)
  refine ⟨⟨e, h1, h2, h3⟩, ?_⟩
  have := (formatFileSize_unit 1023).2 (by decide)
  rw [this]
  decide

/-! ## The list handler -/

/-- Without wrap-around, `List` called with a page number below 1 panics: the start index
is negative and the slice expression is out of range. -/
theorem listPage_panics_below_page_one (files : List FileMeta) (req : ListRequest)
    (hp : req.Page < 1) (hl : 1 ≤ req.Limit) (hr : -(2 ^ 62) < (req.Page - 1) * req.Limit)
    (hl2 : req.Limit < 2 ^ 62) (hp2 : -(2 ^ 62) < req.Page) :
    FileService.listPage files req = Outcome.panic := by
  have hneg : (req.Page - 1) * req.Limit < 0 := by nlinarith
  have w1 : wrap64 (req.Page - 1) = req.Page - 1 :=
    wrap64_of_inRange _ (by norm_num at hp2 ⊢; omega) (by norm_num; omega)
  have w2 : wrap64 ((req.Page - 1) * req.Limit) = (req.Page - 1) * req.Limit :=
    wrap64_of_inRange _ (by norm_num at hr ⊢; omega) (by norm_num; omega)
  have w3 : wrap64 ((req.Page - 1) * req.Limit + req.Limit) =
      (req.Page - 1) * req.Limit + req.Limit :=
    wrap64_of_inRange _ (by norm_num at hr hl2 ⊢; omega) (by norm_num at hl2 ⊢; omega)
  simp only [FileService.listPage, w1, w2, w3]
  generalize (req.Page - 1) * req.Limit = start at hneg
  generalize sort.Slice (FileService.uploadLess req.SortDesc) files = sorted
  have h1 : ¬ start ≥ (sorted.length : Int) := by omega
  simp only [h1, if_false, goSlice]
  have h2 : ∀ hi : Int, ¬ (0 ≤ start ∧ start ≤ hi ∧ hi ≤ (sorted.length : Int)) := by
    intro hi h; omega
  simp only [h2, if_false]

/-- C21, as stated, fails: `FileService.List` does not clamp.  With five records and page
size 2, page 0 makes the slice expression panic, while page 1 returns two records. -/
theorem list_does_not_clamp_page :
    FileService.listPage Sample.five (Sample.listReq 0 2) = Outcome.panic ∧
    FileService.listPage Sample.five (Sample.listReq 1 2) =
      Outcome.ok ([Sample.record "c" 5 true, Sample.record "e" 4 false], 5) := by
  decide

/-- C21, as amended.  The list handler clamps the page: for a requested page number below
1, and for one that is not a number, the request it passes to `FileService.List` is the
request it passes for page 1, with `Page = 1`; so the listing is that of page 1. -/
theorem handler_clamps_page (tag search : GoString) (publicFilter : Option Bool)
    (limit : Option Int) (sortOrder : GoString) (page : Int) (hp : page < 1) :
    ListHandler.listRequest tag search publicFilter (some page) limit sortOrder =
      ListHandler.listRequest tag search publicFilter (some 1) limit sortOrder ∧
    ListHandler.listRequest tag search publicFilter none limit sortOrder =
      ListHandler.listRequest tag search publicFilter (some 1) limit sortOrder ∧
    (ListHandler.listRequest tag search publicFilter (some page) limit sortOrder).Page = 1 ∧
    (∀ files, FileService.listPage files
        (ListHandler.listRequest tag search publicFilter (some page) limit sortOrder) =
      FileService.listPage files
        (ListHandler.listRequest tag search publicFilter (some 1) limit sortOrder)) := by
  have h : ListHandler.listRequest tag search publicFilter (some page) limit sortOrder =
      ListHandler.listRequest tag search publicFilter (some 1) limit sortOrder := by
    simp [ListHandler.listRequest, ListHandler.pageOf, hp]
  refine ⟨h, ?_, ?_, fun files => by rw [h]⟩
  · simp [ListHandler.listRequest, ListHandler.pageOf]
  · simp [ListHandler.listRequest, ListHandler.pageOf, hp]

theorem handler_clamps_page_witness :
    FileService.listPage Sample.five
        (ListHandler.listRequest [] [] none (some (-3)) (some 2) "desc".toList) =
      Outcome.ok ([Sample.record "c" 5 true, Sample.record "e" 4 false], 5) := by
  rw [(handler_clamps_page [] [] none (some 2) "desc".toList (-3) (by decide)).2.2.2
    Sample.five]
  decide

/-- C22, as stated, fails: a requested page size of 0 becomes 50, not 1. -/
theorem handler_limit_below_one_is_default :
    ListHandler.limitOf (strconv.atoiDecimal 0) = 50 ∧
    min (max (0 : Int) 1) 100 = 1 := by
  decide

/-- C22, as amended.  The limit that the list handler passes to `FileService.List` for a
requested page size `n` is `n` itself when `n` is in [1,100], 100 when `n` is above 100
and fits a 64-bit integer, and the default 50 when `n` is below 1 or does not fit; it is
always in [1,100]. -/
theorem handler_limit (n : Int) :
    (1 ≤ n → n ≤ 100 → ListHandler.limitOf (strconv.atoiDecimal n) = n) ∧
    (100 < n → n < 2 ^ 63 → ListHandler.limitOf (strconv.atoiDecimal n) = 100) ∧
    (n < 1 → ListHandler.limitOf (strconv.atoiDecimal n) = 50) ∧
    (2 ^ 63 ≤ n → ListHandler.limitOf (strconv.atoiDecimal n) = 50) ∧
    1 ≤ ListHandler.limitOf (strconv.atoiDecimal n) ∧
    ListHandler.limitOf (strconv.atoiDecimal n) ≤ 100 ∧
    (∀ tag search publicFilter page sortOrder,
      (ListHandler.listRequest tag search publicFilter page (strconv.atoiDecimal n)
        sortOrder).Limit = ListHandler.limitOf (strconv.atoiDecimal n)) := by
  have ha : -(2 ^ 63) ≤ n → n < 2 ^ 63 → strconv.atoiDecimal n = some n := by
    intro h1 h2
    simp only [strconv.atoiDecimal, h1, h2, and_self, if_true]
  have hb : ¬ (-(2 ^ 63) ≤ n ∧ n < 2 ^ 63) → strconv.atoiDecimal n = none := by
    intro h
    simp only [strconv.atoiDecimal, h, if_false]
  have hc : ∀ m : Int, ListHandler.limitOf (some m) =
      if (if m < 1 then 50 else m) > 100 then 100 else (if m < 1 then 50 else m) :=
    fun _ => rfl
  have hd : ListHandler.limitOf none = 50 := rfl
  refine ⟨?_, ?_, ?_, ?_, ?_, ?_, ?_⟩
  · intro h1 h2
    rw [ha (by norm_num; omega) (by norm_num; omega), hc]
    have h3 : ¬ n < 1 := by omega
    have h4 : ¬ n > 100 := by omega
    simp only [h3, if_false, h4]
  · intro h1 h2
    rw [ha (by norm_num; omega) h2, hc]
    have h3 : ¬ n < 1 := by omega
    simp only [h3, if_false, gt_iff_lt, h1, if_true]
  · intro h1
    by_cases hr : -(2 ^ 63) ≤ n ∧ n < 2 ^ 63
    · rw [ha hr.1 hr.2, hc]
      simp only [h1, if_true]
      decide
    · rw [hb hr, hd]
  · intro h1
    rw [hb (by omega), hd]
  · by_cases hr : -(2 ^ 63) ≤ n ∧ n < 2 ^ 63
    · rw [ha hr.1 hr.2, hc]
      split_ifs <;> omega
    · rw [hb hr, hd]; decide
  · by_cases hr : -(2 ^ 63) ≤ n ∧ n < 2 ^ 63
    · rw [ha hr.1 hr.2, hc]
      split_ifs <;> omega
    · rw [hb hr, hd]; decide
  · intros
    rfl

theorem handler_limit_witness :
    ListHandler.limitOf (strconv.atoiDecimal 25) = 25 ∧
    ListHandler.limitOf (strconv.atoiDecimal 5000) = 100 ∧
    ListHandler.limitOf (strconv.atoiDecimal (-4)) = 50 :=
  ⟨(handler_limit 25).1 (by decide) (by decide),
   (handler_limit 5000).2.1 (by decide) (by decide),
   (handler_limit (-4)).2.2.1 (by decide)⟩

/-! ## Storage statistics -/

theorem wrap64_add_wrap64 (a b : Int) : wrap64 (wrap64 a + b) = wrap64 (a + b) := by
  unfold wrap64
  norm_num
  omega

theorem wrap64_inRange (x : Int) : -(2 ^ 63) ≤ wrap64 x ∧ wrap64 x < 2 ^ 63 := by
  unfold wrap64
  norm_num
  omega

/-- The function `FormatFileSize` returns for every 64-bit byte count. -/
theorem utils.formatFileSize_returns (b : Int) (hb : b < 2 ^ 63) :
    ∃ text, utils.FormatFileSize b = some text := by
  by_cases h : b < 1024
  · refine ⟨utils.SizeText.plain ((toString b).toList ++ " B".toList), ?_⟩
    simp only [utils.FormatFileSize, h, if_true]
  · have htd : Int.tdiv b 1024 = b / 1024 := Int.tdiv_eq_ediv (by omega) (by omega)
    obtain ⟨e, hloop, hlo, hhi⟩ := utils.unitLoop_spec b hb (Int.tdiv b 1024).toNat
      (Int.tdiv b 1024) 1024 0 (le_refl _) (by rw [htd]; omega) (by norm_num)
      (by rw [htd]; omega) (by rw [htd]; omega)
    have hloop2 : utils.unitLoop (Int.tdiv b 1024) 1024 0 =
        ((1024 : Int) ^ (e + 1), (e : Int)) := by simpa using hloop
    have he : e ≤ 5 := pow1024_bound e (by omega)
    have hlen : e < utils.unitLetters.length := by
      have : utils.unitLetters.length = 6 := by decide
      omega
    refine ⟨utils.SizeText.scaled b (1024 ^ (e + 1)) (utils.unitLetters.get ⟨e, hlen⟩), ?_⟩
    simp only [utils.FormatFileSize, h, if_false, hloop2, Int.toNat_ofNat,
      List.get?_eq_get hlen, Int.natCast_nonneg, if_true]

theorem StorageService.statsWalkFn_eq (st : Int × Int) (v : WalkVisit × Int)
    (hv : v.1.err = none) :
    StorageService.statsWalkFn st v =
      .ok (if StorageService.counted v then (wrap64 (st.1 + 1), wrap64 (st.2 + v.2))
        else st) := by
  unfold StorageService.statsWalkFn StorageService.counted
  rw [hv]
  by_cases h1 : v.1.isDir = true
  · simp [h1]
  · by_cases h2 : strings.HasSuffix v.1.path metaSuffix = true
    · simp [h1, h2]
    · by_cases h3 : filepath.Base v.1.path = ".gitkeep".toList
      · simp only [h1, h2, h3, if_true, if_false, decide_True, Bool.not_true, Bool.and_false,
          Bool.false_eq_true]
      · simp only [h1, h2, h3, if_false, decide_False, Bool.not_false, Bool.and_true,
          Bool.not_eq_true, Bool.not_eq_false] 
        simp

theorem StorageService.walkWith_statsWalkFn (visits : List (WalkVisit × Int))
    (hv : ∀ v ∈ visits, v.1.err = none) :
    ∀ a b : Int, filepath.walkWith StorageService.statsWalkFn (wrap64 a, wrap64 b) visits =
      .ok (wrap64 (a + ((visits.filter StorageService.counted).length : Int)),
        wrap64 (b + ((visits.filter StorageService.counted).map (fun v => v.2)).sum)) := by
  induction visits with
  | nil => intro a b; simp [filepath.walkWith]
  | cons v rest ih =>
    intro a b
    unfold filepath.walkWith
    rw [StorageService.statsWalkFn_eq _ _ (hv v (by simp))]
    simp only
    by_cases hc : StorageService.counted v = true
    · simp only [hc, if_true, wrap64_add_wrap64, List.filter_cons, List.length_cons,
        List.map_cons, List.sum_cons]
      rw [ih (fun w hw => hv w (by simp [hw]))]
      push_cast
      rw [show a + 1 + ((rest.filter StorageService.counted).length : Int) =
        a + (((rest.filter StorageService.counted).length : Int) + 1) by ring,
        show b + v.2 + ((rest.filter StorageService.counted).map (fun v => v.2)).sum =
        b + (v.2 + ((rest.filter StorageService.counted).map (fun v => v.2)).sum) by ring]
    · simp only [hc, if_false, List.filter_cons, Bool.false_eq_true]
      rw [ih (fun w hw => hv w (by simp [hw]))]

/-- The result of `GetStorageInfo` over a walk without error: the count and the sum over
the visits that `counted` keeps, each reduced to 64 bits, and the text of the sum. -/
theorem StorageService.getStorageInfoOver_eq (visits : List (WalkVisit × Int))
    (hv : ∀ v ∈ visits, v.1.err = none) :
    ∃ text,
      utils.FormatFileSize
        (wrap64 ((visits.filter StorageService.counted).map (fun v => v.2)).sum) = some text ∧
      StorageService.getStorageInfoOver visits = Outcome.ok
        { total_files := wrap64 ((visits.filter StorageService.counted).length : Int),
          total_bytes := wrap64 ((visits.filter StorageService.counted).map (fun v => v.2)).sum,
          total_size := text } := by
  obtain ⟨text, ht⟩ := utils.formatFileSize_returns
    (wrap64 ((visits.filter StorageService.counted).map (fun v => v.2)).sum)
    (wrap64_inRange _).2
  refine ⟨text, ht, ?_⟩
  have h0 : ((0 : Int), (0 : Int)) = (wrap64 0, wrap64 0) := by decide
  unfold StorageService.getStorageInfoOver
  rw [h0, StorageService.walkWith_statsWalkFn visits hv 0 0]
  simp only [zero_add, ht]

theorem StorageService.statVisits_err_none (cfg : Config) (fs : FS) (sizeOf : FileData → Int) :
    ∀ v ∈ StorageService.statVisits cfg false fs sizeOf, v.1.err = none := by
  intro v hv
  simp only [StorageService.statVisits, List.mem_map] at hv
  obtain ⟨w, hw, he⟩ := hv
  rw [← he]
  exact filepath.walk_err_none fs cfg.BasePath w hw

theorem StorageService.counted_iff (v : WalkVisit × Int) :
    StorageService.counted v = true ↔
      v.1.isDir = false ∧ strings.HasSuffix v.1.path metaSuffix = false ∧
        filepath.Base v.1.path ≠ ".gitkeep".toList := by
  simp [StorageService.counted, and_assoc]

/-- C24, as stated, fails: a hidden file other than `.gitkeep` is counted.  In a store
with the hidden file `img/.hidden` of 7 bytes, the blob `img/a.png` of 3 bytes, its
metadata file and a `.gitkeep`, `GetStorageInfo` reports 2 files and 10 bytes, while one
regular file of 3 bytes is neither a metadata file nor hidden. -/
theorem getStorageInfo_counts_hidden_file :
    StorageService.GetStorageInfo Sample.cfg false Sample.withHidden Sample.fileSize =
      Outcome.ok { total_files := 2, total_bytes := 10,
                   total_size := utils.SizeText.plain "10 B".toList } ∧
    ((StorageService.statVisits Sample.cfg false Sample.withHidden Sample.fileSize).filter
      Spec.countedFile).length = 1 ∧
    (((StorageService.statVisits Sample.cfg false Sample.withHidden Sample.fileSize).filter
      Spec.countedFile).map (fun v => v.2)).sum = 3 := by
  decide

/-- C24, as amended.  Over a walk without error `GetStorageInfo` returns, whatever the
files hold: `total_files` is the number of visited regular files whose path does not end
in `.meta.json` and whose name is not `.gitkeep` (other hidden files are counted), the
size is the sum of the sizes of exactly those files, both reduced to 64 bits and exact
when they fit, and `total_size` is the text of `FormatFileSize` for that sum.  The walk
of a store whose root can be examined is such a walk. -/
theorem getStorageInfo_counts (visits : List (WalkVisit × Int))
    (hv : ∀ v ∈ visits, v.1.err = none) :
    (∀ v, StorageService.counted v = true ↔
      v.1.isDir = false ∧ strings.HasSuffix v.1.path metaSuffix = false ∧
        filepath.Base v.1.path ≠ ".gitkeep".toList) ∧
    (∃ text,
      utils.FormatFileSize
        (wrap64 ((visits.filter StorageService.counted).map (fun v => v.2)).sum) = some text ∧
      StorageService.getStorageInfoOver visits = Outcome.ok
        { total_files := wrap64 ((visits.filter StorageService.counted).length : Int),
          total_bytes := wrap64 ((visits.filter StorageService.counted).map (fun v => v.2)).sum,
          total_size := text }) ∧
    (((visits.filter StorageService.counted).length : Int) < 2 ^ 63 →
      -(2 ^ 63) ≤ ((visits.filter StorageService.counted).map (fun v => v.2)).sum →
      ((visits.filter StorageService.counted).map (fun v => v.2)).sum < 2 ^ 63 →
      ∃ text,
        utils.FormatFileSize
          ((visits.filter StorageService.counted).map (fun v => v.2)).sum = some text ∧
        StorageService.getStorageInfoOver visits = Outcome.ok
          { total_files := ((visits.filter StorageService.counted).length : Int),
            total_bytes := ((visits.filter StorageService.counted).map (fun v => v.2)).sum,
            total_size := text }) ∧
    (∀ (cfg : Config) (fs : FS) (sizeOf : FileData → Int),
      (∀ v ∈ StorageService.statVisits cfg false fs sizeOf, v.1.err = none) ∧
      StorageService.GetStorageInfo cfg false fs sizeOf =
        StorageService.getStorageInfoOver (StorageService.statVisits cfg false fs sizeOf)) := by
  refine ⟨StorageService.counted_iff, StorageService.getStorageInfoOver_eq visits hv, ?_,
    fun cfg fs sizeOf => ⟨StorageService.statVisits_err_none cfg fs sizeOf, rfl⟩⟩
  intro h1 h2 h3
  obtain ⟨text, ht, hr⟩ := StorageService.getStorageInfoOver_eq visits hv
  rw [wrap64_of_inRange _ h2 h3] at ht hr
  rw [wrap64_of_inRange _ (by norm_num; omega) h1] at hr
  exact ⟨text, ht, hr⟩

theorem getStorageInfo_counts_witness :
    (∀ v ∈ StorageService.statVisits Sample.cfg false Sample.mixed Sample.fileSize,
      v.1.err = none) ∧
    StorageService.GetStorageInfo Sample.cfg false Sample.mixed Sample.fileSize =
      Outcome.ok { total_files := 2, total_bytes := 2,
                   total_size := utils.SizeText.plain "2 B".toList } := by
  have hv : ∀ v ∈ StorageService.statVisits Sample.cfg false Sample.mixed Sample.fileSize,
      v.1.err = none := by decide
  refine ⟨hv, ?_⟩
  obtain ⟨text, ht, hr⟩ := (getStorageInfo_counts _ hv).2.2.1 (by decide) (by decide)
    (by decide)
  have e : StorageService.GetStorageInfo Sample.cfg false Sample.mixed Sample.fileSize =
      StorageService.getStorageInfoOver
        (StorageService.statVisits Sample.cfg false Sample.mixed Sample.fileSize) := rfl
  rw [e, hr]
  have ht2 : utils.FormatFileSize
      (((StorageService.statVisits Sample.cfg false Sample.mixed Sample.fileSize).filter
        StorageService.counted).map (fun v => v.2)).sum =
      some (utils.SizeText.plain "2 B".toList) := by decide
  rw [ht2] at ht
  cases ht
  decide

/-! ## Generated identifiers and metadata paths -/

theorem strings.hasSuffix_iff (s suf : GoString) :
    strings.HasSuffix s suf = true ↔ suf <:+ s := by
  unfold strings.HasSuffix
  rw [List.isPrefixOf_iff_prefix]
  exact List.reverse_prefix

theorem utils.ofNat_lower_ne_dot :
    ∀ n < 91, 65 ≤ n → Char.ofNat (n + 32) ≠ '.' := by
  decide

theorem utils.toLowerRune_plain (caseTable : Char → Char) (c : Char)
    (h : utils.isSafeChar c = true) (hd : c ≠ '.') :
    strings.toLowerRune caseTable c ≠ '.' ∧ strings.toLowerRune caseTable c ≠ '/' := by
  refine ⟨?_, ?_⟩
  · unfold strings.toLowerRune
    simp only [utils.safe_lt_128 c h, if_true]
    split
    · rename_i hu
      have h1 : 'A'.toNat = 65 := rfl
      have h2 : 'Z'.toNat = 90 := rfl
      exact utils.ofNat_lower_ne_dot c.toNat (by omega) (by omega)
    · exact hd
  · intro e
    have := utils.toLowerRune_safe caseTable c h
    rw [e] at this
    exact absurd this (by decide)

/-- The identifier that `GenerateUniqueFilename` builds, for any UUID text `u`: a stem
that is not empty, an underscore, the text of `u` before its first dash, and an extension
that is empty or a dot followed by characters other than the dot and the slash. -/
theorem utils.generate_shape (caseTable : Char → Char) (originalName sanitized u : GoString)
    (hsan : utils.SanitizeFilename originalName = some sanitized) :
    ∃ stem ext, stem ≠ [] ∧
      utils.GenerateUniqueFilename caseTable originalName u =
        some (stem ++ '_' :: strings.SplitDashFirst u ++ ext) ∧
      (ext = [] ∨ ∃ x, ext = '.' :: x ∧ ∀ c ∈ x, c ≠ '.' ∧ c ≠ '/') := by
  have hsafe := utils.sanitize_safe originalName sanitized hsan
  have hshape : utils.ExtractExtension caseTable sanitized = [] ∨
      ∃ x, utils.ExtractExtension caseTable sanitized = '.' :: x ∧
        ∀ c ∈ x, c ≠ '.' ∧ c ≠ '/' := by
    rcases filepath.ext_shape sanitized with h | ⟨x, hx, hp⟩
    · left
      simp [utils.ExtractExtension, strings.ToLower, h]
    · right
      refine ⟨x.map (strings.toLowerRune caseTable), ?_, ?_⟩
      · simp only [utils.ExtractExtension, strings.ToLower, hx, List.map_cons]
        congr 1
      · intro c hc
        obtain ⟨d, hd, rfl⟩ := List.mem_map.mp hc
        have hds : utils.isSafeChar d = true :=
          hsafe d ((filepath.ext_suffix sanitized).subset (by rw [hx]; simp [hd]))
        exact utils.toLowerRune_plain caseTable d hds (hp d hd).1
  simp only [utils.GenerateUniqueFilename, hsan]
  by_cases hn : strings.TrimSuffix (strings.TrimSuffix sanitized
      (utils.ExtractExtension caseTable sanitized)) ['.'] = []
  · refine ⟨"file".toList, utils.ExtractExtension caseTable sanitized, by decide, ?_, hshape⟩
    simp only [hn, if_true]
    by_cases he : utils.ExtractExtension caseTable sanitized = []
    · simp [he]
    · simp [he]
  · refine ⟨_, utils.ExtractExtension caseTable sanitized, hn, ?_, hshape⟩
    simp only [hn, if_false]
    by_cases he : utils.ExtractExtension caseTable sanitized = []
    · simp [he]
    · simp [he]

/-- A name made of a stem, an underscore, at least five hexadecimal characters and an
extension without a second dot does not end in `.meta.json`. -/
theorem utils.shape_not_meta (stem short ext : GoString)
    (hhex : ∀ c ∈ short, utils.isHexChar c = true) (hlen : 5 ≤ short.length)
    (hext : ext = [] ∨ ∃ x, ext = '.' :: x ∧ ∀ c ∈ x, c ≠ '.' ∧ c ≠ '/') :
    ¬ metaSuffix <:+ stem ++ '_' :: short ++ ext := by
  intro h
  have hs : short <:+ stem ++ '_' :: short := ⟨stem ++ ['_'], by simp⟩
  rcases hext with rfl | ⟨x, rfl, hx⟩
  · rw [List.append_nil] at h
    have hn : ['n'] <:+ stem ++ '_' :: short :=
      List.IsSuffix.trans ⟨".meta.jso".toList, rfl⟩ h
    have h2 : ['n'] <:+ short :=
      List.suffix_of_suffix_length_le hn hs (by simp only [List.length_singleton]; omega)
    have : utils.isHexChar 'n' = true := hhex 'n' (h2.subset (by simp))
    exact absurd this (by decide)
  · obtain ⟨t, ht⟩ := h
    have e1 : filepath.Ext (stem ++ '_' :: short ++ '.' :: x) = '.' :: x := by
      have := filepath.ext_append_plain (stem ++ '_' :: short) x hx
      simpa using this
    have e2 : filepath.Ext (t ++ metaSuffix) = ".json".toList := by
      have := filepath.ext_append_plain (t ++ ".meta".toList) "json".toList (by decide)
      have e : t ++ ".meta".toList ++ '.' :: "json".toList = t ++ metaSuffix := by
        simp [metaSuffix]
      rw [e] at this
      exact this
    rw [ht, e1] at e2
    have hx2 : x = "json".toList := by
      simpa using e2
    subst hx2
    have e3 : (t ++ ".meta".toList) ++ ".json".toList =
        (stem ++ '_' :: short) ++ ".json".toList := by
      have : t ++ ".meta".toList ++ ".json".toList = t ++ metaSuffix := by simp [metaSuffix]
      rw [this, ht]
      simp
    have e4 := List.append_cancel_right e3
    have hm : ".meta".toList <:+ stem ++ '_' :: short := ⟨t, e4⟩
    have h2 : ".meta".toList <:+ short :=
      List.suffix_of_suffix_length_le hm hs (by
        have : ".meta".toList.length = 5 := by decide
        omega)
    have : utils.isHexChar '.' = true := hhex '.' (h2.subset (by decide))
    exact absurd this (by decide)

/-- The last element of a path that ends in a slash and a name is the name. -/
theorem filepath.base_append_segment (pre name : GoString) (n0 : name ≠ [])
    (ns : '/' ∉ name) : filepath.Base (pre ++ '/' :: name) = name := by
  have hrev : (pre ++ '/' :: name).reverse = name.reverse ++ '/' :: pre.reverse := by simp
  have hne : pre ++ '/' :: name ≠ [] := by simp
  have hall : ∀ c ∈ name.reverse, (c != '/') = true := by
    intro c hc
    have : c ∈ name := by simpa using hc
    simp only [bne_iff_ne, ne_eq]
    intro e
    exact ns (e ▸ this)
  have hdrop : (name.reverse ++ '/' :: pre.reverse).dropWhile (fun c => c == '/') =
      name.reverse ++ '/' :: pre.reverse := by
    cases hr : name.reverse with
    | nil => simp at hr; exact absurd hr n0
    | cons c cs =>
      have : (c != '/') = true := hall c (by rw [hr]; simp)
      have hc : (c == '/') = false := by simpa using this
      simp [List.dropWhile, hc]
  have htake : (name.reverse ++ '/' :: pre.reverse).takeWhile (fun c => c != '/') =
      name.reverse := by
    rw [List.takeWhile_append_of_pos hall]
    simp [List.takeWhile]
  unfold filepath.Base
  simp only [hne, if_false, hrev, hdrop, List.reverse_reverse]
  rw [htake]
  simp [n0]

/-- C9.  The identifier that `GenerateUniqueFilename` produces with a suffix of
hexadecimal characters, of 8 or of any other length, is a safe path segment: it is not empty, every character is in
`[A-Za-z0-9._-]`, so there is neither `/` nor `\`, and it is neither `.` nor `..`;
therefore, under a validated tag, the blob path is the namespace directory, a slash and
the identifier, and its last element is the identifier.  An identifier is produced
exactly when `SanitizeFilename` returns. -/
theorem generate_identifier_is_safe_segment (caseTable : Char → Char)
    (originalName suffix rest name : GoString)
    (hhex : ∀ c ∈ suffix, utils.isHexChar c = true)
    (hgen : utils.GenerateUniqueFilename caseTable originalName (suffix ++ '-' :: rest) =
      some name) :
    utils.IsSafeSegment name ∧ '/' ∉ name ∧ '\\' ∉ name ∧
    (∀ base tag, utils.ValidateTag tag = none →
      filepath.Join [base, tag, name] = filepath.Join [base, tag] ++ '/' :: name ∧
      filepath.Join [filepath.Join [base, tag], name] = filepath.Join [base, tag, name] ∧
      filepath.Base (filepath.Join [base, tag, name]) = name) ∧
    ((∃ produced, utils.GenerateUniqueFilename caseTable originalName
        (suffix ++ '-' :: rest) = some produced) ↔
      utils.SanitizeFilename originalName ≠ none) := by
  have hiff : (∃ produced, utils.GenerateUniqueFilename caseTable originalName
        (suffix ++ '-' :: rest) = some produced) ↔
      utils.SanitizeFilename originalName ≠ none := by
    cases hs : utils.SanitizeFilename originalName with
    | none => simp [utils.GenerateUniqueFilename, hs]
    | some sanitized =>
      obtain ⟨id2, hid, _⟩ :=
        utils.generated_safe_segment caseTable originalName sanitized suffix rest hs hhex
      simp only [ne_eq, reduceCtorEq, not_false_eq_true, iff_true]
      exact ⟨id2, hid⟩
  cases hs : utils.SanitizeFilename originalName with
  | none => simp [utils.GenerateUniqueFilename, hs] at hgen
  | some sanitized =>
    obtain ⟨id2, hid, hseg, hslash, hback, hjoin⟩ :=
      utils.generated_safe_segment caseTable originalName sanitized suffix rest hs hhex
    have e : id2 = name := by
      rw [hgen] at hid
      exact (Option.some.inj hid).symm
    subst e
    refine ⟨hseg, hslash, hback, ?_, hs ▸ hiff⟩
    intro base tag htag
    have h1 := hjoin base tag htag
    rw [filepath.join_join] at h1
    refine ⟨h1, filepath.join_join base tag id2, ?_⟩
    rw [h1]
    exact filepath.base_append_segment _ id2 hseg.1 hslash

theorem generate_identifier_is_safe_segment_witness :
    utils.IsSafeSegment Sample.fileID ∧
    filepath.Join [Sample.cfg.BasePath, "img".toList, Sample.fileID] =
      filepath.Join [Sample.cfg.BasePath, "img".toList] ++ '/' :: Sample.fileID :=
  ⟨(generate_identifier_is_safe_segment id "My Cat.png".toList "1234abcd".toList
      "0000-4000-8000-000000000000".toList Sample.fileID (by decide) (by decide)).1,
   ((generate_identifier_is_safe_segment id "My Cat.png".toList "1234abcd".toList
      "0000-4000-8000-000000000000".toList Sample.fileID (by decide)
      (by decide)).2.2.2.1 Sample.cfg.BasePath "img".toList (by decide)).1⟩

/-- C25.  Whenever `SanitizeFilename` returns, the identifier that
`GenerateUniqueFilename` builds with a suffix of 8 hexadecimal characters does not end in
`.meta.json`.  Hence, under validated tags, the blob path does not end in `.meta.json`
and differs from the metadata path of every identifier without a slash (generated
identifiers have none); for a regular file at the blob path the walk function of the
catalog scan leaves the records as they are and parses nothing, and the walk function of
the statistics counts the file. -/
theorem generated_identifier_is_not_metadata (caseTable : Char → Char)
    (originalName sanitized suffix rest : GoString)
    (hsan : utils.SanitizeFilename originalName = some sanitized)
    (hhex : ∀ c ∈ suffix, utils.isHexChar c = true) (hlen : suffix.length = 8) :
    ∃ id, utils.GenerateUniqueFilename caseTable originalName (suffix ++ '-' :: rest) = some id ∧
      strings.HasSuffix id metaSuffix = false ∧ '/' ∉ id ∧
      ∀ base tag, utils.ValidateTag tag = none →
        strings.HasSuffix (filepath.Join [base, tag, id]) metaSuffix = false ∧
        (∀ tag2 id2, utils.ValidateTag tag2 = none → '/' ∉ id2 →
          filepath.Join [base, tag, id] ≠ filepath.Join [base, tag2, id2 ++ metaSuffix]) ∧
        (∀ (v : WalkVisit), v.path = filepath.Join [base, tag, id] → v.isDir = false →
          v.err = none →
          (∀ fs, StorageService.parsedRecord fs v = none) ∧
          (∀ fs filterTag filterPublic search files,
            StorageService.listWalkFn caseTable fs filterTag filterPublic search files v =
              Except.ok files) ∧
          (∀ st size, StorageService.statsWalkFn st (v, size) =
              Except.ok (wrap64 (st.1 + 1), wrap64 (st.2 + size)))) := by
  have hdash : ∀ c ∈ suffix, c ≠ '-' := fun c hc => (utils.hex_safe c (hhex c hc)).2
  have hshort : strings.SplitDashFirst (suffix ++ '-' :: rest) = suffix :=
    strings.splitDashFirst_append suffix rest hdash
  obtain ⟨stem, ext, _, hgen, hext⟩ :=
    utils.generate_shape caseTable originalName sanitized (suffix ++ '-' :: rest) hsan
  rw [hshort] at hgen
  obtain ⟨id, hid, hseg, hslash, _⟩ :=
    utils.generated_safe_segment caseTable originalName sanitized suffix rest hsan hhex
  have hide : id = stem ++ '_' :: suffix ++ ext := by
    rw [hgen] at hid
    exact (Option.some.inj hid).symm
  have hnot : ¬ metaSuffix <:+ id := by
    rw [hide]
    exact utils.shape_not_meta stem suffix ext hhex (by omega) hext
  have hfalse : strings.HasSuffix id metaSuffix = false := by
    rw [Bool.eq_false_iff]
    intro h
    exact hnot ((strings.hasSuffix_iff _ _).mp h)
  have hgit : id ≠ ".gitkeep".toList := by
    intro e
    have h1 : '_' ∈ id := by rw [hide]; simp
    rw [e] at h1
    exact absurd h1 (by decide)
  refine ⟨id, hid, hfalse, hslash, ?_⟩
  intro base tag htag
  obtain ⟨t0, t1, t2, ts⟩ := utils.tag_is_segment tag htag
  have hpath : filepath.Join [base, tag, id] = filepath.Join [base, tag] ++ '/' :: id :=
    filepath.join_direct_child base tag id t0 t1 t2 ts hseg.1 hseg.2.2.1 hseg.2.2.2 hslash
  have hbase : filepath.Base (filepath.Join [base, tag, id]) = id := by
    rw [hpath]
    exact filepath.base_append_segment _ id hseg.1 hslash
  have hpnot : ¬ metaSuffix <:+ filepath.Join [base, tag, id] := by
    intro h
    rw [hpath] at h
    have hs : id <:+ filepath.Join [base, tag] ++ '/' :: id :=
      ⟨filepath.Join [base, tag] ++ ['/'], by simp⟩
    rcases Nat.lt_or_ge id.length metaSuffix.length with hl | hl
    · have h2 : id <:+ metaSuffix := List.suffix_of_suffix_length_le hs h (by omega)
      have h3 : ('/' :: id) <:+ metaSuffix := by
        obtain ⟨a, ha⟩ := h2
        obtain ⟨b, hb⟩ := h
        have ha0 : a ≠ [] := by
          intro e
          rw [e] at ha
          simp at ha
          rw [ha] at hl
          omega
        have e1 : b ++ a ++ id = filepath.Join [base, tag] ++ ['/'] ++ id := by
          rw [List.append_assoc, ha, hb]
          simp
        have e2 := List.append_cancel_right e1
        obtain ⟨a1, hlast⟩ : ∃ a1, a = a1 ++ ['/'] := by
          have hsuf : ['/'] <:+ b ++ a := ⟨filepath.Join [base, tag], e2.symm⟩
          have : ['/'] <:+ a :=
            List.suffix_of_suffix_length_le hsuf ⟨b, rfl⟩ (by
              cases a with
              | nil => exact absurd rfl ha0
              | cons _ _ => simp)
          obtain ⟨a1, h1⟩ := this
          exact ⟨a1, h1.symm⟩
        exact ⟨a1, by rw [← ha, hlast]; simp⟩
      have : '/' ∈ metaSuffix := h3.subset (by simp)
      exact absurd this (by decide)
    · exact hnot (List.suffix_of_suffix_length_le h hs hl)
  have hpfalse : strings.HasSuffix (filepath.Join [base, tag, id]) metaSuffix = false := by
    rw [Bool.eq_false_iff]
    intro h
    exact hpnot ((strings.hasSuffix_iff _ _).mp h)
  refine ⟨hpfalse, ?_, ?_⟩
  · intro tag2 id2 htag2 hs2 e
    obtain ⟨u0, u1, u2, us⟩ := utils.tag_is_segment tag2 htag2
    have hlen2 : 10 ≤ (id2 ++ metaSuffix).length := by
      have : metaSuffix.length = 10 := by decide
      rw [List.length_append]
      omega
    have hp2 : filepath.Join [base, tag2, id2 ++ metaSuffix] =
        filepath.Join [base, tag2] ++ '/' :: (id2 ++ metaSuffix) :=
      filepath.join_direct_child base tag2 (id2 ++ metaSuffix) u0 u1 u2 us
        (by intro e; rw [e] at hlen2; simp at hlen2)
        (by intro e; rw [e] at hlen2; simp at hlen2)
        (by intro e; rw [e] at hlen2; simp at hlen2)
        (by
          intro h
          rcases List.mem_append.mp h with h | h
          · exact hs2 h
          · exact absurd h (by decide))
    exact hpnot (by rw [e, hp2]; exact ⟨filepath.Join [base, tag2] ++ '/' :: id2, by simp⟩)
  · intro v hv hd he
    refine ⟨fun fs => ?_, fun fs filterTag filterPublic search files => ?_, fun st size => ?_⟩
    · simp [StorageService.parsedRecord, hv, hpfalse]
    · rw [StorageService.listWalkFn_eq _ _ _ _ _ _ _ he]
      simp [StorageService.parsedRecord, hv, hpfalse]
    · rw [StorageService.statsWalkFn_eq _ _ he]
      have hc : StorageService.counted (v, size) = true := by
        rw [StorageService.counted_iff]
        exact ⟨hd, by rw [hv]; exact hpfalse, by rw [hv, hbase]; exact hgit⟩
      simp only [hc, if_true]

theorem generated_identifier_is_not_metadata_witness :
    ∃ name, utils.GenerateUniqueFilename id "My Cat.png".toList Sample.uuid = some name ∧
      strings.HasSuffix name metaSuffix = false ∧
      strings.HasSuffix (filepath.Join ["./storage".toList, "img".toList, name]) metaSuffix =
        false := by
  obtain ⟨name, h1, h2, _, h3⟩ := generated_identifier_is_not_metadata id "My Cat.png".toList
    "My_Cat.png".toList "1234abcd".toList "0000-4000-8000-000000000000".toList
    (by decide) (by decide) (by decide)
  exact ⟨name, h1, h2, (h3 "./storage".toList "img".toList (by decide)).1⟩

/-! ## Paths of blobs and of metadata files -/

/-- The pieces of a path and of the path with a slash-free text appended differ in the
last piece only. -/
theorem filepath.splitSlash_last (q : GoString) :
    ∃ init last, filepath.splitSlash q = init ++ [last] ∧ '/' ∉ last ∧ (q = [] → last = []) ∧
      ∀ m : GoString, '/' ∉ m → filepath.splitSlash (q ++ m) = init ++ [last ++ m] := by
  induction q with
  | nil =>
    exact ⟨[], [], rfl, by simp, fun _ => rfl,
      fun m hm => by simpa using filepath.splitSlash_of_no_slash m hm⟩
  | cons c rest ih =>
    obtain ⟨init, last, h1, h2, _, h4⟩ := ih
    by_cases hc : c = '/'
    · refine ⟨[] :: init, last, ?_, h2, by simp, fun m hm => ?_⟩
      · cases init <;> simp [filepath.splitSlash, h1, hc]
      · have := h4 m hm
        rw [List.cons_append]
        cases init <;> simp_all [filepath.splitSlash]
    · cases init with
      | nil =>
        refine ⟨[], c :: last, ?_, ?_, by simp, fun m hm => ?_⟩
        · simp [filepath.splitSlash, h1, hc]
        · simp only [List.mem_cons, not_or]
          exact ⟨fun e => hc e.symm, h2⟩
        · have := h4 m hm
          rw [List.cons_append]
          simp_all [filepath.splitSlash]
      | cons i is =>
        refine ⟨(c :: i) :: is, last, ?_, h2, by simp, fun m hm => ?_⟩
        · simp [filepath.splitSlash, h1, hc]
        · have := h4 m hm
          rw [List.cons_append]
          simp_all [filepath.splitSlash]

theorem filepath.isRooted_append_plain (q m : GoString) (hm : '/' ∉ m) :
    filepath.isRooted (q ++ m) = filepath.isRooted q := by
  cases q with
  | nil =>
    cases m with
    | nil => rfl
    | cons c cs =>
      have : c ≠ '/' := fun e => hm (by simp [e])
      simp [filepath.isRooted, this]
  | cons c rest => rfl

/-- Two paths that end in a slash and a slash-free name are equal only if the names and
what stands before them are equal. -/
theorem filepath.last_name_unique (a b x y : GoString) (hx : '/' ∉ x) (hy : '/' ∉ y)
    (h : a ++ '/' :: x = b ++ '/' :: y) : a = b ∧ x = y := by
  rcases List.append_eq_append_iff.mp h with ⟨a1, hb, h1⟩ | ⟨c1, ha, h1⟩
  · cases a1 with
    | nil =>
      simp only [List.nil_append, List.cons.injEq, true_and] at h1
      exact ⟨by simpa using hb.symm, h1⟩
    | cons c cs =>
      simp only [List.cons_append, List.cons.injEq] at h1
      exact absurd (by rw [h1.2]; simp) hx
  · cases c1 with
    | nil =>
      simp only [List.nil_append, List.cons.injEq, true_and] at h1
      exact ⟨by simpa using ha, h1.symm⟩
    | cons c cs =>
      simp only [List.cons_append, List.cons.injEq] at h1
      exact absurd (by rw [h1.2]; simp) hy

theorem filepath.render_top (rooted : Bool) (stack : List GoString)
    (h : filepath.NormalStack rooted stack) :
    ∃ X : GoString, (X = [] ∨ ∃ X1, X = X1 ++ ['/']) ∧
      ∀ seg : GoString, seg ≠ [] → filepath.render rooted (seg :: stack) = X ++ seg := by
  by_cases hne : stack = []
  · subst hne
    cases rooted with
    | true =>
      refine ⟨['/'], Or.inr ⟨[], rfl⟩, fun seg _ => ?_⟩
      simp [filepath.render, filepath.intercalate_single]
    | false =>
      refine ⟨[], Or.inl rfl, fun seg hseg => ?_⟩
      simp [filepath.render, filepath.intercalate_single, hseg]
  · refine ⟨filepath.render rooted stack ++ ['/'], Or.inr ⟨_, rfl⟩, fun seg _ => ?_⟩
    rw [filepath.render_push rooted stack seg h hne]
    simp

/-- The cleaned form of a path with a slash-free text `m` of three or more characters
appended: what `Clean` writes before the last element, the last piece of the path, and
`m`; when that last piece is a proper name the cleaned path itself is the same without
`m`. -/
theorem filepath.clean_append_plain (q m : GoString) (hm : '/' ∉ m) (hlen : 3 ≤ m.length) :
    ∃ X last : GoString, '/' ∉ last ∧ (X = [] ∨ ∃ X1, X = X1 ++ ['/']) ∧
      (q = [] → last = []) ∧
      filepath.Clean (q ++ m) = X ++ (last ++ m) ∧
      (last ≠ [] → last ≠ ['.'] → last ≠ ['.', '.'] → filepath.Clean q = X ++ last) := by
  obtain ⟨init, last, h1, h2, h3, h4⟩ := filepath.splitSlash_last q
  have hinit : ∀ s ∈ init, '/' ∉ s := fun s hs =>
    filepath.no_slash_of_mem_splitSlash q s (by rw [h1]; simp [hs])
  have hst : filepath.NormalStack (filepath.isRooted q)
      (init.foldl (filepath.cleanStep (filepath.isRooted q)) []) :=
    filepath.foldl_cleanStep_normal _ _ _ (filepath.normalStack_nil _) hinit
  obtain ⟨X, hX, hr⟩ := filepath.render_top _ _ hst
  have hl : 3 ≤ (last ++ m).length := by rw [List.length_append]; omega
  have n0 : last ++ m ≠ [] := by intro e; rw [e] at hl; simp at hl
  have n1 : last ++ m ≠ ['.'] := by intro e; rw [e] at hl; simp at hl
  have n2 : last ++ m ≠ ['.', '.'] := by intro e; rw [e] at hl; simp at hl
  refine ⟨X, last, h2, hX, h3, ?_, ?_⟩
  · have e1 : filepath.Clean (q ++ m) =
        filepath.render (filepath.isRooted (q ++ m)) (filepath.cleanStack (q ++ m)) := rfl
    rw [e1, filepath.isRooted_append_plain q m hm]
    unfold filepath.cleanStack
    rw [filepath.isRooted_append_plain q m hm, h4 m hm, List.foldl_append]
    simp only [List.foldl_cons, List.foldl_nil, filepath.cleanStep, n0, n1, n2, or_self,
      if_false]
    exact hr _ n0
  · intro l0 l1 l2
    have e1 : filepath.Clean q =
        filepath.render (filepath.isRooted q) (filepath.cleanStack q) := rfl
    rw [e1]
    unfold filepath.cleanStack
    rw [h1, List.foldl_append]
    simp only [List.foldl_cons, List.foldl_nil, filepath.cleanStep, l0, l1, l2, or_self,
      if_false]
    exact hr _ l0

/-- The text that `Join` cleans for three elements: `pre ++ g`, where `pre` depends on the
first two elements only. -/
theorem filepath.join_three (base t : GoString) :
    ∃ pre : GoString, ∀ g : GoString,
      (pre ++ g ≠ [] → filepath.Join [base, t, g] = filepath.Clean (pre ++ g)) ∧
      (pre ++ g = [] → filepath.Join [base, t, g] = []) := by
  by_cases hb : base = []
  · by_cases ht : t = []
    · refine ⟨[], fun g => ⟨fun hg => ?_, fun hg => ?_⟩⟩
      · have hg1 : g ≠ [] := by simpa using hg
        simp [filepath.Join, hb, ht, hg1, filepath.intercalate_single]
      · have hg1 : g = [] := by simpa using hg
        simp [filepath.Join, hb, ht, hg1]
    · refine ⟨t ++ ['/'], fun g => ⟨fun _ => ?_, fun hg => ?_⟩⟩
      · simp [filepath.Join, hb, ht, filepath.intercalate_cons_cons,
          filepath.intercalate_single]
      · simp at hg
  · refine ⟨base ++ '/' :: t ++ ['/'], fun g => ⟨fun _ => ?_, fun hg => ?_⟩⟩
    · simp [filepath.Join, hb, filepath.intercalate_cons_cons, filepath.intercalate_single]
    · simp at hg

theorem filepath.join_append_plain (base t f m : GoString) (hm : '/' ∉ m)
    (hlen : 3 ≤ m.length) :
    ∃ X last : GoString, '/' ∉ last ∧ (X = [] ∨ ∃ X1, X = X1 ++ ['/']) ∧
      filepath.Join [base, t, f ++ m] = X ++ (last ++ m) ∧
      (last ≠ [] → last ≠ ['.'] → last ≠ ['.', '.'] →
        filepath.Join [base, t, f] = X ++ last) := by
  obtain ⟨pre, hpre⟩ := filepath.join_three base t
  obtain ⟨X, last, h1, h2, h3, h4, h5⟩ := filepath.clean_append_plain (pre ++ f) m hm hlen
  have hm0 : m ≠ [] := by intro e; rw [e] at hlen; simp at hlen
  refine ⟨X, last, h1, h2, ?_, ?_⟩
  · rw [(hpre (f ++ m)).1 (by simp [hm0]), ← List.append_assoc]
    exact h4
  · intro l0 l1 l2
    have hq : pre ++ f ≠ [] := fun e => l0 (h3 e)
    rw [(hpre f).1 hq]
    exact h5 l0 l1 l2

/-- When the metadata path of a key is a directory, a slash, a proper name and
`.meta.json`, the blob path of the key is the directory, a slash, and the name. -/
theorem filepath.join_meta_pair (base t f D name : GoString)
    (n0 : name ≠ []) (n1 : name ≠ ['.']) (n2 : name ≠ ['.', '.']) (ns : '/' ∉ name)
    (h : filepath.Join [base, t, f ++ metaSuffix] = D ++ '/' :: name ++ metaSuffix) :
    filepath.Join [base, t, f] = D ++ '/' :: name := by
  obtain ⟨X, last, h1, h2, h3, h4⟩ :=
    filepath.join_append_plain base t f metaSuffix (by decide) (by decide)
  rw [h3] at h
  have hnm : '/' ∉ name ++ metaSuffix := by
    intro e
    rcases List.mem_append.mp e with e | e
    · exact ns e
    · exact absurd e (by decide)
  have hlm : '/' ∉ last ++ metaSuffix := by
    intro e
    rcases List.mem_append.mp e with e | e
    · exact h1 e
    · exact absurd e (by decide)
  rcases h2 with rfl | ⟨X1, rfl⟩
  · exfalso
    apply hlm
    have : '/' ∈ D ++ '/' :: name ++ metaSuffix := by simp
    rw [← h] at this
    simpa using this
  · have h' : X1 ++ '/' :: (last ++ metaSuffix) = D ++ '/' :: (name ++ metaSuffix) := by
      simpa using h
    obtain ⟨e1, e2⟩ := filepath.last_name_unique _ _ _ _ hlm hnm h'
    have e3 : last = name := List.append_cancel_right e2
    subst e3
    rw [h4 n0 n1 n2, e1]
    simp

/-- The metadata path of a key ends in `.meta.json` in its last element: when it is a
directory, a slash and a slash-free name, the name ends in `.meta.json`. -/
theorem filepath.join_meta_end (base t f D name : GoString) (ns : '/' ∉ name)
    (h : filepath.Join [base, t, f ++ metaSuffix] = D ++ '/' :: name) :
    metaSuffix <:+ name := by
  obtain ⟨X, last, h1, h2, h3, _⟩ :=
    filepath.join_append_plain base t f metaSuffix (by decide) (by decide)
  rw [h3] at h
  have hlm : '/' ∉ last ++ metaSuffix := by
    intro e
    rcases List.mem_append.mp e with e | e
    · exact h1 e
    · exact absurd e (by decide)
  rcases h2 with rfl | ⟨X1, rfl⟩
  · exfalso
    apply hlm
    have : '/' ∈ D ++ '/' :: name := by simp
    rw [← h] at this
    simpa using this
  · have h' : X1 ++ '/' :: (last ++ metaSuffix) = D ++ '/' :: name := by
      simpa using h
    obtain ⟨_, e2⟩ := filepath.last_name_unique _ _ _ _ hlm ns h'
    exact ⟨last, e2⟩

/-! ## Consistency of blobs and metadata over sequences of calls -/

theorem FS.erase_of_absent (fs : FS) (p : GoString) (h : fs.read p = none) :
    fs.erase p = fs := by
  induction fs with
  | nil => rfl
  | cons e rest ih =>
    obtain ⟨q, d⟩ := e
    by_cases hq : q = p
    · simp [FS.read, hq] at h
    · simp only [FS.read, hq, if_false] at h
      have e1 : FS.erase ((q, d) :: rest) p = (q, d) :: FS.erase rest p := by
        unfold FS.erase
        rw [List.filter_cons_of_pos]
        exact decide_eq_true hq
      rw [e1, ih h]

theorem os.remove_snd (fs : FS) (p : GoString) : (os.Remove false fs p).2 = fs.erase p := by
  unfold os.Remove
  by_cases h : os.Stat fs p = true
  · simp [h]
  · simp only [Bool.false_eq_true, if_false, h]
    have : fs.read p = none := by
      simpa [os.Stat] using h
    rw [FS.erase_of_absent fs p this]

theorem utils.uuid_split (u : GoString) (h : utils.isUUIDText u = true) :
    ∃ suffix rest, u = suffix ++ '-' :: rest ∧ (∀ c ∈ suffix, utils.isHexChar c = true) ∧
      suffix.length = 8 := by
  simp only [utils.isUUIDText, Bool.and_eq_true] at h
  obtain ⟨⟨⟨⟨⟨⟨⟨⟨h1, h2⟩, _⟩, _⟩, _⟩, _⟩, _⟩, _⟩, _⟩ := h
  simp only [utils.hexGroup, Bool.and_eq_true, beq_iff_eq, List.all_eq_true] at h1
  cases hd : u.drop 8 with
  | nil => rw [hd] at h2; simp at h2
  | cons c tl =>
    rw [hd] at h2
    simp only [List.head?_cons, beq_iff_eq, Option.some.injEq] at h2
    subst h2
    refine ⟨u.take 8, tl, ?_, h1.2, h1.1⟩
    rw [← hd, List.take_append_drop]

/-- An identifier generated with a well-formed UUID is a proper name that does not end in
`.meta.json`. -/
theorem utils.generated_is_name (caseTable : Char → Char) (originalName u name : GoString)
    (hu : utils.isUUIDText u = true)
    (h : utils.GenerateUniqueFilename caseTable originalName u = some name) :
    name ≠ [] ∧ name ≠ ['.'] ∧ name ≠ ['.', '.'] ∧ '/' ∉ name ∧ ¬ metaSuffix <:+ name := by
  obtain ⟨suffix, rest, hu1, hhex, hlen⟩ := utils.uuid_split u hu
  subst hu1
  cases hsan : utils.SanitizeFilename originalName with
  | none => simp [utils.GenerateUniqueFilename, hsan] at h
  | some sanitized =>
    obtain ⟨id2, hid, hseg, hslash, _⟩ :=
      utils.generated_safe_segment caseTable originalName sanitized suffix rest hsan hhex
    have e : id2 = name := by
      rw [h] at hid
      exact (Option.some.inj hid).symm
    subst e
    obtain ⟨stem, ext, _, hgen, hext⟩ :=
      utils.generate_shape caseTable originalName sanitized (suffix ++ '-' :: rest) hsan
    have hshort : strings.SplitDashFirst (suffix ++ '-' :: rest) = suffix :=
      strings.splitDashFirst_append suffix rest (fun c hc => (utils.hex_safe c (hhex c hc)).2)
    rw [hshort, h] at hgen
    refine ⟨hseg.1, hseg.2.2.1, hseg.2.2.2, hslash, ?_⟩
    rw [Option.some.inj hgen]
    exact utils.shape_not_meta stem suffix ext hhex (by omega) hext


theorem filepath.ancestorsFrom_prefix (path : GoString) :
    ∀ (acc q : GoString), q ∈ filepath.ancestorsFrom acc path → q <+: acc ++ path := by
  induction path with
  | nil =>
    intro acc q hq
    simp only [filepath.ancestorsFrom] at hq
    split at hq
    · simp at hq
    · simp only [List.mem_singleton] at hq
      rw [hq, List.append_nil]
  | cons c rest ih =>
    intro acc q hq
    have e : acc ++ c :: rest = (acc ++ [c]) ++ rest := by simp
    simp only [filepath.ancestorsFrom] at hq
    split at hq
    · rcases List.mem_cons.mp hq with hq | hq
      · rw [hq]
        exact List.prefix_append _ _
      · rw [e]
        exact ih _ _ hq
    · rw [e]
      exact ih _ _ hq

/-- Each directory on the way to a path is a leading part of the path. -/
theorem filepath.ancestors_prefix (path q : GoString) (h : q ∈ filepath.ancestors path) :
    q <+: path := by
  have := filepath.ancestorsFrom_prefix path [] q h
  simpa using this

/-- A path below a directory is not on the way to the directory. -/
theorem filepath.child_not_ancestor (D name : GoString) :
    D ++ '/' :: name ∉ filepath.ancestors D := by
  intro h
  have := (filepath.ancestors_prefix D _ h).length_le
  simp at this

/-- The result of `Join` on a base and a proper name: the same text for every name, and
then the name. -/
theorem filepath.join_two (base : GoString) :
    ∃ Y : GoString, ∀ t : GoString, t ≠ [] → t ≠ ['.'] → t ≠ ['.', '.'] → '/' ∉ t →
      filepath.Join [base, t] = Y ++ t ∧ ∃ x : GoString, filepath.Join [base, t] =
        filepath.Clean x := by
  by_cases hb : base = []
  · refine ⟨[], fun t t0 t1 t2 ts => ?_⟩
    have e : filepath.Join [base, t] = filepath.Clean t := by
      simp [filepath.Join, hb, t0, filepath.intercalate_single]
    refine ⟨?_, t, e⟩
    rw [e]
    have e1 : filepath.Clean t = filepath.render (filepath.isRooted t) (filepath.cleanStack t) :=
      rfl
    rw [e1, filepath.cleanStack_segment t t0 t1 t2 ts]
    cases t with
    | nil => exact absurd rfl t0
    | cons c cs =>
      have hc : c ≠ '/' := fun e => ts (by simp [e])
      simp [filepath.render, filepath.isRooted, hc, filepath.intercalate_single]
  · obtain ⟨X, _, hX⟩ := filepath.render_top (filepath.isRooted base) (filepath.cleanStack base)
      (filepath.cleanStack_normal base)
    refine ⟨X, fun t t0 t1 t2 ts => ?_⟩
    have e : filepath.Join [base, t] = filepath.Clean (base ++ '/' :: t) := by
      simp [filepath.Join, hb, filepath.intercalate_cons_cons, filepath.intercalate_single]
    refine ⟨?_, _, e⟩
    rw [e]
    have e1 : filepath.Clean (base ++ '/' :: t) =
        filepath.render (filepath.isRooted (base ++ '/' :: t))
          (filepath.cleanStack (base ++ '/' :: t)) := rfl
    rw [e1, filepath.isRooted_append base _ hb,
      filepath.cleanStack_append_segment base t hb t0 t1 t2 ts]
    exact hX t t0

/-- The directory of a path made of a cleaned path, a slash and a name is the cleaned
path. -/
theorem filepath.dir_child (x name : GoString) (ns : '/' ∉ name) :
    filepath.Dir (filepath.Clean x ++ '/' :: name) = filepath.Clean x := by
  have hrev : (filepath.Clean x ++ '/' :: name).reverse =
      name.reverse ++ '/' :: (filepath.Clean x).reverse := by simp
  have hall : ∀ c ∈ name.reverse, (c != '/') = true := by
    intro c hc
    have : c ∈ name := by simpa using hc
    simp only [bne_iff_ne, ne_eq]
    intro e
    exact ns (e ▸ this)
  have hdrop : (name.reverse ++ '/' :: (filepath.Clean x).reverse).dropWhile
      (fun c => c != '/') = '/' :: (filepath.Clean x).reverse := by
    rw [List.dropWhile_append_of_pos hall]
    simp [List.dropWhile]
  unfold filepath.Dir
  rw [hrev, hdrop]
  have e0 : ('/' :: (filepath.Clean x).reverse).reverse = filepath.Clean x ++ '/' :: [] := by
    simp
  rw [e0]
  have e1 : filepath.Clean (filepath.Clean x ++ '/' :: []) =
      filepath.render (filepath.isRooted (filepath.Clean x ++ '/' :: []))
        (filepath.cleanStack (filepath.Clean x ++ '/' :: [])) := rfl
  have e2 : filepath.Clean x = filepath.render (filepath.isRooted x) (filepath.cleanStack x) :=
    rfl
  rw [e1, filepath.isRooted_append _ _ (filepath.clean_ne_nil x), filepath.isRooted_clean,
    filepath.cleanStack_append _ _ (filepath.clean_ne_nil x), filepath.cleanStack_clean]
  simp only [filepath.splitSlash, List.foldl_cons, List.foldl_nil, filepath.cleanStep,
    true_or, if_true]
  exact e2.symm

theorem filepath.blob_ne_meta (D D2 name name2 : GoString) (ns : '/' ∉ name)
    (ns2 : '/' ∉ name2) (nm2 : ¬ metaSuffix <:+ name2) :
    D2 ++ '/' :: name2 ≠ (D ++ '/' :: name) ++ metaSuffix := by
  intro e
  have hnm : '/' ∉ name ++ metaSuffix := by
    intro h
    rcases List.mem_append.mp h with h | h
    · exact ns h
    · exact absurd h (by decide)
  have e2 : D2 ++ '/' :: name2 = D ++ '/' :: (name ++ metaSuffix) := by
    rw [e]
    simp
  exact nm2 ⟨name, ((filepath.last_name_unique _ _ _ _ ns2 hnm e2).2).symm⟩

/-- A complete pair stays complete in a store that differs only at another blob path and
its metadata path. -/
theorem paired_of_agree (base : GoString) (fs fs2 : FS) (D name pb2 : GoString)
    (ns : '/' ∉ name) (nm : ¬ metaSuffix <:+ name)
    (hp : Paired base fs pb2) (hne : pb2 ≠ D ++ '/' :: name)
    (hag : ∀ x, x ≠ D ++ '/' :: name → x ≠ (D ++ '/' :: name) ++ metaSuffix →
      fs2.read x = fs.read x) :
    Paired base fs2 pb2 := by
  obtain ⟨⟨D2, name2, hpb, m0, m1, m2, ms, mm⟩, hblob, fm, hmeta, hpath⟩ := hp
  have c1 : pb2 ≠ (D ++ '/' :: name) ++ metaSuffix := by
    rw [hpb]
    exact filepath.blob_ne_meta D D2 name name2 ns ms mm
  have c2 : pb2 ++ metaSuffix ≠ D ++ '/' :: name := by
    rw [hpb]
    exact fun e => filepath.blob_ne_meta D2 D name2 name ms ns nm e.symm
  have c3 : pb2 ++ metaSuffix ≠ (D ++ '/' :: name) ++ metaSuffix :=
    fun e => hne (List.append_cancel_right e)
  refine ⟨⟨D2, name2, hpb, m0, m1, m2, ms, mm⟩, ?_, fm, ?_, hpath⟩
  · rw [hag pb2 hne c1]
    exact hblob
  · rw [hag _ c2 c3]
    exact hmeta

theorem utils.deleteFile_faultFree (fs : FS) (p : GoString) :
    utils.DeleteFile false fs p = (none, fs.erase p) := by
  unfold utils.DeleteFile os.Remove
  by_cases h : os.Stat fs p = true
  · simp [h]
  · have : fs.read p = none := by
      simpa [os.Stat] using h
    simp [h, FS.erase_of_absent fs p this]

theorem FileMeta.removeRecord_faultFree (fm : FileMeta) (base : GoString) (fs : FS) :
    (fm.Delete base false fs).2 = fs.erase (fm.GetMetaPath base) := by
  unfold FileMeta.Delete os.Remove
  by_cases h : os.Stat fs (fm.GetMetaPath base) = true
  · simp [h]
  · have : fs.read (fm.GetMetaPath base) = none := by
      simpa [os.Stat] using h
    simp [h, FS.erase_of_absent fs _ this]

theorem filepath.join_meta_child (base tag name : GoString)
    (t0 : tag ≠ []) (t1 : tag ≠ ['.']) (t2 : tag ≠ ['.', '.']) (ts : '/' ∉ tag)
    (ns : '/' ∉ name) :
    filepath.Join [base, tag, name ++ metaSuffix] =
      filepath.Join [base, tag] ++ '/' :: name ++ metaSuffix := by
  have hlen : 10 ≤ (name ++ metaSuffix).length := by
    have : metaSuffix.length = 10 := by decide
    rw [List.length_append]
    omega
  rw [filepath.join_direct_child base tag (name ++ metaSuffix) t0 t1 t2 ts
    (by intro e; rw [e] at hlen; simp at hlen)
    (by intro e; rw [e] at hlen; simp at hlen)
    (by intro e; rw [e] at hlen; simp at hlen)
    (by
      intro hm
      rcases List.mem_append.mp hm with hm | hm
      · exact ns hm
      · exact absurd hm (by decide))]
  simp


theorem consistent_nil (base : GoString) : Consistent base [] := by
  constructor
  · intro q d hq
    simp [FS.read] at hq
  · intro q hq
    simp [FS.read] at hq

theorem paired_of_reads (base : GoString) (fs fs2 : FS) (pb : GoString)
    (h : ∀ q, fs2.read q = fs.read q) (hp : Paired base fs pb) : Paired base fs2 pb := by
  obtain ⟨hs, hblob, fm, hmeta, hpath⟩ := hp
  exact ⟨hs, by rw [h]; exact hblob, fm, by rw [h]; exact hmeta, hpath⟩

/-- Consistency is a matter of what stands at each path. -/
theorem consistent_of_reads (base : GoString) (fs fs2 : FS)
    (h : ∀ q, fs2.read q = fs.read q) (hc : Consistent base fs) : Consistent base fs2 := by
  constructor
  · intro q d hq
    rw [h] at hq
    obtain ⟨pb, hp, hq2⟩ := hc.1 q d hq
    exact ⟨pb, paired_of_reads base fs fs2 pb h hp, hq2⟩
  · intro q hq
    rw [h] at hq
    exact hc.2 q hq

theorem consistent_mkdirAll (base : GoString) (fs : FS) (tag : GoString)
    (hc : Consistent base fs) (ht : utils.ValidateTag tag = none) :
    Consistent base (fs.mkdirAll (filepath.Join [base, tag])) := by
  constructor
  · intro q d hq
    rw [FS.read_mkdirAll] at hq
    cases hr : fs.read q with
    | none =>
      rw [hr] at hq
      simp only at hq
      split at hq <;> simp at hq
    | some e =>
      rw [hr] at hq
      simp only [Option.some.injEq] at hq
      subst hq
      obtain ⟨pb, ⟨hs, hblob, fm, hmeta, hpath⟩, hq2⟩ := hc.1 q d hr
      exact ⟨pb, ⟨hs, FS.isSome_read_mkdirAll _ _ _ hblob, fm,
        FS.read_mkdirAll_of_some _ _ _ _ hmeta, hpath⟩, hq2⟩
  · intro q hq
    rw [FS.read_mkdirAll] at hq
    cases hr : fs.read q with
    | none =>
      rw [hr] at hq
      simp only at hq
      split at hq
      · rename_i hmem
        exact ⟨tag, ht, hmem⟩
      · simp at hq
    | some e =>
      rw [hr] at hq
      simp only [Option.some.injEq] at hq
      subst hq
      exact hc.2 q hr

theorem consistent_put_pair (base : GoString) (fs : FS) (D name : GoString) (fm : FileMeta)
    (b : FileData) (hc : Consistent base fs)
    (n0 : name ≠ []) (n1 : name ≠ ['.']) (n2 : name ≠ ['.', '.']) (ns : '/' ∉ name)
    (nm : ¬ metaSuffix <:+ name)
    (hfm : fm.GetMetaPath base = (D ++ '/' :: name) ++ metaSuffix) :
    Consistent base (((fs.put (D ++ '/' :: name) (.file b)).put
      ((D ++ '/' :: name) ++ metaSuffix) (.file (.json fm.marshal)))) := by
  have hself : D ++ '/' :: name ≠ (D ++ '/' :: name) ++ metaSuffix := by
    intro e
    have h : (D ++ '/' :: name) ++ [] = (D ++ '/' :: name) ++ metaSuffix := by
      rw [List.append_nil]
      exact e
    exact absurd (List.append_cancel_left h) (by decide)
  have hnew : Paired base (((fs.put (D ++ '/' :: name) (.file b)).put
      ((D ++ '/' :: name) ++ metaSuffix) (.file (.json fm.marshal)))) (D ++ '/' :: name) := by
    refine ⟨⟨D, name, rfl, n0, n1, n2, ns, nm⟩, ?_, fm, ?_, hfm⟩
    · rw [FS.read_put, if_neg hself, FS.read_put, if_pos rfl]
      rfl
    · rw [FS.read_put, if_pos rfl]
  constructor
  · intro q d hq
    by_cases h1 : q = D ++ '/' :: name
    · exact ⟨_, hnew, Or.inl h1⟩
    · by_cases h2 : q = (D ++ '/' :: name) ++ metaSuffix
      · exact ⟨_, hnew, Or.inr h2⟩
      · rw [FS.read_put, if_neg h2, FS.read_put, if_neg h1] at hq
        obtain ⟨pb2, hp, hq2⟩ := hc.1 q d hq
        have hne : pb2 ≠ D ++ '/' :: name := by
          intro e
          rcases hq2 with hq2 | hq2
          · exact h1 (hq2.trans e)
          · exact h2 (by rw [hq2, e])
        refine ⟨pb2, paired_of_agree base fs _ D name pb2 ns nm hp hne ?_, hq2⟩
        intro x hx1 hx2
        rw [FS.read_put, if_neg hx2, FS.read_put, if_neg hx1]
  · intro q hq
    by_cases h2 : q = (D ++ '/' :: name) ++ metaSuffix
    · rw [FS.read_put, if_pos h2] at hq
      simp at hq
    · by_cases h1 : q = D ++ '/' :: name
      · rw [FS.read_put, if_neg h2, FS.read_put, if_pos h1] at hq
        simp at hq
      · rw [FS.read_put, if_neg h2, FS.read_put, if_neg h1] at hq
        exact hc.2 q hq

theorem consistent_erase_pair (base : GoString) (fs : FS) (D name : GoString)
    (hc : Consistent base fs) (ns : '/' ∉ name) (nm : ¬ metaSuffix <:+ name) :
    Consistent base ((fs.erase (D ++ '/' :: name)).erase ((D ++ '/' :: name) ++ metaSuffix)) := by
  constructor
  · intro q d hq
    rw [FS.read_erase] at hq
    by_cases h2 : q = (D ++ '/' :: name) ++ metaSuffix
    · simp [h2] at hq
    · rw [if_neg h2, FS.read_erase] at hq
      by_cases h1 : q = D ++ '/' :: name
      · simp [h1] at hq
      · rw [if_neg h1] at hq
        obtain ⟨pb2, hp, hq2⟩ := hc.1 q d hq
        have hne : pb2 ≠ D ++ '/' :: name := by
          intro e
          rcases hq2 with hq2 | hq2
          · exact h1 (hq2.trans e)
          · exact h2 (by rw [hq2, e])
        refine ⟨pb2, paired_of_agree base fs _ D name pb2 ns nm hp hne ?_, hq2⟩
        intro x hx1 hx2
        rw [FS.read_erase, if_neg hx2, FS.read_erase, if_neg hx1]
  · intro q hq
    rw [FS.read_erase] at hq
    by_cases h2 : q = (D ++ '/' :: name) ++ metaSuffix
    · simp [h2] at hq
    · rw [if_neg h2, FS.read_erase] at hq
      by_cases h1 : q = D ++ '/' :: name
      · simp [h1] at hq
      · rw [if_neg h1] at hq
        exact hc.2 q hq

/-- What `CreateDirectory` returns: an error with the store as it was, or no error with
the store as it was or with the directories added. -/
theorem utils.createDirectory_cases (mk : Bool) (fs : FS) (path : GoString) :
    (∃ e, utils.CreateDirectory mk fs path = (some e, fs)) ∨
    utils.CreateDirectory mk fs path = (none, fs) ∨
    utils.CreateDirectory mk fs path = (none, fs.mkdirAll path) := by
  unfold utils.CreateDirectory os.MkdirAll
  by_cases hs : os.Stat fs path = true
  · simp [hs]
  · cases mk with
    | true => left; simp [hs]
    | false => right; right; simp [hs]

/-- A file written where nothing stood and removed again leaves a consistent store
consistent. -/
theorem consistent_undo (base : GoString) (fs0 : FS) (fp : GoString) (e : Entry)
    (hc : Consistent base fs0) (hfresh : fs0.read fp = none) :
    Consistent base ((fs0.put fp e).erase fp) := by
  refine consistent_of_reads base fs0 _ ?_ hc
  intro q
  rw [FS.read_erase]
  by_cases hq : q = fp
  · rw [if_pos hq, hq, hfresh]
  · rw [if_neg hq, FS.read_put, if_neg hq]

theorem consistent_undo_mkdir (base : GoString) (fs0 : FS) (tag name : GoString) (e : Entry)
    (hc : Consistent base fs0) (ht : utils.ValidateTag tag = none)
    (hfresh : fs0.read (filepath.Join [base, tag] ++ '/' :: name) = none) :
    Consistent base (((fs0.put (filepath.Join [base, tag] ++ '/' :: name) e).mkdirAll
      (filepath.Join [base, tag])).erase (filepath.Join [base, tag] ++ '/' :: name)) := by
  refine consistent_of_reads base (fs0.mkdirAll (filepath.Join [base, tag])) _ ?_
    (consistent_mkdirAll base fs0 tag hc ht)
  intro q
  rw [FS.read_erase, FS.read_mkdirAll, FS.read_mkdirAll]
  by_cases hq : q = filepath.Join [base, tag] ++ '/' :: name
  · rw [if_pos hq, hq, hfresh]
    simp [filepath.child_not_ancestor]
  · rw [if_neg hq, FS.read_put, if_neg hq]

theorem consistent_write_pair (base : GoString) (fs0 : FS) (tag name : GoString)
    (fm : FileMeta) (b : FileData)
    (hc : Consistent base fs0) (ht : utils.ValidateTag tag = none)
    (n0 : name ≠ []) (n1 : name ≠ ['.']) (n2 : name ≠ ['.', '.']) (ns : '/' ∉ name)
    (nm : ¬ metaSuffix <:+ name)
    (hfm : fm.GetMetaPath base = (filepath.Join [base, tag] ++ '/' :: name) ++ metaSuffix) :
    Consistent base (((fs0.put (filepath.Join [base, tag] ++ '/' :: name) (.file b)).mkdirAll
      (filepath.Join [base, tag])).put
        ((filepath.Join [base, tag] ++ '/' :: name) ++ metaSuffix)
        (.file (.json fm.marshal))) := by
  refine consistent_of_reads base
    (((fs0.mkdirAll (filepath.Join [base, tag])).put
      (filepath.Join [base, tag] ++ '/' :: name) (.file b)).put
        ((filepath.Join [base, tag] ++ '/' :: name) ++ metaSuffix)
        (.file (.json fm.marshal))) _ ?_
    (consistent_put_pair base _ _ name fm b (consistent_mkdirAll base fs0 tag hc ht)
      n0 n1 n2 ns nm hfm)
  intro q
  rw [FS.read_put, FS.read_put]
  by_cases h2 : q = (filepath.Join [base, tag] ++ '/' :: name) ++ metaSuffix
  · rw [if_pos h2, if_pos h2]
  · rw [if_neg h2, if_neg h2, FS.read_mkdirAll, FS.read_put, FS.read_put, FS.read_mkdirAll]
    by_cases h1 : q = filepath.Join [base, tag] ++ '/' :: name
    · rw [if_pos h1, if_pos h1]
    · rw [if_neg h1, if_neg h1]

/-- A call of `Upload` that is `tidy` on a consistent store leaves a consistent store. -/
theorem FileService.upload_tidy_consistent (caseTable : Char → Char) (cfg : Config)
    (env : UploadEnv) (fs : FS) (req : UploadRequest)
    (ht : (Call.upload env req).tidy caseTable cfg fs = true)
    (hc : Consistent cfg.BasePath fs) :
    Consistent cfg.BasePath (FileService.Upload caseTable cfg env fs req).2 := by
  simp only [Call.tidy] at ht
  unfold FileService.Upload
  cases hv1 : utils.ValidateTag req.Tag with
  | some e => exact hc
  | none =>
  cases hv2 : utils.ValidateFileSize req.File.Size cfg.MaxFileSize with
  | some e => exact hc
  | none =>
  cases hv3 : utils.ValidateFileExtension caseTable (RawString.runes req.File.Filename)
      cfg.AllowedExtensions with
  | some e => exact hc
  | none =>
  cases hg : utils.GenerateUniqueFilename caseTable (RawString.runes req.File.Filename)
      env.uuid with
  | none => exact hc
  | some fileID =>
  simp only [hv1, hv2, hv3, hg] at ht
  cases ho : env.openFault with
  | true => exact hc
  | false =>
  simp only [ho, Bool.false_eq_true, if_false] at ht ⊢
  have hcases := utils.createDirectory_cases env.mkdirFault fs
    (filepath.Join [cfg.BasePath, req.Tag])
  by_cases herr : ∃ e, utils.CreateDirectory env.mkdirFault fs
      (filepath.Join [cfg.BasePath, req.Tag]) = (some e, fs)
  · obtain ⟨e, hcd⟩ := herr
    simp only [StorageService.SaveFile, hcd]
    exact hc
  · obtain ⟨fs0, hcd, hc0⟩ : ∃ fs0, utils.CreateDirectory env.mkdirFault fs
        (filepath.Join [cfg.BasePath, req.Tag]) = (none, fs0) ∧
        Consistent cfg.BasePath fs0 := by
      rcases hcases with h | h | h
      · exact absurd h herr
      · exact ⟨fs, h, hc⟩
      · exact ⟨_, h, consistent_mkdirAll _ _ _ hc hv1⟩
    simp only [hcd] at ht
    simp only [StorageService.SaveFile, hcd]
    cases hcf : env.createFault with
    | true => exact hc0
    | false =>
    simp only [hcf, Bool.false_eq_true, if_false, Bool.and_eq_true] at ht ⊢
    obtain ⟨huuid, ht⟩ := ht
    obtain ⟨n0, n1, n2, ns, nm⟩ :=
      utils.generated_is_name caseTable (RawString.runes req.File.Filename) env.uuid fileID
        huuid hg
    obtain ⟨t0, t1, t2, ts⟩ := utils.tag_is_segment req.Tag hv1
    have hp : filepath.Join [cfg.BasePath, req.Tag, fileID] =
        filepath.Join [cfg.BasePath, req.Tag] ++ '/' :: fileID :=
      filepath.join_direct_child _ _ _ t0 t1 t2 ts n0 n1 n2 ns
    have hpm : filepath.Join [cfg.BasePath, req.Tag, fileID ++ metaSuffix] =
        filepath.Join [cfg.BasePath, req.Tag] ++ '/' :: fileID ++ metaSuffix :=
      filepath.join_meta_child _ _ _ t0 t1 t2 ts ns
    have hdir : filepath.Dir (filepath.Join [cfg.BasePath, req.Tag] ++ '/' :: fileID ++
        metaSuffix) = filepath.Join [cfg.BasePath, req.Tag] := by
      obtain ⟨Y, hY⟩ := filepath.join_two cfg.BasePath
      obtain ⟨_, x, hx⟩ := hY req.Tag t0 t1 t2 ts
      have e : filepath.Join [cfg.BasePath, req.Tag] ++ '/' :: fileID ++ metaSuffix =
          filepath.Join [cfg.BasePath, req.Tag] ++ '/' :: (fileID ++ metaSuffix) := by simp
      rw [e, hx]
      exact filepath.dir_child x _ (by
        intro hm
        rcases List.mem_append.mp hm with hm | hm
        · exact ns hm
        · exact absurd hm (by decide))
    simp only [filepath.join_join, hp]
    have hfresh : ∀ (hs : os.Stat fs0 (filepath.Join [cfg.BasePath, req.Tag, fileID]) = false),
        fs0.read (filepath.Join [cfg.BasePath, req.Tag] ++ '/' :: fileID) = none := by
      intro hs
      rw [hp] at hs
      simpa [os.Stat] using hs
    cases hcp : env.copyFault with
    | some left =>
      simp only [hcp, Bool.and_eq_true, Bool.not_eq_true'] at ht
      simp only [ht.1, os.remove_snd]
      exact consistent_undo _ _ _ _ hc0 (hfresh ht.2)
    | none =>
      simp only [hcp] at ht
      have hget : StorageService.GetFile cfg
          (fs0.put (filepath.Join [cfg.BasePath, req.Tag] ++ '/' :: fileID)
            (.file env.body)) req.Tag fileID =
          .ok (filepath.Join [cfg.BasePath, req.Tag] ++ '/' :: fileID) := by
        simp [StorageService.GetFile, utils.FileExists, os.Stat, hp, FS.read_put]
      simp only [hget, FileMeta.Save, FileMeta.GetMetaPath, hpm, hdir, os.MkdirAll]
      cases hmk : env.metaMkdirFault with
      | true =>
        simp only [hmk, if_true, Bool.and_eq_true, Bool.not_eq_true'] at ht
        simp only [if_true, StorageService.deleteFile_snd, ht.1, hp, os.remove_snd]
        exact consistent_undo _ _ _ _ hc0 (hfresh ht.2)
      | false =>
        simp only [hmk, Bool.false_eq_true, if_false] at ht ⊢
        cases hw : env.metaWrite with
        | done =>
          simp only [os.WriteFile]
          exact consistent_write_pair cfg.BasePath fs0 req.Tag fileID _ env.body hc0 hv1
            n0 n1 n2 ns nm (by simp only [FileMeta.GetMetaPath, hpm])
        | refused =>
          simp only [hw, Bool.and_eq_true, Bool.not_eq_true'] at ht
          simp only [os.WriteFile, StorageService.deleteFile_snd, ht.1, hp, os.remove_snd]
          exact consistent_undo_mkdir cfg.BasePath fs0 req.Tag fileID _ hc0 hv1 (hfresh ht.2)
        | broken left =>
          simp [hw] at ht

/-- A call of `Delete` that is `tidy` on a consistent store leaves a consistent store. -/
theorem FileService.delete_tidy_consistent (caseTable : Char → Char) (cfg : Config)
    (env : DeleteEnv) (fs : FS) (tag fileID : GoString)
    (ht : (Call.delete env tag fileID).tidy caseTable cfg fs = true)
    (hc : Consistent cfg.BasePath fs) :
    Consistent cfg.BasePath (FileService.Delete cfg env fs tag fileID).2 := by
  simp only [Call.tidy] at ht
  unfold FileService.Delete
  simp only [FileMeta.Load, os.ReadFile, FileMeta.GetMetaPath] at ht ⊢
  cases hr : fs.read (filepath.Join [cfg.BasePath, tag, fileID ++ metaSuffix]) with
  | none => exact hc
  | some entry =>
    cases entry with
    | dir => exact hc
    | file content =>
      cases content with
      | raw bytes => exact hc
      | json d =>
        simp only [hr, Bool.or_eq_true, Bool.not_eq_true'] at ht
        simp only
        cases hb : env.blobFault with
        | true =>
          simp only [StorageService.DeleteFile, utils.DeleteFile, os.Remove, if_true]
          exact hc
        | false =>
          have hm : env.metaFault = false := by
            rcases ht with h | h
            · rw [hb] at h; exact absurd h (by decide)
            · exact h
          obtain ⟨pb, hp, hq⟩ := hc.1 _ _ hr
          obtain ⟨⟨D, name, hpb, n0, n1, n2, ns, nm⟩, _, fm, hmeta, hpath⟩ := hp
          rcases hq with hq | hq
          · exact absurd (filepath.join_meta_end cfg.BasePath tag fileID D name ns
              (hq.trans hpb)) nm
          · have hd : d = fm.marshal := by
              rw [← hq, hr] at hmeta
              simpa using hmeta
            have hblob : filepath.Join [cfg.BasePath, tag, fileID] = D ++ '/' :: name :=
              filepath.join_meta_pair cfg.BasePath tag fileID D name n0 n1 n2 ns
                (by rw [hq, hpb])
            simp only [StorageService.DeleteFile, hblob, utils.deleteFile_faultFree, hm,
              FileMeta.removeRecord_faultFree, hd, FileMeta.getMetaPath_unmarshal_marshal,
              hpath, hpb]
            exact consistent_erase_pair cfg.BasePath fs D name hc ns nm

theorem Call.run_consistent (caseTable : Char → Char) (cfg : Config) (fs : FS) (c : Call)
    (h : c.tidy caseTable cfg fs = true) (hc : Consistent cfg.BasePath fs) :
    Consistent cfg.BasePath (c.run caseTable cfg fs) := by
  cases c with
  | upload env req => exact FileService.upload_tidy_consistent caseTable cfg env fs req h hc
  | delete env tag fileID =>
    exact FileService.delete_tidy_consistent caseTable cfg env fs tag fileID h hc

theorem runCalls_consistent (caseTable : Char → Char) (cfg : Config) (calls : List Call)
    (h : tidyRun caseTable cfg [] calls = true) :
    Consistent cfg.BasePath (runCalls caseTable cfg calls) := by
  have key : ∀ (cs : List Call) (fs : FS), tidyRun caseTable cfg fs cs = true →
      Consistent cfg.BasePath fs →
      Consistent cfg.BasePath (cs.foldl (Call.run caseTable cfg) fs) := by
    intro cs
    induction cs with
    | nil => intro fs _ hc; exact hc
    | cons c rest ih =>
      intro fs hall hc
      simp only [tidyRun, Bool.and_eq_true] at hall
      simp only [List.foldl_cons]
      exact ih _ hall.2 (Call.run_consistent caseTable cfg fs c hall.1 hc)
  exact key calls [] h (consistent_nil _)

/-- In a consistent store nothing stands at the blob path of a key of proper names unless
it is the blob of a pair. -/
theorem consistent_blob_path (base : GoString) (fs : FS) (tag fileID : GoString)
    (hc : Consistent base fs)
    (t0 : tag ≠ []) (t1 : tag ≠ ['.']) (t2 : tag ≠ ['.', '.']) (ts : '/' ∉ tag)
    (hdir : fs.read (filepath.Join [base, tag] ++ '/' :: fileID) = some Entry.dir) :
    False := by
  obtain ⟨tag2, ht2, hmem⟩ := hc.2 _ hdir
  obtain ⟨u0, u1, u2, us⟩ := utils.tag_is_segment tag2 ht2
  obtain ⟨Y, hY⟩ := filepath.join_two base
  have e1 := (hY tag t0 t1 t2 ts).1
  have e2 := (hY tag2 u0 u1 u2 us).1
  have hpre := filepath.ancestors_prefix _ _ hmem
  rw [e1, e2, List.append_assoc] at hpre
  have h3 : tag ++ '/' :: fileID <+: tag2 := (List.prefix_append_right_inj Y).mp hpre
  exact us (h3.subset (by simp))

/-- C23, as stated, fails in two ways.  After an upload and a delete during which the
removal of the metadata file fails, the delete reports success, the metadata file of the
key is still there, and the blob is gone.  And after an upload and a second upload that
generates the same identifier, writes over the blob, cannot write its metadata and
removes the blob again, the metadata file of the first upload is there without a blob. -/
theorem delete_fault_leaves_metadata_without_blob :
    ((FileService.Delete Sample.cfg { blobFault := false, metaFault := true } Sample.stored
        "img".toList Sample.fileID).1 = none ∧
      FileMeta.Exists { FileMeta.zero with Tag := "img".toList, FileID := Sample.fileID }
        Sample.cfg.BasePath (runCalls id Sample.cfg Sample.faultyCalls) = true ∧
      StorageService.FileExists Sample.cfg (runCalls id Sample.cfg Sample.faultyCalls)
        "img".toList Sample.fileID = false) ∧
    (FileMeta.Exists { FileMeta.zero with Tag := "img".toList, FileID := Sample.fileID }
        Sample.cfg.BasePath (runCalls id Sample.cfg Sample.overwritingCalls) = true ∧
      StorageService.FileExists Sample.cfg (runCalls id Sample.cfg Sample.overwritingCalls)
        "img".toList Sample.fileID = false) := by
  decide

/-- C23, as amended.  Take any sequence of calls of `Upload` and `Delete` from the empty
store, each completed with success or with failure, in which every call is `tidy`: a call
that has written the blob and then fails removes it again and had not written over
another file, no metadata write is left half-done, a `Delete` that has removed the blob
removes the metadata file, and the UUIDs have the usual form; calls rejected on
validation, calls that fail before the first write and a `Delete` whose removal of the
blob fails are all allowed.  In the store reached: if the metadata file of a key
(tag, fileID) can be read then the blob of the key exists and the record loads; and if
something exists at the blob path of a key whose tag and identifier are proper names, the
identifier not ending in `.meta.json`, then the record of the key loads. -/
theorem store_pairs_kept (caseTable : Char → Char) (cfg : Config)
    (calls : List Call) (hok : tidyRun caseTable cfg [] calls = true) :
    (∀ (tag fileID : GoString) (d : FileData),
      os.ReadFile (runCalls caseTable cfg calls)
        (FileMeta.GetMetaPath { FileMeta.zero with Tag := tag, FileID := fileID }
          cfg.BasePath) = Except.ok d →
      StorageService.FileExists cfg (runCalls caseTable cfg calls) tag fileID = true ∧
      ∃ fm, FileMeta.Load { FileMeta.zero with Tag := tag, FileID := fileID } cfg.BasePath
        (runCalls caseTable cfg calls) = Except.ok fm) ∧
    (∀ tag fileID : GoString,
      tag ≠ [] → tag ≠ ['.'] → tag ≠ ['.', '.'] → '/' ∉ tag →
      fileID ≠ [] → fileID ≠ ['.'] → fileID ≠ ['.', '.'] → '/' ∉ fileID →
      ¬ metaSuffix <:+ fileID →
      StorageService.FileExists cfg (runCalls caseTable cfg calls) tag fileID = true →
      ∃ fm, FileMeta.Load { FileMeta.zero with Tag := tag, FileID := fileID } cfg.BasePath
        (runCalls caseTable cfg calls) = Except.ok fm) := by
  have hc := runCalls_consistent caseTable cfg calls hok
  generalize runCalls caseTable cfg calls = fs at hc
  constructor
  · intro tag fileID d hread
    simp only [os.ReadFile, FileMeta.GetMetaPath] at hread
    have hentry : fs.read (filepath.Join [cfg.BasePath, tag, fileID ++ metaSuffix]) =
        some (Entry.file d) := by
      cases hr : fs.read (filepath.Join [cfg.BasePath, tag, fileID ++ metaSuffix]) with
      | none => rw [hr] at hread; simp at hread
      | some e =>
        cases e with
        | dir => rw [hr] at hread; simp at hread
        | file c =>
          rw [hr] at hread
          simp only [Except.ok.injEq] at hread
          rw [hread]
    obtain ⟨pb, hp, hq⟩ := hc.1 _ _ hentry
    obtain ⟨⟨D, name, hpb, n0, n1, n2, ns, nm⟩, hblob, fm, hmeta, _⟩ := hp
    rcases hq with hq | hq
    · exact absurd (filepath.join_meta_end cfg.BasePath tag fileID D name ns
        (hq.trans hpb)) nm
    · have hb : filepath.Join [cfg.BasePath, tag, fileID] = pb := by
        rw [hpb]
        exact filepath.join_meta_pair cfg.BasePath tag fileID D name n0 n1 n2 ns
          (by rw [hq, hpb])
      refine ⟨?_, FileMeta.unmarshalInto fm.marshal
        { FileMeta.zero with Tag := tag, FileID := fileID }, ?_⟩
      · simp only [StorageService.FileExists, utils.FileExists, os.Stat, hb]
        exact hblob
      · simp only [FileMeta.Load, FileMeta.GetMetaPath, os.ReadFile, hq, hmeta]
  · intro tag fileID t0 t1 t2 ts f0 f1 f2 fsl fm hex
    have hb : filepath.Join [cfg.BasePath, tag, fileID] =
        filepath.Join [cfg.BasePath, tag] ++ '/' :: fileID :=
      filepath.join_direct_child _ _ _ t0 t1 t2 ts f0 f1 f2 fsl
    have hm : filepath.Join [cfg.BasePath, tag, fileID ++ metaSuffix] =
        filepath.Join [cfg.BasePath, tag] ++ '/' :: fileID ++ metaSuffix :=
      filepath.join_meta_child _ _ _ t0 t1 t2 ts fsl
    simp only [StorageService.FileExists, utils.FileExists, os.Stat, hb] at hex
    cases hr : fs.read (filepath.Join [cfg.BasePath, tag] ++ '/' :: fileID) with
    | none => rw [hr] at hex; simp at hex
    | some e =>
      cases e with
      | dir => exact absurd hr (fun h =>
          consistent_blob_path cfg.BasePath fs tag fileID hc t0 t1 t2 ts h)
      | file c =>
        obtain ⟨pb, hp, hq⟩ := hc.1 _ _ hr
        obtain ⟨⟨D, name, hpb, n0, n1, n2, ns, nm⟩, _, rec, hmeta, _⟩ := hp
        rcases hq with hq | hq
        · refine ⟨FileMeta.unmarshalInto rec.marshal
            { FileMeta.zero with Tag := tag, FileID := fileID }, ?_⟩
          simp only [FileMeta.Load, FileMeta.GetMetaPath, os.ReadFile, hm, hq, hmeta]
        · rw [hpb] at hq
          exact absurd hq (filepath.blob_ne_meta D _ name fileID ns fsl fm)

theorem store_pairs_kept_witness :
    tidyRun id Sample.cfg [] Sample.calls = true ∧
    StorageService.FileExists Sample.cfg (runCalls id Sample.cfg Sample.calls)
      "doc".toList "b_1234abcd.jpg".toList = true :=
  ⟨by decide,
   ((store_pairs_kept id Sample.cfg Sample.calls (by decide)).1
      "doc".toList "b_1234abcd.jpg".toList
      (FileData.json (FileMeta.marshal
        { FileID := "b_1234abcd.jpg".toList, OriginalName := RawString.ofValid "b.jpg".toList,
          Tag := "doc".toList, Size := 2,
          ContentType := "application/octet-stream".toList, Public := false,
          UploadedAt := 5, UploadedBy := RawString.ofValid "eve".toList }))
      (by rfl)).1⟩
